import Mathlib

/-!
# Adaptive CPU pipeline of `power-libperfmgr/adaptivecpu`

A shallow embedding of `CpuLoadReader.cpp`, `Model.cpp` and
`AdaptiveCpuConfig.cpp`, followed by theorems about the embedded functions.

Conventions of the embedding.

* `uint32_t` / `uint64_t` values are natural numbers; every operation that can
  wrap in C++ carries an explicit `% 2 ^ 32` or `% 2 ^ 64`.
* `double` is the type `F64` below: an IEEE-754 binary64 value given by sign,
  integer significand and binary exponent, with `nan` and the infinities.
  Conversions from unsigned integers and the division round to nearest, ties
  to even, on 53 significant bits.
* `std::map<uint32_t, CpuTime>` is an association list kept in strictly
  ascending key order, the iteration order of `std::map`.
* An out-of-bounds `std::array` access is undefined behaviour; the embedding
  of `ModelInput::Init` returns `none` should one ever be executed.
-/

namespace AdaptiveCpu

/-! ## IEEE-754 binary64 -/

/-- A `double`: NaN, an infinity, or the finite value `(-1)^neg * m * 2^e`.
Values produced by `F64.round` are canonical: zero is `fin _ 0 0`, any other
value has `2^52 ≤ m < 2^53`. -/
inductive F64 where
  | nan
  | inf (neg : Bool)
  | fin (neg : Bool) (m : Nat) (e : Int)
  deriving DecidableEq, Repr

namespace F64

/-- Positive zero, the `double` literal `0.0`. -/
def zero : F64 := fin false 0 0

/-- Round half to even of the quotient `n / d` (with `d > 0`) to an integer. -/
def roundHalfEven (n d : Nat) : Nat :=
  let q := n / d
  let r := n % d
  if 2 * r < d then q
  else if d < 2 * r then q + 1
  else if q % 2 = 0 then q else q + 1

/-- Auxiliary loop of `log2`: halve `n` until it is below two. -/
def log2Loop : Nat → Nat → Nat
  | 0, _ => 0
  | fuel + 1, n => if n < 2 then 0 else log2Loop fuel (n / 2) + 1

/-- The position of the leading one bit: `2 ^ log2 n ≤ n < 2 ^ (log2 n + 1)`
for `n > 0`. -/
def log2 (n : Nat) : Nat := log2Loop n n

/-- The binary64 value nearest to `(-1)^neg * (p / q) * 2^s`, ties to even, for
`q > 0`. The exponent range of binary64 is not modelled: the magnitudes that
reach this function from the code (quotients of 64-bit integers) lie far
inside it. -/
def round (neg : Bool) (p q : Nat) (s : Int) : F64 :=
  if p = 0 then fin neg 0 0
  else
    -- `k0` is chosen such that `2^52 < p * 2^k0 / q < 2^54`
    let k0 : Int := 53 + (log2 q : Int) - (log2 p : Int)
    -- `k` is chosen such that `2^52 ≤ p * 2^k / q < 2^53`
    let k : Int :=
      if q * 2 ^ 53 * 2 ^ (-k0).toNat ≤ p * 2 ^ k0.toNat then k0 - 1 else k0
    let m := roundHalfEven (p * 2 ^ k.toNat) (q * 2 ^ (-k).toNat)
    if m = 2 ^ 53 then fin neg (2 ^ 52) (s - k + 1) else fin neg m (s - k)

/-- The conversion `static_cast<double>(n)` of an unsigned integer. -/
def ofNat (n : Nat) : F64 := round false n 1 0

/-- The `double` division `x / y`. -/
def div : F64 → F64 → F64
  | nan, _ => nan
  | _, nan => nan
  | inf _, inf _ => nan
  | inf a, fin b _ _ => inf (a != b)
  | fin a _ _, inf b => fin (a != b) 0 0
  | fin a m e, fin b n f =>
    if n = 0 then (if m = 0 then nan else inf (a != b))
    else round (a != b) m n (e - f)

/-- The exact rational value of a finite `double`. -/
def toRat : F64 → Option ℚ
  | fin neg m e => some ((if neg then -1 else 1) * (m : ℚ) * (2 : ℚ) ^ e)
  | _ => none

/-- The `double` literal `1.0`. -/
def one : F64 := fin false (2 ^ 52) (-52)

/-- The signed significand of a finite `double`. -/
def signed (neg : Bool) (m : Nat) : Int := if neg then -(m : Int) else (m : Int)

/-- The `double` comparison `x < y`; it is false when an operand is NaN. -/
def lt : F64 → F64 → Bool
  | nan, _ => false
  | _, nan => false
  | inf a, inf b => a && !b
  | inf a, fin _ _ _ => a
  | fin _ _ _, inf b => !b
  | fin a m e, fin b n f =>
    decide (signed a m * 2 ^ (e - min e f).toNat < signed b n * 2 ^ (f - min e f).toNat)

/-- The `double` comparison `x == y`; NaN equals nothing and the two zeros are
equal. -/
def beq : F64 → F64 → Bool
  | nan, _ => false
  | _, nan => false
  | inf a, inf b => a == b
  | inf _, fin _ _ _ => false
  | fin _ _ _, inf _ => false
  | fin a m e, fin b n f =>
    decide (signed a m * 2 ^ (e - min e f).toNat = signed b n * 2 ^ (f - min e f).toNat)

/-- The `double` product `x * y`. -/
def mul : F64 → F64 → F64
  | nan, _ => nan
  | _, nan => nan
  | inf a, inf b => inf (a != b)
  | inf a, fin b n _ => if n = 0 then nan else inf (a != b)
  | fin a m _, inf b => if m = 0 then nan else inf (a != b)
  | fin a m e, fin b n f => round (a != b) (m * n) 1 (e + f)

/-- The conversion of a `double` to `uint32_t`: the fraction is dropped. The
conversion of a value outside the range of `uint32_t` is undefined in C++; the
embedding yields zero for NaN, the infinities and negative values and wraps
above the range. -/
def toUInt32 : F64 → Nat
  | fin false m e => (if 0 ≤ e then m * 2 ^ e.toNat else m / 2 ^ (-e).toNat) % 2 ^ 32
  | _ => 0

end F64

/-! ## `CpuLoadReader` -/

/-- The `CpuTime` struct: cumulative idle and total time of one core. -/
structure CpuTime where
  idleTimeMs : Nat
  totalTimeMs : Nat
  deriving DecidableEq, Repr

/-- The `CpuLoad` struct: one core's idle fraction over the last interval. -/
structure CpuLoad where
  cpuId : Nat
  idleTimeFraction : F64
  deriving DecidableEq, Repr

/-- A `std::map<uint32_t, CpuTime>`, as its entries in iteration order. -/
abbrev CpuTimeMap := List (Nat × CpuTime)

/-- The lookup `std::map::find`; `none` stands for `end()`. -/
def mapFind : CpuTimeMap → Nat → Option CpuTime
  | [], _ => none
  | (k, v) :: rest, key => if k = key then some v else mapFind rest key

/-- The assignment `m[key] = v` of `std::map`: overwrite the entry of `key`, or
insert it at its place in ascending key order. -/
def mapAssign : CpuTimeMap → Nat → CpuTime → CpuTimeMap
  | [], key, v => [(key, v)]
  | (k, w) :: rest, key, v =>
    if key < k then (key, v) :: (k, w) :: rest
    else if key = k then (k, v) :: rest
    else (k, w) :: mapAssign rest key v

/-! ### The C library conversions used by `readCpuTimes`

`std::sscanf` belongs to the C library, not to this repository. The functions
below model the two conversions of the format string of `readCpuTimes` the way
the Android C library performs them: white space is skipped, an optional sign
is read, then at least one decimal digit; `%d` converts with `strtoimax` and
stores the low 32 bits, `%lu` converts with `strtoumax`. -/

/-- The C `isspace` on the characters of the "C" locale. -/
def isSpace (c : Char) : Bool := c.toNat = 32 || (9 ≤ c.toNat && c.toNat ≤ 13)

/-- The C `isdigit`. -/
def isDigit (c : Char) : Bool := 48 ≤ c.toNat && c.toNat ≤ 57

/-- The value of a string of decimal digits. -/
def digitsValue (ds : List Char) : Nat :=
  ds.foldl (fun acc c => 10 * acc + (c.toNat - 48)) 0

/-- The common part of the integer conversions: skip white space, read an
optional sign and a non-empty run of digits. Yields the sign, the magnitude
and the unread input, or `none` on a matching failure or at end of input. -/
def scanInteger (s : List Char) : Option (Bool × Nat × List Char) :=
  let s1 := s.dropWhile isSpace
  let signed : Bool × List Char :=
    match s1 with
    | c :: t => if c.toNat = 45 then (true, t) else if c.toNat = 43 then (false, t) else (false, s1)
    | [] => (false, [])
  let ds := signed.2.takeWhile isDigit
  if ds.isEmpty then none
  else some (signed.1, digitsValue ds, signed.2.dropWhile isDigit)

/-- The conversion `%d` stored through a pointer to `uint32_t`: the value is
clamped to the range of `intmax_t` and its low 32 bits are stored. -/
def scanD (s : List Char) : Option (Nat × List Char) :=
  match scanInteger s with
  | none => none
  | some (neg, mag, rest) =>
    let v : Int := if neg then max (-(mag : Int)) (-(2 ^ 63)) else min (mag : Int) (2 ^ 63 - 1)
    some ((v % 2 ^ 32).toNat, rest)

/-- The conversion `%lu` (`PRIu64`): the magnitude is clamped to `2^64 - 1`; a
minus sign negates modulo `2^64`. -/
def scanLu (s : List Char) : Option (Nat × List Char) :=
  match scanInteger s with
  | none => none
  | some (neg, mag, rest) =>
    if 2 ^ 64 ≤ mag then some (2 ^ 64 - 1, rest)
    else if neg then some ((2 ^ 64 - mag) % 2 ^ 64, rest)
    else some (mag, rest)

/-- Match the literal characters of a format string against the input. -/
def scanLiteral : List Char → List Char → Option (List Char)
  | [], s => some s
  | _ :: _, [] => none
  | p :: ps, c :: s => if p = c then scanLiteral ps s else none

/-- The eleven values assigned by a complete match of one `/proc/stat` line. -/
structure ProcStatLine where
  cpuId : Nat
  user : Nat
  nice : Nat
  system : Nat
  idle : Nat
  ioWait : Nat
  irq : Nat
  softIrq : Nat
  steal : Nat
  guest : Nat
  guestNice : Nat
  deriving DecidableEq, Repr

/-- The call `std::sscanf(line, "cpu%d %lu %lu %lu %lu %lu %lu %lu %lu %lu %lu ", ...)`
of `readCpuTimes`: `some` with the assigned values when it returns 11, `none`
when it returns anything else. The white space directives of the format skip
white space that the following `%lu` would skip anyway. -/
def sscanfCpuLine (line : List Char) : Option ProcStatLine :=
  match scanLiteral [Char.ofNat 99, Char.ofNat 112, Char.ofNat 117] line with
  | none => none
  | some s0 =>
  match scanD s0 with
  | none => none
  | some (cpuId, s1) =>
  match scanLu s1 with
  | none => none
  | some (user, s2) =>
  match scanLu s2 with
  | none => none
  | some (nice, s3) =>
  match scanLu s3 with
  | none => none
  | some (system, s4) =>
  match scanLu s4 with
  | none => none
  | some (idle, s5) =>
  match scanLu s5 with
  | none => none
  | some (ioWait, s6) =>
  match scanLu s6 with
  | none => none
  | some (irq, s7) =>
  match scanLu s7 with
  | none => none
  | some (softIrq, s8) =>
  match scanLu s8 with
  | none => none
  | some (steal, s9) =>
  match scanLu s9 with
  | none => none
  | some (guest, s10) =>
  match scanLu s10 with
  | none => none
  | some (guestNice, _) =>
    some ⟨cpuId, user, nice, system, idle, ioWait, irq, softIrq, steal, guest, guestNice⟩

/-! ### The reader -/

/-- `CpuLoadReader::jiffiesToMs`, with `clkTck` the value of
`sysconf(_SC_CLK_TCK)`; the product wraps at 64 bits. -/
def jiffiesToMs (clkTck jiffies : Nat) : Nat :=
  ((jiffies * 1000) % 2 ^ 64) / clkTck

/-- The body of the `while (std::getline(...))` loop of `readCpuTimes` for one
line. -/
def readCpuTimesLine (clkTck : Nat) (cpuTimes : CpuTimeMap) (line : String) : CpuTimeMap :=
  match sscanfCpuLine line.toList with
  | none => cpuTimes
  | some f =>
    let idleTimeJiffies := (f.idle + f.ioWait) % 2 ^ 64
    let totalTimeJiffies :=
      (f.user + f.nice + f.system + f.irq + f.softIrq + f.steal + f.guest + f.guestNice
        + idleTimeJiffies) % 2 ^ 64
    mapAssign cpuTimes f.cpuId
      { idleTimeMs := jiffiesToMs clkTck idleTimeJiffies
        totalTimeMs := jiffiesToMs clkTck totalTimeJiffies }

/-- `CpuLoadReader::readCpuTimes`, with `procStat` the lines that the stream of
`/proc/stat` yields at the time of the call. -/
def readCpuTimes (clkTck : Nat) (procStat : List String) : CpuTimeMap :=
  procStat.foldl (readCpuTimesLine clkTck) []

/-- The difference `a - b` of two `uint64_t`. -/
def subU64 (a b : Nat) : Nat := (a + (2 ^ 64 - b % 2 ^ 64)) % 2 ^ 64

/-- The local `recentIdleTimeMs` of `getRecentCpuLoads`. -/
def recentIdleTimeMs (cpuTime previousCpuTime : CpuTime) : Nat :=
  subU64 cpuTime.idleTimeMs previousCpuTime.idleTimeMs

/-- The local `recentTotalTimeMs` of `getRecentCpuLoads`. -/
def recentTotalTimeMs (cpuTime previousCpuTime : CpuTime) : Nat :=
  subU64 cpuTime.totalTimeMs previousCpuTime.totalTimeMs

/-- The `for` loop of `getRecentCpuLoads` over the entries of the current
snapshot that are still to be visited: the flag is `false` when the loop left
through a `return false`, and the vector is `*result` at that point. -/
def loadsLoop (mPreviousCpuTimes : CpuTimeMap) : CpuTimeMap → List CpuLoad → Bool × List CpuLoad
  | [], result => (true, result)
  | (cpuId, cpuTime) :: rest, result =>
    match mapFind mPreviousCpuTimes cpuId with
    | none => (false, result)
    | some previousCpuTime =>
      if recentIdleTimeMs cpuTime previousCpuTime > recentTotalTimeMs cpuTime previousCpuTime then
        (false, result)
      else
        let idleTimeFraction :=
          F64.div (F64.ofNat (recentIdleTimeMs cpuTime previousCpuTime))
            (F64.ofNat (recentTotalTimeMs cpuTime previousCpuTime))
        loadsLoop mPreviousCpuTimes rest (result ++ [⟨cpuId, idleTimeFraction⟩])

/-- The state of a `CpuLoadReader`. -/
structure CpuLoadReader where
  mPreviousCpuTimes : CpuTimeMap
  deriving DecidableEq, Repr

/-- What a call of `getRecentCpuLoads` leaves behind: the value it returned,
the reader, and the vector behind the `result` pointer (`none` for a null
pointer). -/
structure SampleOutcome where
  ok : Bool
  reader : CpuLoadReader
  result : Option (List CpuLoad)
  deriving DecidableEq, Repr

/-- `CpuLoadReader::init`. -/
def CpuLoadReader.init (clkTck : Nat) (procStat : List String) : CpuLoadReader :=
  { mPreviousCpuTimes := readCpuTimes clkTck procStat }

/-- `CpuLoadReader::getRecentCpuLoads`. -/
def CpuLoadReader.getRecentCpuLoads (self : CpuLoadReader) (clkTck : Nat)
    (procStat : List String) (result : Option (List CpuLoad)) : SampleOutcome :=
  match result with
  | none => ⟨false, self, none⟩
  | some out =>
    let cpuTimes := readCpuTimes clkTck procStat
    if cpuTimes.isEmpty then ⟨false, self, some out⟩
    else
      match loadsLoop self.mPreviousCpuTimes cpuTimes out with
      | (false, out1) => ⟨false, self, some out1⟩
      | (true, out1) => ⟨true, { mPreviousCpuTimes := cpuTimes }, some out1⟩

/-- `CpuLoadReader::getPreviousCpuTimes`. -/
def CpuLoadReader.getPreviousCpuTimes (self : CpuLoadReader) : CpuTimeMap :=
  self.mPreviousCpuTimes

/-! ## `ModelInput` -/

/-- Modelled from the spec: the enum `ThrottleDecision` is declared in a header
that `Model.cpp` includes; the spec describes it as a small closed enum of
discrete throttle levels ordered by severity. It is kept as the level. -/
structure ThrottleDecision where
  level : Nat
  deriving DecidableEq, Repr

/-- The `CpuPolicyAverageFrequency` struct, with the two members that
`ModelInput::Init` reads. -/
structure CpuPolicyAverageFrequency where
  policyId : Nat
  averageFrequencyHz : F64
  deriving DecidableEq, Repr

/-- The members of `ModelInput` that `Model.cpp` uses. The two
`std::array<double, N>` members are lists; their lengths are the compile-time
sizes (the number of frequency policies and the number of cores). -/
structure ModelInput where
  cpuPolicyAverageFrequencyHz : List F64
  cpuCoreIdleTimesPercentage : List F64
  averageFrameTime : Int
  numRenderedFrames : Nat
  previousThrottleDecision : ThrottleDecision
  deriving DecidableEq, Repr

/-- The conversion of a `uint32_t` to `int32_t`. -/
def toInt32 (n : Nat) : Int :=
  if n % 2 ^ 32 < 2 ^ 31 then ((n % 2 ^ 32 : Nat) : Int) else ((n % 2 ^ 32 : Nat) : Int) - 2 ^ 32

/-- The assignment `a[i] = v` to a `std::array`; `none` when `i` is out of
bounds. -/
def arraySet? (a : List F64) (i : Nat) (v : F64) : Option (List F64) :=
  if i < a.length then some (a.set i v) else none

/-- The first `for` loop of `ModelInput::Init`, from index `i` on, over the
frequencies not yet visited. The flag is `false` when the loop left through
`return false`; the list is `cpuPolicyAverageFrequencyHz` at that point. -/
def policyLoop : List CpuPolicyAverageFrequency → Nat → Int → List F64 → Option (Bool × List F64)
  | [], _, _, hz => some (true, hz)
  | f :: rest, i, previousPolicyId, hz =>
    if previousPolicyId ≥ toInt32 f.policyId then some (false, hz)
    else
      match arraySet? hz i f.averageFrequencyHz with
      | none => none
      | some hz1 => policyLoop rest (i + 1) (toInt32 f.policyId) hz1

/-- The second `for` loop of `ModelInput::Init`, over the loads not yet
visited. -/
def loadLoop : List CpuLoad → List F64 → Option (Bool × List F64)
  | [], idle => some (true, idle)
  | cpuLoad :: rest, idle =>
    if cpuLoad.cpuId ≥ idle.length then some (false, idle)
    else
      match arraySet? idle cpuLoad.cpuId cpuLoad.idleTimeFraction with
      | none => none
      | some idle1 => loadLoop rest idle1

/-- `ModelInput::Init`: the returned flag and the object after the call, or
`none` if the call made an out-of-bounds array access. -/
def ModelInput.Init (self : ModelInput)
    (cpuPolicyAverageFrequencies : List CpuPolicyAverageFrequency) (cpuLoads : List CpuLoad)
    (averageFrameTime : Int) (numRenderedFrames : Nat)
    (previousThrottleDecision : ThrottleDecision) : Option (Bool × ModelInput) :=
  if cpuPolicyAverageFrequencies.length ≠ self.cpuPolicyAverageFrequencyHz.length then
    some (false, self)
  else
    match policyLoop cpuPolicyAverageFrequencies 0 (-1) self.cpuPolicyAverageFrequencyHz with
    | none => none
    | some (false, hz) => some (false, { self with cpuPolicyAverageFrequencyHz := hz })
    | some (true, hz) =>
      if cpuLoads.length ≠ self.cpuCoreIdleTimesPercentage.length then
        some (false, { self with cpuPolicyAverageFrequencyHz := hz })
      else
        match loadLoop cpuLoads self.cpuCoreIdleTimesPercentage with
        | none => none
        | some (false, idle) =>
          some (false, { self with cpuPolicyAverageFrequencyHz := hz
                                   cpuCoreIdleTimesPercentage := idle })
        | some (true, idle) =>
          some (true, { cpuPolicyAverageFrequencyHz := hz
                        cpuCoreIdleTimesPercentage := idle
                        averageFrameTime := averageFrameTime
                        numRenderedFrames := numRenderedFrames
                        previousThrottleDecision := previousThrottleDecision })

/-! ## `AdaptiveCpuConfig` -/

/-- The `AdaptiveCpuConfig` struct. The three durations are counts of
milliseconds (`std::chrono::milliseconds`). -/
structure AdaptiveCpuConfig where
  iterationSleepDuration : Int
  hintTimeout : Int
  randomThrottleDecisionProbability : F64
  enabledHintTimeout : Int
  deriving DecidableEq, Repr

/-- `kIterationSleepDurationMin`, 20 ms. -/
def kIterationSleepDurationMin : Int := 20

/-- `AdaptiveCpuConfig::DEFAULT`: 1000 ms, 2000 ms, probability 0 and 120 min,
which is 7,200,000 ms. -/
def AdaptiveCpuConfig.DEFAULT : AdaptiveCpuConfig :=
  { iterationSleepDuration := 1000
    hintTimeout := 2000
    randomThrottleDecisionProbability := F64.ofNat 0
    enabledHintTimeout := 120 * 60 * 1000 }

/-- What the system property store holds under the four keys of
`AdaptiveCpuConfig.cpp`: for each key the number its text denotes, or `none`
when the key is not set or its text is not an unsigned decimal number. -/
structure SystemProperties where
  iterationSleepDurationMs : Option Nat
  hintTimeoutMs : Option Nat
  randomThrottleDecisionPercent : Option Nat
  enabledHintTimeoutMs : Option Nat
  deriving DecidableEq, Repr

/-- The library call `android::base::GetUintProperty<uint32_t>(key, default)`:
the number under the key when there is one and it fits in 32 bits, else the
default. -/
def getUintProperty (raw : Option Nat) (defaultValue : Nat) : Nat :=
  match raw with
  | some v => if v < 2 ^ 32 then v else defaultValue
  | none => defaultValue

/-- `AdaptiveCpuConfig::ReadFromSystemProperties`. -/
def AdaptiveCpuConfig.ReadFromSystemProperties (props : SystemProperties) : AdaptiveCpuConfig :=
  let iterationSleepDuration0 : Int :=
    (getUintProperty props.iterationSleepDurationMs
      (AdaptiveCpuConfig.DEFAULT.iterationSleepDuration % 2 ^ 32).toNat : Nat)
  let iterationSleepDuration := max iterationSleepDuration0 kIterationSleepDurationMin
  let hintTimeout : Int :=
    (getUintProperty props.hintTimeoutMs
      (AdaptiveCpuConfig.DEFAULT.hintTimeout % 2 ^ 32).toNat : Nat)
  let randomThrottleDecisionProbability0 :=
    F64.div
      (F64.ofNat (getUintProperty props.randomThrottleDecisionPercent
        (F64.toUInt32
          (F64.mul AdaptiveCpuConfig.DEFAULT.randomThrottleDecisionProbability (F64.ofNat 100)))))
      (F64.ofNat 100)
  let randomThrottleDecisionProbability :=
    if F64.lt F64.one randomThrottleDecisionProbability0 then
      AdaptiveCpuConfig.DEFAULT.randomThrottleDecisionProbability
    else randomThrottleDecisionProbability0
  let enabledHintTimeout : Int :=
    (getUintProperty props.enabledHintTimeoutMs
      (AdaptiveCpuConfig.DEFAULT.enabledHintTimeout % 2 ^ 32).toNat : Nat)
  { iterationSleepDuration := iterationSleepDuration
    hintTimeout := hintTimeout
    randomThrottleDecisionProbability := randomThrottleDecisionProbability
    enabledHintTimeout := enabledHintTimeout }

/-- `AdaptiveCpuConfig::operator==`. -/
def AdaptiveCpuConfig.eq (self other : AdaptiveCpuConfig) : Bool :=
  decide (self.iterationSleepDuration = other.iterationSleepDuration) &&
    decide (self.hintTimeout = other.hintTimeout) &&
    F64.beq self.randomThrottleDecisionProbability other.randomThrottleDecisionProbability &&
    decide (self.enabledHintTimeout = other.enabledHintTimeout)

end AdaptiveCpu

/-! ## Properties of `CpuLoadReader` -/

namespace AdaptiveCpu

/-- An entry of a map after `m[key] = v` is the new entry or an old one. -/
theorem mem_mapAssign {m : CpuTimeMap} {key : Nat} {v : CpuTime} {e : Nat × CpuTime}
    (h : e ∈ mapAssign m key v) : e = (key, v) ∨ e ∈ m := by
  induction m with
  | nil => simpa [mapAssign] using h
  | cons hd tl ih =>
    obtain ⟨k, w⟩ := hd
    unfold mapAssign at h
    split_ifs at h with h1 h2
    · simp only [List.mem_cons] at h ⊢
      tauto
    · simp only [List.mem_cons] at h ⊢
      subst h2
      tauto
    · simp only [List.mem_cons] at h ⊢
      rcases h with h | h
      · tauto
      · rcases ih h with h | h <;> tauto

/-- The result of `jiffiesToMs` fits in 64 bits. -/
theorem jiffiesToMs_lt (clkTck jiffies : Nat) : jiffiesToMs clkTck jiffies < 2 ^ 64 := by
  unfold jiffiesToMs
  exact lt_of_le_of_lt (Nat.div_le_self _ _) (Nat.mod_lt _ (by norm_num))

/-- A property of all entries is kept by the loop of `readCpuTimes` when every
stored value has it. -/
theorem readCpuTimes_foldl_forall (P : Nat × CpuTime → Prop) (clkTck : Nat)
    (hP : ∀ (k : Nat) (j1 j2 : Nat), P (k, ⟨jiffiesToMs clkTck j1, jiffiesToMs clkTck j2⟩))
    (procStat : List String) (m : CpuTimeMap) (hm : ∀ e ∈ m, P e) :
    ∀ e ∈ procStat.foldl (readCpuTimesLine clkTck) m, P e := by
  induction procStat generalizing m with
  | nil => simpa using hm
  | cons line rest ih =>
    simp only [List.foldl_cons]
    apply ih
    intro e he
    unfold readCpuTimesLine at he
    split at he
    · exact hm e he
    · rcases mem_mapAssign he with h | h
      · rw [h]
        exact hP _ _ _
      · exact hm e h

/-- Every time stored by `readCpuTimes` fits in 64 bits. -/
theorem readCpuTimes_lt (clkTck : Nat) (procStat : List String) :
    ∀ e ∈ readCpuTimes clkTck procStat, e.2.idleTimeMs < 2 ^ 64 ∧ e.2.totalTimeMs < 2 ^ 64 := by
  apply readCpuTimes_foldl_forall (fun e => e.2.idleTimeMs < 2 ^ 64 ∧ e.2.totalTimeMs < 2 ^ 64)
  · intro k j1 j2
    exact ⟨jiffiesToMs_lt _ _, jiffiesToMs_lt _ _⟩
  · intro e he
    cases he

/-- Without wrap-around the 64-bit difference is the difference. -/
theorem subU64_of_le {a b : Nat} (hb : b ≤ a) (ha : a < 2 ^ 64) : subU64 a b = a - b := by
  unfold subU64
  omega

/-- The loop of `getRecentCpuLoads` fails as soon as the snapshot holds a core
that the baseline lacks. -/
theorem loadsLoop_unknown_core (prev cur : CpuTimeMap) (result : List CpuLoad)
    (h : ∃ e ∈ cur, mapFind prev e.1 = none) : (loadsLoop prev cur result).1 = false := by
  induction cur generalizing result with
  | nil => simp at h
  | cons hd tl ih =>
    obtain ⟨cpuId, cpuTime⟩ := hd
    unfold loadsLoop
    split
    · rfl
    · rename_i previousCpuTime hfind
      split_ifs with hgt
      · rfl
      · apply ih
        obtain ⟨e, he, hnone⟩ := h
        rcases List.mem_cons.mp he with rfl | he
        · simp [hfind] at hnone
        · exact ⟨e, he, hnone⟩

/-- The loop of `getRecentCpuLoads` succeeds exactly when every entry of the
snapshot has a baseline entry with a 64-bit idle delta not above the 64-bit
total delta. -/
theorem loadsLoop_true_iff (prev cur : CpuTimeMap) (result : List CpuLoad) :
    (loadsLoop prev cur result).1 = true ↔
      ∀ e ∈ cur, ∃ p, mapFind prev e.1 = some p ∧
        recentIdleTimeMs e.2 p ≤ recentTotalTimeMs e.2 p := by
  induction cur generalizing result with
  | nil => simp [loadsLoop]
  | cons hd tl ih =>
    obtain ⟨cpuId, cpuTime⟩ := hd
    unfold loadsLoop
    split
    · rename_i hfind
      simp [hfind]
    · rename_i previousCpuTime hfind
      split_ifs with hgt
      · simp [hfind]
        intro hle
        omega
      · rw [ih]
        simp only [List.mem_cons, forall_eq_or_imp, hfind, Option.some.injEq, exists_eq_left']
        constructor
        · intro h
          exact ⟨by omega, h⟩
        · intro h
          exact h.2

/-- The reader after a call is the reader before it unless the call returned
`true`. -/
theorem getRecentCpuLoads_reader_of_false (self : CpuLoadReader) (clkTck : Nat)
    (procStat : List String) (result : Option (List CpuLoad))
    (h : (self.getRecentCpuLoads clkTck procStat result).ok = false) :
    (self.getRecentCpuLoads clkTck procStat result).reader = self := by
  unfold CpuLoadReader.getRecentCpuLoads at h ⊢
  cases result with
  | none => rfl
  | some out =>
    simp only at h ⊢
    split_ifs with hempty
    · rfl
    · rw [if_neg hempty] at h
      split at h
      · rfl
      · simp at h

/-- With a vector to write to, the call returns what the loop returns on a
non-empty snapshot. -/
theorem getRecentCpuLoads_ok_iff (self : CpuLoadReader) (clkTck : Nat)
    (procStat : List String) (out : List CpuLoad) :
    (self.getRecentCpuLoads clkTck procStat (some out)).ok = true ↔
      readCpuTimes clkTck procStat ≠ [] ∧
        (loadsLoop self.mPreviousCpuTimes (readCpuTimes clkTck procStat) out).1 = true := by
  unfold CpuLoadReader.getRecentCpuLoads
  simp only
  split_ifs with hempty
  · simp [List.isEmpty_iff.mp hempty]
  · have hne : readCpuTimes clkTck procStat ≠ [] := by
      intro h
      exact hempty (List.isEmpty_iff.mpr h)
    split
    · rename_i out1 heq
      simp [heq, hne]
    · rename_i out1 heq
      simp [heq, hne]

/-- C1: a call of `getRecentCpuLoads` that returns `false`, for whatever reason,
leaves the stored baseline as it was: `getPreviousCpuTimes` gives the same map
after the call as before it. In particular a core of the current snapshot that
is absent from the baseline makes the call return `false` with the baseline
unchanged. -/
theorem getRecentCpuLoads_failure_keeps_baseline (self : CpuLoadReader) (clkTck : Nat)
    (procStat : List String) (result : Option (List CpuLoad)) :
    ((self.getRecentCpuLoads clkTck procStat result).ok = false →
        (self.getRecentCpuLoads clkTck procStat result).reader.getPreviousCpuTimes
          = self.getPreviousCpuTimes) ∧
      ((∃ e ∈ readCpuTimes clkTck procStat, mapFind self.getPreviousCpuTimes e.1 = none) →
        (self.getRecentCpuLoads clkTck procStat result).ok = false ∧
          (self.getRecentCpuLoads clkTck procStat result).reader.getPreviousCpuTimes
            = self.getPreviousCpuTimes) := by
  have key : (self.getRecentCpuLoads clkTck procStat result).ok = false →
      (self.getRecentCpuLoads clkTck procStat result).reader.getPreviousCpuTimes
        = self.getPreviousCpuTimes := by
    intro h
    rw [getRecentCpuLoads_reader_of_false self clkTck procStat result h]
  refine ⟨key, fun hmissing => ?_⟩
  have hfalse : (self.getRecentCpuLoads clkTck procStat result).ok = false := by
    cases result with
    | none => rfl
    | some out =>
      have hloop := loadsLoop_unknown_core self.mPreviousCpuTimes
        (readCpuTimes clkTck procStat) out hmissing
      have hiff := getRecentCpuLoads_ok_iff self clkTck procStat out
      cases hok : (self.getRecentCpuLoads clkTck procStat (some out)).ok with
      | false => rfl
      | true =>
        have h2 := (hiff.mp hok).2
        rw [hloop] at h2
        cases h2
  exact ⟨hfalse, key hfalse⟩

/-- Witness of C1: the baseline holds core 0 only and the snapshot brings core 1
as well; the call fails and the baseline stays. -/
theorem getRecentCpuLoads_failure_keeps_baseline_witness :
    ((CpuLoadReader.init 100 ["cpu0 100 0 0 50 0 0 0 0 0 0"]).getRecentCpuLoads 100
        ["cpu0 200 0 0 60 0 0 0 0 0 0", "cpu1 7 0 0 3 0 0 0 0 0 0"] (some [])).ok = false ∧
      (∃ e ∈ readCpuTimes 100 ["cpu0 200 0 0 60 0 0 0 0 0 0", "cpu1 7 0 0 3 0 0 0 0 0 0"],
        mapFind (CpuLoadReader.init 100 ["cpu0 100 0 0 50 0 0 0 0 0 0"]).getPreviousCpuTimes e.1
          = none) ∧
      ((CpuLoadReader.init 100 ["cpu0 100 0 0 50 0 0 0 0 0 0"]).getRecentCpuLoads 100
        ["cpu0 200 0 0 60 0 0 0 0 0 0", "cpu1 7 0 0 3 0 0 0 0 0 0"]
        (some [])).reader.getPreviousCpuTimes = [(0, ⟨500, 1500⟩)] :=
  ⟨by decide, ⟨(1, ⟨30, 100⟩), by decide, by decide⟩,
    (getRecentCpuLoads_failure_keeps_baseline
      (CpuLoadReader.init 100 ["cpu0 100 0 0 50 0 0 0 0 0 0"]) 100
      ["cpu0 200 0 0 60 0 0 0 0 0 0", "cpu1 7 0 0 3 0 0 0 0 0 0"] (some [])).1 (by decide)⟩

/-- C2: when no counter of a core present in both maps went backwards and the
output pointer is not null, `getRecentCpuLoads` returns `true` if and only if
the current snapshot is non-empty, every core of it is in the baseline, and for
every core the idle delta is at most the total delta; otherwise it returns
`false`. -/
theorem getRecentCpuLoads_succeeds_iff (self : CpuLoadReader) (clkTck : Nat)
    (procStat : List String) (out : List CpuLoad)
    (hmono : ∀ id t p, (id, t) ∈ readCpuTimes clkTck procStat →
      mapFind self.getPreviousCpuTimes id = some p →
        p.idleTimeMs ≤ t.idleTimeMs ∧ p.totalTimeMs ≤ t.totalTimeMs) :
    ((self.getRecentCpuLoads clkTck procStat (some out)).ok = true ↔
      readCpuTimes clkTck procStat ≠ [] ∧
      (∀ id t, (id, t) ∈ readCpuTimes clkTck procStat →
        (mapFind self.getPreviousCpuTimes id).isSome = true) ∧
      (∀ id t p, (id, t) ∈ readCpuTimes clkTck procStat →
        mapFind self.getPreviousCpuTimes id = some p →
          (t.idleTimeMs : Int) - (p.idleTimeMs : Int)
            ≤ (t.totalTimeMs : Int) - (p.totalTimeMs : Int))) ∧
    ((self.getRecentCpuLoads clkTck procStat (some out)).ok = false ↔
      ¬ (readCpuTimes clkTck procStat ≠ [] ∧
      (∀ id t, (id, t) ∈ readCpuTimes clkTck procStat →
        (mapFind self.getPreviousCpuTimes id).isSome = true) ∧
      (∀ id t p, (id, t) ∈ readCpuTimes clkTck procStat →
        mapFind self.getPreviousCpuTimes id = some p →
          (t.idleTimeMs : Int) - (p.idleTimeMs : Int)
            ≤ (t.totalTimeMs : Int) - (p.totalTimeMs : Int)))) := by
  have main : (self.getRecentCpuLoads clkTck procStat (some out)).ok = true ↔
      readCpuTimes clkTck procStat ≠ [] ∧
      (∀ id t, (id, t) ∈ readCpuTimes clkTck procStat →
        (mapFind self.getPreviousCpuTimes id).isSome = true) ∧
      (∀ id t p, (id, t) ∈ readCpuTimes clkTck procStat →
        mapFind self.getPreviousCpuTimes id = some p →
          (t.idleTimeMs : Int) - (p.idleTimeMs : Int)
            ≤ (t.totalTimeMs : Int) - (p.totalTimeMs : Int)) := by
    rw [getRecentCpuLoads_ok_iff, loadsLoop_true_iff]
    have hdelta : ∀ id t p, (id, t) ∈ readCpuTimes clkTck procStat →
        mapFind self.getPreviousCpuTimes id = some p →
          (recentIdleTimeMs t p ≤ recentTotalTimeMs t p ↔
            (t.idleTimeMs : Int) - (p.idleTimeMs : Int)
              ≤ (t.totalTimeMs : Int) - (p.totalTimeMs : Int)) := by
      intro id t p hmem hfind
      have hlt := readCpuTimes_lt clkTck procStat (id, t) hmem
      have hle := hmono id t p hmem hfind
      unfold recentIdleTimeMs recentTotalTimeMs
      rw [subU64_of_le hle.1 hlt.1, subU64_of_le hle.2 hlt.2]
      omega
    constructor
    · rintro ⟨hne, hall⟩
      refine ⟨hne, ?_, ?_⟩
      · intro id t hmem
        obtain ⟨p, hp, _⟩ := hall (id, t) hmem
        show (mapFind self.mPreviousCpuTimes id).isSome = true
        simp [show mapFind self.mPreviousCpuTimes id = some p from hp]
      · intro id t p hmem hfind
        obtain ⟨p1, hp, hle⟩ := hall (id, t) hmem
        have hpp : p1 = p := by
          have h1 : mapFind self.mPreviousCpuTimes id = some p := hfind
          rw [show mapFind self.mPreviousCpuTimes id = some p1 from hp] at h1
          exact Option.some.inj h1
        subst hpp
        exact (hdelta id t p1 hmem hfind).mp hle
    · rintro ⟨hne, hpresent, hle⟩
      refine ⟨hne, ?_⟩
      rintro ⟨id, t⟩ hmem
      have hsome := hpresent id t hmem
      obtain ⟨p, hp⟩ := Option.isSome_iff_exists.mp hsome
      exact ⟨p, hp, (hdelta id t p hmem hp).mpr (hle id t p hmem hp)⟩
  refine ⟨main, ?_⟩
  rw [← main]
  cases (self.getRecentCpuLoads clkTck procStat (some out)).ok <;> simp

/-- Witness of C2: core 0 moves from 500/1500 ms to 600/2600 ms; nothing went
backwards and the equivalence holds at this input. -/
theorem getRecentCpuLoads_succeeds_iff_witness :
    (∀ id t p, (id, t) ∈ readCpuTimes 100 ["cpu0 200 0 0 60 0 0 0 0 0 0"] →
      mapFind (CpuLoadReader.init 100 ["cpu0 100 0 0 50 0 0 0 0 0 0"]).getPreviousCpuTimes id
        = some p → p.idleTimeMs ≤ t.idleTimeMs ∧ p.totalTimeMs ≤ t.totalTimeMs) ∧
    ((CpuLoadReader.init 100 ["cpu0 100 0 0 50 0 0 0 0 0 0"]).getRecentCpuLoads 100
        ["cpu0 200 0 0 60 0 0 0 0 0 0"] (some [])).ok = true ∧
    (∀ id t p, (id, t) ∈ readCpuTimes 100 ["cpu0 200 0 0 60 0 0 0 0 0 0"] →
      mapFind (CpuLoadReader.init 100 ["cpu0 100 0 0 50 0 0 0 0 0 0"]).getPreviousCpuTimes id
        = some p →
        (t.idleTimeMs : Int) - (p.idleTimeMs : Int)
          ≤ (t.totalTimeMs : Int) - (p.totalTimeMs : Int)) := by
  have hcur : readCpuTimes 100 ["cpu0 200 0 0 60 0 0 0 0 0 0"] = [(0, ⟨600, 2600⟩)] := by
    decide
  have hprev : ∀ p, mapFind
      (CpuLoadReader.init 100 ["cpu0 100 0 0 50 0 0 0 0 0 0"]).getPreviousCpuTimes 0 = some p →
      p = ⟨500, 1500⟩ := by
    intro p hp
    have h0 : mapFind
        (CpuLoadReader.init 100 ["cpu0 100 0 0 50 0 0 0 0 0 0"]).getPreviousCpuTimes 0
          = some ⟨500, 1500⟩ := by decide
    rw [h0] at hp
    exact (Option.some.inj hp).symm
  have hmono : ∀ id t p, (id, t) ∈ readCpuTimes 100 ["cpu0 200 0 0 60 0 0 0 0 0 0"] →
      mapFind (CpuLoadReader.init 100 ["cpu0 100 0 0 50 0 0 0 0 0 0"]).getPreviousCpuTimes id
        = some p → p.idleTimeMs ≤ t.idleTimeMs ∧ p.totalTimeMs ≤ t.totalTimeMs := by
    intro id t p hmem hfind
    rw [hcur] at hmem
    simp only [List.mem_singleton, Prod.mk.injEq] at hmem
    obtain ⟨rfl, rfl⟩ := hmem
    rw [hprev p hfind]
    decide
  have hthm := getRecentCpuLoads_succeeds_iff
    (CpuLoadReader.init 100 ["cpu0 100 0 0 50 0 0 0 0 0 0"]) 100
    ["cpu0 200 0 0 60 0 0 0 0 0 0"] [] hmono
  have hok : ((CpuLoadReader.init 100 ["cpu0 100 0 0 50 0 0 0 0 0 0"]).getRecentCpuLoads 100
      ["cpu0 200 0 0 60 0 0 0 0 0 0"] (some [])).ok = true := by decide
  exact ⟨hmono, hok, (hthm.1.mp hok).2.2⟩

/-- Counterexample to C3 as stated: with 100 ticks per second the baseline line
`cpu0 100 0 0 50 0 0 0 0 0 0` and the sample line `cpu0 200 0 0 60 0 0 0 0 0 0`
give a total delta of 1100 ms, which is 110 ticks and not 100, and the single
load returned is `6550690367084358 * 2^-56` (the `double` nearest to 1/11), not
the `double` 0.1, which is `7205759403792794 * 2^-56`. -/
theorem scenario_not_one_tenth :
    ((CpuLoadReader.init 100 ["cpu0 100 0 0 50 0 0 0 0 0 0"]).getRecentCpuLoads 100
        ["cpu0 200 0 0 60 0 0 0 0 0 0"] (some [])).ok = true ∧
      ((CpuLoadReader.init 100 ["cpu0 100 0 0 50 0 0 0 0 0 0"]).getRecentCpuLoads 100
        ["cpu0 200 0 0 60 0 0 0 0 0 0"] (some [])).result
          = some [⟨0, F64.fin false 6550690367084358 (-56)⟩] ∧
      F64.round false 1 10 0 = F64.fin false 7205759403792794 (-56) ∧
      ((CpuLoadReader.init 100 ["cpu0 100 0 0 50 0 0 0 0 0 0"]).getRecentCpuLoads 100
        ["cpu0 200 0 0 60 0 0 0 0 0 0"] (some [])).result
          ≠ some [⟨0, F64.round false 1 10 0⟩] ∧
      mapFind (CpuLoadReader.init 100 ["cpu0 100 0 0 50 0 0 0 0 0 0"]).getPreviousCpuTimes 0
          = some ⟨500, 1500⟩ ∧
      mapFind (readCpuTimes 100 ["cpu0 200 0 0 60 0 0 0 0 0 0"]) 0 = some ⟨600, 2600⟩ ∧
      recentTotalTimeMs ⟨600, 2600⟩ ⟨500, 1500⟩ = jiffiesToMs 100 110 ∧
      recentTotalTimeMs ⟨600, 2600⟩ ⟨500, 1500⟩ ≠ jiffiesToMs 100 100 := by
  decide

/-- The tick frequencies that convert the four tick counts of the scenario of
C3 (50, 150, 60 and 260) to milliseconds without a remainder. -/
theorem exact_clkTck_cases (clkTck : Nat)
    (h50 : jiffiesToMs clkTck 50 * clkTck = 50 * 1000)
    (h60 : jiffiesToMs clkTck 60 * clkTck = 60 * 1000) :
    clkTck ∈ [1, 2, 4, 5, 8, 10, 16, 20, 25, 40, 50, 80, 100, 125, 200, 250, 400, 500, 625,
      1000, 1250, 2000, 2500, 5000, 10000] := by
  have hd50 : clkTck ∣ 50000 := ⟨jiffiesToMs clkTck 50, by rw [mul_comm]; exact h50.symm⟩
  have hd60 : clkTck ∣ 60000 := ⟨jiffiesToMs clkTck 60, by rw [mul_comm]; exact h60.symm⟩
  have hd : clkTck ∣ 10000 := by
    have := (Nat.dvd_sub' hd60 hd50)
    simpa using this
  obtain ⟨d, hd⟩ := hd
  by_cases hsmall : clkTck ≤ 100
  · interval_cases clkTck <;> first | omega | decide
  · have hdle : d ≤ 100 := by
      by_contra hcon
      push_neg at hcon hsmall
      have : 101 * 101 ≤ clkTck * d := Nat.mul_le_mul hsmall hcon
      omega
    have hdpos : 0 < d := by
      rcases Nat.eq_zero_or_pos d with h0 | h0
      · rw [h0] at hd
        omega
      · exact h0
    have hc : clkTck = 10000 / d := by
      rw [hd, Nat.mul_div_cancel _ hdpos]
    subst hc
    interval_cases d <;> first | decide | omega

/-- Amended C3: when `init` reads the line `cpu0 100 0 0 50 0 0 0 0 0 0` and the
following sample reads `cpu0 200 0 0 60 0 0 0 0 0 0`, with a tick frequency that
converts the tick counts exactly (100 per second among them), the sample
succeeds with exactly one load, for core 0; the idle delta is that of 10 ticks,
the total delta is that of 110 ticks, and the fraction is the `double` nearest
to 10/110 = 1/11. -/
theorem scenario_one_eleventh (clkTck : Nat)
    (h50 : jiffiesToMs clkTck 50 * clkTck = 50 * 1000)
    (h60 : jiffiesToMs clkTck 60 * clkTck = 60 * 1000)
    (_h150 : jiffiesToMs clkTck 150 * clkTck = 150 * 1000)
    (_h260 : jiffiesToMs clkTck 260 * clkTck = 260 * 1000) :
    ((CpuLoadReader.init clkTck ["cpu0 100 0 0 50 0 0 0 0 0 0"]).getRecentCpuLoads clkTck
        ["cpu0 200 0 0 60 0 0 0 0 0 0"] (some [])).ok = true ∧
      ((CpuLoadReader.init clkTck ["cpu0 100 0 0 50 0 0 0 0 0 0"]).getRecentCpuLoads clkTck
        ["cpu0 200 0 0 60 0 0 0 0 0 0"] (some [])).result
          = some [⟨0, F64.round false 1 11 0⟩] ∧
      mapFind (CpuLoadReader.init clkTck ["cpu0 100 0 0 50 0 0 0 0 0 0"]).getPreviousCpuTimes 0
          = some ⟨jiffiesToMs clkTck 50, jiffiesToMs clkTck 150⟩ ∧
      mapFind (readCpuTimes clkTck ["cpu0 200 0 0 60 0 0 0 0 0 0"]) 0
          = some ⟨jiffiesToMs clkTck 60, jiffiesToMs clkTck 260⟩ ∧
      recentIdleTimeMs ⟨jiffiesToMs clkTck 60, jiffiesToMs clkTck 260⟩
          ⟨jiffiesToMs clkTck 50, jiffiesToMs clkTck 150⟩ = jiffiesToMs clkTck 10 ∧
      recentTotalTimeMs ⟨jiffiesToMs clkTck 60, jiffiesToMs clkTck 260⟩
          ⟨jiffiesToMs clkTck 50, jiffiesToMs clkTck 150⟩ = jiffiesToMs clkTck 110 ∧
      jiffiesToMs clkTck 10 * clkTck = 10 * 1000 ∧
      jiffiesToMs clkTck 110 * clkTck = 110 * 1000 := by
  have hcases := exact_clkTck_cases clkTck h50 h60
  simp only [List.mem_cons, List.mem_singleton, List.not_mem_nil, or_false] at hcases
  rcases hcases with h | h | h | h | h | h | h | h | h | h | h | h | h | h | h | h | h | h | h
    | h | h | h | h | h | h <;> subst h <;> decide

/-- Witness of the amended C3 at 100 ticks per second. -/
theorem scenario_one_eleventh_witness :
    ((CpuLoadReader.init 100 ["cpu0 100 0 0 50 0 0 0 0 0 0"]).getRecentCpuLoads 100
        ["cpu0 200 0 0 60 0 0 0 0 0 0"] (some [])).result
          = some [⟨0, F64.round false 1 11 0⟩] ∧
      recentIdleTimeMs ⟨jiffiesToMs 100 60, jiffiesToMs 100 260⟩
          ⟨jiffiesToMs 100 50, jiffiesToMs 100 150⟩ = jiffiesToMs 100 10 ∧
      recentTotalTimeMs ⟨jiffiesToMs 100 60, jiffiesToMs 100 260⟩
          ⟨jiffiesToMs 100 50, jiffiesToMs 100 150⟩ = jiffiesToMs 100 110 :=
  have h := scenario_one_eleventh 100 (by decide) (by decide) (by decide) (by decide)
  ⟨h.2.1, h.2.2.2.2.1, h.2.2.2.2.2.1⟩

/-- Evaluation for C4: `init` and the following sample read the same line, so
both deltas of core 0 are zero; the call returns `true` and the one load it
returns carries NaN, the quotient of zero by zero. -/
theorem getRecentCpuLoads_zero_delta_nan :
    (CpuLoadReader.init 100 ["cpu0 100 0 0 50 0 0 0 0 0 0"]).getRecentCpuLoads 100
        ["cpu0 100 0 0 50 0 0 0 0 0 0"] (some [])
      = ⟨true, ⟨[(0, ⟨500, 1500⟩)]⟩, some [⟨0, F64.nan⟩]⟩ ∧
    recentTotalTimeMs ⟨500, 1500⟩ ⟨500, 1500⟩ = 0 ∧
    F64.toRat F64.nan = none := by
  decide

end AdaptiveCpu

/-! ## Properties of `ModelInput::Init` -/

namespace AdaptiveCpu

/-- A `uint32_t` below `2^31` keeps its value as `int32_t`. -/
theorem toInt32_of_lt {n : Nat} (h : n < 2 ^ 31) : toInt32 n = (n : Int) := by
  unfold toInt32
  have hmod : n % 2 ^ 32 = n := Nat.mod_eq_of_lt (by omega)
  rw [hmod, if_pos h]

/-- A `uint32_t` whose `int32_t` value is above some `prev ≥ -1` is below
`2^31`. -/
theorem lt_of_lt_toInt32 {n : Nat} {prev : Int} (hn : n < 2 ^ 32) (hprev : -1 ≤ prev)
    (h : prev < toInt32 n) : n < 2 ^ 31 := by
  unfold toInt32 at h
  have hmod : n % 2 ^ 32 = n := Nat.mod_eq_of_lt hn
  rw [hmod] at h
  split_ifs at h with hlt
  · exact hlt
  · omega

/-- An in-bounds array assignment succeeds. -/
theorem arraySet?_of_lt {a : List F64} {i : Nat} (v : F64) (h : i < a.length) :
    arraySet? a i v = some (a.set i v) := by
  unfold arraySet?
  rw [if_pos h]

/-- The frequency loop makes no out-of-bounds access when the frequencies left
fit in the array, and it keeps the size of the array. -/
theorem policyLoop_isSome (freqs : List CpuPolicyAverageFrequency) :
    ∀ (i : Nat) (prev : Int) (hz : List F64), i + freqs.length ≤ hz.length →
      ∃ b hz1, policyLoop freqs i prev hz = some (b, hz1) ∧ hz1.length = hz.length := by
  induction freqs with
  | nil =>
    intro i prev hz _
    exact ⟨true, hz, rfl, rfl⟩
  | cons f rest ih =>
    intro i prev hz hlen
    simp only [List.length_cons] at hlen
    unfold policyLoop
    split_ifs with hge
    · exact ⟨false, hz, rfl, rfl⟩
    · rw [arraySet?_of_lt _ (show i < hz.length by omega)]
      obtain ⟨b, hz1, h1, h2⟩ := ih (i + 1) (toInt32 f.policyId) (hz.set i f.averageFrequencyHz)
        (by rw [List.length_set]; omega)
      exact ⟨b, hz1, h1, by rw [h2, List.length_set]⟩

/-- After the frequency loop every slot holds its old value or the frequency
supplied at its position. -/
theorem policyLoop_slots (freqs : List CpuPolicyAverageFrequency) :
    ∀ (i : Nat) (prev : Int) (hz : List F64) (b : Bool) (hz1 : List F64),
      policyLoop freqs i prev hz = some (b, hz1) →
      ∀ j, hz1[j]? = hz[j]? ∨
        (i ≤ j ∧ ∃ f, freqs[j - i]? = some f ∧ hz1[j]? = some f.averageFrequencyHz) := by
  induction freqs with
  | nil =>
    intro i prev hz b hz1 h j
    simp only [policyLoop, Option.some.injEq, Prod.mk.injEq] at h
    left
    rw [h.2]
  | cons f rest ih =>
    intro i prev hz b hz1 h j
    unfold policyLoop at h
    split_ifs at h with hge
    · simp only [Option.some.injEq, Prod.mk.injEq] at h
      left
      rw [h.2]
    · unfold arraySet? at h
      split_ifs at h with hlt
      simp only at h
      rcases ih (i + 1) _ _ b hz1 h j with hold | ⟨hij, g, hg, hval⟩
      · by_cases hji : j = i
        · right
          subst hji
          refine ⟨le_refl _, f, by simp, ?_⟩
          rw [hold]
          simp [hlt]
        · left
          rw [hold, List.getElem?_set_ne (fun h => hji h.symm)]
      · right
        refine ⟨by omega, g, ?_, hval⟩
        have hsub : j - i = (j - (i + 1)) + 1 := by omega
        rw [hsub, List.getElem?_cons_succ]
        exact hg

/-- A frequency loop that runs to its end has seen policy ids that are below
`2^31`, above the previous id, and strictly increasing. -/
theorem policyLoop_true_sorted (freqs : List CpuPolicyAverageFrequency) :
    ∀ (i : Nat) (prev : Int) (hz hz1 : List F64),
      policyLoop freqs i prev hz = some (true, hz1) →
      (∀ f ∈ freqs, f.policyId < 2 ^ 32) → -1 ≤ prev →
      (∀ f ∈ freqs, prev < (f.policyId : Int) ∧ f.policyId < 2 ^ 31) ∧
        (freqs.map (fun f => f.policyId)).Pairwise (fun a b => a < b) := by
  induction freqs with
  | nil =>
    intro i prev hz hz1 _ _ _
    simp
  | cons f rest ih =>
    intro i prev hz hz1 h hu32 hprev
    unfold policyLoop at h
    split_ifs at h with hge
    · simp at h
    have hlt31 : f.policyId < 2 ^ 31 :=
      lt_of_lt_toInt32 (hu32 f (List.mem_cons_self _ _)) hprev (by omega)
    have hval := toInt32_of_lt hlt31
    rw [hval] at h hge
    split at h
    · cases h
    · rename_i hz2 _
      obtain ⟨hall, hsorted⟩ := ih (i + 1) (f.policyId : Int) hz2 hz1 h
        (fun g hg => hu32 g (List.mem_cons_of_mem _ hg)) (by omega)
      constructor
      · intro g hg
        rcases List.mem_cons.mp hg with rfl | hg
        · exact ⟨by omega, hlt31⟩
        · have := hall g hg
          exact ⟨by omega, this.2⟩
      · simp only [List.map_cons, List.pairwise_cons, List.mem_map, forall_exists_index, and_imp,
          forall_apply_eq_imp_iff₂]
        refine ⟨?_, hsorted⟩
        intro g hg
        have := (hall g hg).1
        omega

/-- The frequency loop runs to its end on policy ids that are below `2^31`,
above the previous id and strictly increasing, when they fit in the array. -/
theorem policyLoop_accepts (freqs : List CpuPolicyAverageFrequency) :
    ∀ (i : Nat) (prev : Int) (hz : List F64), i + freqs.length ≤ hz.length →
      (∀ f ∈ freqs, prev < (f.policyId : Int) ∧ f.policyId < 2 ^ 31) →
      (freqs.map (fun f => f.policyId)).Pairwise (fun a b => a < b) →
      ∃ hz1, policyLoop freqs i prev hz = some (true, hz1) := by
  induction freqs with
  | nil =>
    intro i prev hz _ _ _
    exact ⟨hz, rfl⟩
  | cons f rest ih =>
    intro i prev hz hlen hall hsorted
    simp only [List.length_cons] at hlen
    have hf := hall f (List.mem_cons_self _ _)
    simp only [List.map_cons, List.pairwise_cons, List.mem_map, forall_exists_index, and_imp,
      forall_apply_eq_imp_iff₂] at hsorted
    unfold policyLoop
    rw [toInt32_of_lt hf.2, if_neg (by omega), arraySet?_of_lt _ (show i < hz.length by omega)]
    apply ih
    · rw [List.length_set]
      omega
    · intro g hg
      have h1 := hsorted.1 g hg
      exact ⟨by omega, (hall g (List.mem_cons_of_mem _ hg)).2⟩
    · exact hsorted.2

/-- The load loop makes no out-of-bounds access and keeps the size of the
array. -/
theorem loadLoop_isSome (loads : List CpuLoad) :
    ∀ idle : List F64, ∃ b idle1, loadLoop loads idle = some (b, idle1) ∧
      idle1.length = idle.length := by
  induction loads with
  | nil =>
    intro idle
    exact ⟨true, idle, rfl, rfl⟩
  | cons l rest ih =>
    intro idle
    unfold loadLoop
    split_ifs with hge
    · exact ⟨false, idle, rfl, rfl⟩
    · rw [arraySet?_of_lt _ (show l.cpuId < idle.length by omega)]
      obtain ⟨b, idle1, h1, h2⟩ := ih (idle.set l.cpuId l.idleTimeFraction)
      exact ⟨b, idle1, h1, by rw [h2, List.length_set]⟩

/-- After the load loop every core slot holds its old value or the fraction of
a supplied load with that core id. -/
theorem loadLoop_slots (loads : List CpuLoad) :
    ∀ (idle : List F64) (b : Bool) (idle1 : List F64),
      loadLoop loads idle = some (b, idle1) →
      ∀ c, idle1[c]? = idle[c]? ∨
        ∃ l ∈ loads, l.cpuId = c ∧ idle1[c]? = some l.idleTimeFraction := by
  induction loads with
  | nil =>
    intro idle b idle1 h c
    simp only [loadLoop, Option.some.injEq, Prod.mk.injEq] at h
    left
    rw [h.2]
  | cons l rest ih =>
    intro idle b idle1 h c
    unfold loadLoop at h
    split_ifs at h with hge
    · simp only [Option.some.injEq, Prod.mk.injEq] at h
      left
      rw [h.2]
    · rw [arraySet?_of_lt _ (show l.cpuId < idle.length by omega)] at h
      simp only at h
      rcases ih _ b idle1 h c with hold | ⟨g, hg, hgc, hval⟩
      · by_cases hc : c = l.cpuId
        · right
          refine ⟨l, List.mem_cons_self _ _, hc.symm, ?_⟩
          rw [hold, hc]
          simp [show l.cpuId < idle.length by omega]
        · left
          rw [hold, List.getElem?_set_ne (fun h => hc h.symm)]
      · right
        exact ⟨g, List.mem_cons_of_mem _ hg, hgc, hval⟩

/-- The load loop returns `false` when some load names a core beyond the
array. -/
theorem loadLoop_false_of_ge (loads : List CpuLoad) :
    ∀ (idle : List F64) (b : Bool) (idle1 : List F64),
      loadLoop loads idle = some (b, idle1) →
      (∃ l ∈ loads, idle.length ≤ l.cpuId) → b = false := by
  induction loads with
  | nil =>
    intro idle b idle1 _ hex
    simp at hex
  | cons l rest ih =>
    intro idle b idle1 h hex
    unfold loadLoop at h
    split_ifs at h with hge
    · simp only [Option.some.injEq, Prod.mk.injEq] at h
      exact h.1.symm
    · rw [arraySet?_of_lt _ (show l.cpuId < idle.length by omega)] at h
      simp only at h
      apply ih _ b idle1 h
      obtain ⟨g, hg, hgc⟩ := hex
      rcases List.mem_cons.mp hg with rfl | hg
      · omega
      · exact ⟨g, hg, by rw [List.length_set]; exact hgc⟩

/-- The load loop runs to its end when every load names a core of the array. -/
theorem loadLoop_accepts (loads : List CpuLoad) :
    ∀ idle : List F64, (∀ l ∈ loads, l.cpuId < idle.length) →
      ∃ idle1, loadLoop loads idle = some (true, idle1) := by
  induction loads with
  | nil =>
    intro idle _
    exact ⟨idle, rfl⟩
  | cons l rest ih =>
    intro idle hall
    have hl := hall l (List.mem_cons_self _ _)
    unfold loadLoop
    rw [if_neg (by omega), arraySet?_of_lt _ hl]
    apply ih
    intro g hg
    rw [List.length_set]
    exact hall g (List.mem_cons_of_mem _ hg)

/-- The five ways through `ModelInput::Init`: the frequency count is wrong; the
frequency loop returns `false`; the load count is wrong; the load loop returns
`false`; or all checks pass. No way ends in an out-of-bounds access. -/
theorem Init_cases (self : ModelInput) (freqs : List CpuPolicyAverageFrequency)
    (loads : List CpuLoad) (aft : Int) (nrf : Nat) (ptd : ThrottleDecision) :
    (freqs.length ≠ self.cpuPolicyAverageFrequencyHz.length ∧
      self.Init freqs loads aft nrf ptd = some (false, self)) ∨
    (freqs.length = self.cpuPolicyAverageFrequencyHz.length ∧
      ∃ hz, policyLoop freqs 0 (-1) self.cpuPolicyAverageFrequencyHz = some (false, hz) ∧
        self.Init freqs loads aft nrf ptd
          = some (false, { self with cpuPolicyAverageFrequencyHz := hz })) ∨
    (freqs.length = self.cpuPolicyAverageFrequencyHz.length ∧
      ∃ hz, policyLoop freqs 0 (-1) self.cpuPolicyAverageFrequencyHz = some (true, hz) ∧
        loads.length ≠ self.cpuCoreIdleTimesPercentage.length ∧
        self.Init freqs loads aft nrf ptd
          = some (false, { self with cpuPolicyAverageFrequencyHz := hz })) ∨
    (freqs.length = self.cpuPolicyAverageFrequencyHz.length ∧
      ∃ hz idle, policyLoop freqs 0 (-1) self.cpuPolicyAverageFrequencyHz = some (true, hz) ∧
        loads.length = self.cpuCoreIdleTimesPercentage.length ∧
        loadLoop loads self.cpuCoreIdleTimesPercentage = some (false, idle) ∧
        self.Init freqs loads aft nrf ptd
          = some (false, { self with cpuPolicyAverageFrequencyHz := hz
                                     cpuCoreIdleTimesPercentage := idle })) ∨
    (freqs.length = self.cpuPolicyAverageFrequencyHz.length ∧
      ∃ hz idle, policyLoop freqs 0 (-1) self.cpuPolicyAverageFrequencyHz = some (true, hz) ∧
        loads.length = self.cpuCoreIdleTimesPercentage.length ∧
        loadLoop loads self.cpuCoreIdleTimesPercentage = some (true, idle) ∧
        self.Init freqs loads aft nrf ptd
          = some (true, { cpuPolicyAverageFrequencyHz := hz
                          cpuCoreIdleTimesPercentage := idle
                          averageFrameTime := aft
                          numRenderedFrames := nrf
                          previousThrottleDecision := ptd })) := by
  by_cases hP : freqs.length = self.cpuPolicyAverageFrequencyHz.length
  · right
    obtain ⟨b, hz, hloop, _⟩ := policyLoop_isSome freqs 0 (-1) self.cpuPolicyAverageFrequencyHz
      (by omega)
    cases b with
    | false =>
      left
      refine ⟨hP, hz, hloop, ?_⟩
      unfold ModelInput.Init
      rw [if_neg (by simpa using hP), hloop]
    | true =>
      right
      by_cases hC : loads.length = self.cpuCoreIdleTimesPercentage.length
      · right
        obtain ⟨b2, idle, hloop2, _⟩ := loadLoop_isSome loads self.cpuCoreIdleTimesPercentage
        cases b2 with
        | false =>
          left
          refine ⟨hP, hz, idle, hloop, hC, hloop2, ?_⟩
          unfold ModelInput.Init
          rw [if_neg (by simpa using hP), hloop]
          simp only
          rw [if_neg (by simpa using hC), hloop2]
        | true =>
          right
          refine ⟨hP, hz, idle, hloop, hC, hloop2, ?_⟩
          unfold ModelInput.Init
          rw [if_neg (by simpa using hP), hloop]
          simp only
          rw [if_neg (by simpa using hC), hloop2]
      · left
        refine ⟨hP, hz, hloop, hC, ?_⟩
        unfold ModelInput.Init
        rw [if_neg (by simpa using hP), hloop]
        simp only
        rw [if_pos hC]
  · left
    refine ⟨hP, ?_⟩
    unfold ModelInput.Init
    rw [if_pos hP]

/-- Counterexample to C5 as stated: two frequency slots and the policy ids
`[0, 0]`. `Init` writes slot 0, then rejects the repeated id at position 1 and
returns `false`; slot 0 no longer holds its value from before the call. -/
theorem Init_failure_after_write :
    (⟨[F64.zero, F64.zero], [F64.zero], 0, 0, ⟨0⟩⟩ : ModelInput).Init
        [⟨0, F64.ofNat 1000⟩, ⟨0, F64.ofNat 2000⟩] [⟨0, F64.zero⟩] 5 1 ⟨1⟩
      = some (false, ⟨[F64.ofNat 1000, F64.zero], [F64.zero], 0, 0, ⟨0⟩⟩) ∧
    (⟨[F64.ofNat 1000, F64.zero], [F64.zero], 0, 0, ⟨0⟩⟩ : ModelInput)
      ≠ ⟨[F64.zero, F64.zero], [F64.zero], 0, 0, ⟨0⟩⟩ ∧
    F64.ofNat 1000 ≠ F64.zero := by
  decide

/-- Amended C5: `Init` validates while it writes. When it returns `false`,
`averageFrameTime`, `numRenderedFrames` and `previousThrottleDecision` are equal
to their values before the call, both arrays keep their sizes, every frequency
slot holds its old value or the frequency supplied at its position, and every
core slot holds its old value or the fraction of a supplied load with that core
id. A frequency list of the wrong length leaves every field unchanged, and a
load list of the wrong length leaves every core slot unchanged. -/
theorem Init_failure_frame (self : ModelInput) (freqs : List CpuPolicyAverageFrequency)
    (loads : List CpuLoad) (aft : Int) (nrf : Nat) (ptd : ThrottleDecision) (after : ModelInput)
    (h : self.Init freqs loads aft nrf ptd = some (false, after)) :
    after.averageFrameTime = self.averageFrameTime ∧
    after.numRenderedFrames = self.numRenderedFrames ∧
    after.previousThrottleDecision = self.previousThrottleDecision ∧
    after.cpuPolicyAverageFrequencyHz.length = self.cpuPolicyAverageFrequencyHz.length ∧
    after.cpuCoreIdleTimesPercentage.length = self.cpuCoreIdleTimesPercentage.length ∧
    (∀ i : Nat, after.cpuPolicyAverageFrequencyHz[i]? = self.cpuPolicyAverageFrequencyHz[i]? ∨
      ∃ f : CpuPolicyAverageFrequency, freqs[i]? = some f ∧
        after.cpuPolicyAverageFrequencyHz[i]? = some f.averageFrequencyHz) ∧
    (∀ c : Nat, after.cpuCoreIdleTimesPercentage[c]? = self.cpuCoreIdleTimesPercentage[c]? ∨
      ∃ l ∈ loads, l.cpuId = c ∧
        after.cpuCoreIdleTimesPercentage[c]? = some l.idleTimeFraction) ∧
    (freqs.length ≠ self.cpuPolicyAverageFrequencyHz.length → after = self) ∧
    (loads.length ≠ self.cpuCoreIdleTimesPercentage.length →
      after.cpuCoreIdleTimesPercentage = self.cpuCoreIdleTimesPercentage) := by
  have hzlen : ∀ b hz, policyLoop freqs 0 (-1) self.cpuPolicyAverageFrequencyHz = some (b, hz) →
      freqs.length = self.cpuPolicyAverageFrequencyHz.length →
      hz.length = self.cpuPolicyAverageFrequencyHz.length := by
    intro b hz hloop hP
    obtain ⟨b1, hz1, h1, h2⟩ := policyLoop_isSome freqs 0 (-1)
      self.cpuPolicyAverageFrequencyHz (by omega)
    rw [hloop] at h1
    simp only [Option.some.injEq, Prod.mk.injEq] at h1
    rw [h1.2]
    exact h2
  have hzslots : ∀ b hz, policyLoop freqs 0 (-1) self.cpuPolicyAverageFrequencyHz = some (b, hz) →
      ∀ i : Nat, hz[i]? = self.cpuPolicyAverageFrequencyHz[i]? ∨
        ∃ f : CpuPolicyAverageFrequency, freqs[i]? = some f ∧
          hz[i]? = some f.averageFrequencyHz := by
    intro b hz hloop i
    rcases policyLoop_slots freqs 0 (-1) _ b hz hloop i with hold | ⟨_, f, hf, hval⟩
    · exact Or.inl hold
    · exact Or.inr ⟨f, by simpa using hf, hval⟩
  rcases Init_cases self freqs loads aft nrf ptd with
    ⟨hP, heq⟩ | ⟨hP, hz, hloop, heq⟩ | ⟨hP, hz, hloop, hC, heq⟩ |
    ⟨hP, hz, idle, hloop, hC, hloop2, heq⟩ | ⟨hP, hz, idle, hloop, hC, hloop2, heq⟩
  · rw [heq] at h
    simp only [Option.some.injEq, Prod.mk.injEq, true_and] at h
    subst h
    simp
  · rw [heq] at h
    simp only [Option.some.injEq, Prod.mk.injEq, true_and] at h
    subst h
    refine ⟨rfl, rfl, rfl, hzlen _ _ hloop hP, rfl, hzslots _ _ hloop, fun c => Or.inl rfl,
      fun hne => absurd hP hne, fun _ => rfl⟩
  · rw [heq] at h
    simp only [Option.some.injEq, Prod.mk.injEq, true_and] at h
    subst h
    refine ⟨rfl, rfl, rfl, hzlen _ _ hloop hP, rfl, hzslots _ _ hloop, fun c => Or.inl rfl,
      fun hne => absurd hP hne, fun _ => rfl⟩
  · rw [heq] at h
    simp only [Option.some.injEq, Prod.mk.injEq, true_and] at h
    subst h
    obtain ⟨b1, idle1, h1, h2⟩ := loadLoop_isSome loads self.cpuCoreIdleTimesPercentage
    rw [hloop2] at h1
    simp only [Option.some.injEq, Prod.mk.injEq] at h1
    refine ⟨rfl, rfl, rfl, hzlen _ _ hloop hP, ?_, hzslots _ _ hloop,
      loadLoop_slots loads _ _ _ hloop2, fun hne => absurd hP hne, fun hne => absurd hC hne⟩
    show idle.length = _
    rw [h1.2]
    exact h2
  · rw [heq] at h
    simp at h

/-- Witness of the amended C5: the input of the counterexample; the scalar
fields and the core slot are as before, slot 0 holds the supplied frequency. -/
theorem Init_failure_frame_witness :
    (⟨[F64.zero, F64.zero], [F64.zero], 0, 0, ⟨0⟩⟩ : ModelInput).Init
        [⟨0, F64.ofNat 1000⟩, ⟨0, F64.ofNat 2000⟩] [⟨0, F64.zero⟩] 5 1 ⟨1⟩
      = some (false, ⟨[F64.ofNat 1000, F64.zero], [F64.zero], 0, 0, ⟨0⟩⟩) ∧
    (⟨[F64.ofNat 1000, F64.zero], [F64.zero], 0, 0, ⟨0⟩⟩ : ModelInput).averageFrameTime
      = (⟨[F64.zero, F64.zero], [F64.zero], 0, 0, ⟨0⟩⟩ : ModelInput).averageFrameTime :=
  ⟨by decide,
    (Init_failure_frame ⟨[F64.zero, F64.zero], [F64.zero], 0, 0, ⟨0⟩⟩
      [⟨0, F64.ofNat 1000⟩, ⟨0, F64.ofNat 2000⟩] [⟨0, F64.zero⟩] 5 1 ⟨1⟩
      ⟨[F64.ofNat 1000, F64.zero], [F64.zero], 0, 0, ⟨0⟩⟩ (by decide)).1⟩

/-- Evaluation for C6: two core slots, both holding the `double` 7 before the
call, and two loads that both name core 0. `Init` returns `true`; no supplied
load names core 1, and slot 1 still holds the 7 from before the call. -/
theorem Init_repeated_cpuId_accepted :
    (⟨[F64.zero], [F64.ofNat 7, F64.ofNat 7], 0, 0, ⟨0⟩⟩ : ModelInput).Init
        [⟨0, F64.ofNat 1000⟩] [⟨0, F64.round false 1 4 0⟩, ⟨0, F64.round false 3 4 0⟩] 5 1 ⟨1⟩
      = some (true, ⟨[F64.ofNat 1000], [F64.round false 3 4 0, F64.ofNat 7], 5, 1, ⟨1⟩⟩) ∧
    (∀ l ∈ ([⟨0, F64.round false 1 4 0⟩, ⟨0, F64.round false 3 4 0⟩] : List CpuLoad),
      l.cpuId ≠ 1) := by
  decide

/-- Counterexample to C7 as stated: the policy ids `[0, 1, 2^31]` are strictly
increasing unsigned 32-bit values, there are as many frequencies as slots and
the one load names core 0 of one, yet `Init` returns `false`: as `int32_t` the
id `2^31` is negative. -/
theorem Init_rejects_large_policyId :
    (⟨[F64.zero, F64.zero, F64.zero], [F64.zero], 0, 0, ⟨0⟩⟩ : ModelInput).Init
        [⟨0, F64.ofNat 1000⟩, ⟨1, F64.ofNat 2000⟩, ⟨2 ^ 31, F64.ofNat 3000⟩]
        [⟨0, F64.zero⟩] 5 1 ⟨1⟩
      = some (false, ⟨[F64.ofNat 1000, F64.ofNat 2000, F64.zero], [F64.zero], 0, 0, ⟨0⟩⟩) ∧
    ([0, 1, 2 ^ 31] : List Nat).Pairwise (fun a b => a < b) ∧
    (∀ n ∈ ([0, 1, 2 ^ 31] : List Nat), n < 2 ^ 32) ∧
    toInt32 (2 ^ 31) = -(2 ^ 31) := by
  decide

/-- Amended C7: for every number of slots `P` and `C` and every input with
exactly `P` frequencies whose policy ids are strictly increasing and below
`2^31` (non-negative as `int32_t`), exactly `C` loads, and every `cpuId` below
`C`, `Init` returns `true`. -/
theorem Init_accepts_well_formed (self : ModelInput) (freqs : List CpuPolicyAverageFrequency)
    (loads : List CpuLoad) (aft : Int) (nrf : Nat) (ptd : ThrottleDecision)
    (hP : freqs.length = self.cpuPolicyAverageFrequencyHz.length)
    (hsorted : (freqs.map (fun f => f.policyId)).Pairwise (fun a b => a < b))
    (hsmall : ∀ f ∈ freqs, f.policyId < 2 ^ 31)
    (hC : loads.length = self.cpuCoreIdleTimesPercentage.length)
    (hid : ∀ l ∈ loads, l.cpuId < self.cpuCoreIdleTimesPercentage.length) :
    ∃ after, self.Init freqs loads aft nrf ptd = some (true, after) := by
  obtain ⟨hz, hloop⟩ := policyLoop_accepts freqs 0 (-1) self.cpuPolicyAverageFrequencyHz
    (by omega) (fun f hf => ⟨by omega, hsmall f hf⟩) hsorted
  obtain ⟨idle, hloop2⟩ := loadLoop_accepts loads self.cpuCoreIdleTimesPercentage hid
  refine ⟨⟨hz, idle, aft, nrf, ptd⟩, ?_⟩
  unfold ModelInput.Init
  rw [if_neg (by simpa using hP), hloop]
  simp only
  rw [if_neg (by simpa using hC), hloop2]

/-- Witness of the amended C7: the policy ids `[0, 1, 2]` with three slots. -/
theorem Init_accepts_well_formed_witness :
    ∃ after, (⟨[F64.zero, F64.zero, F64.zero], [F64.zero], 0, 0, ⟨0⟩⟩ : ModelInput).Init
        [⟨0, F64.ofNat 1000⟩, ⟨1, F64.ofNat 2000⟩, ⟨2, F64.ofNat 3000⟩]
        [⟨0, F64.zero⟩] 5 1 ⟨1⟩ = some (true, after) :=
  Init_accepts_well_formed ⟨[F64.zero, F64.zero, F64.zero], [F64.zero], 0, 0, ⟨0⟩⟩
    [⟨0, F64.ofNat 1000⟩, ⟨1, F64.ofNat 2000⟩, ⟨2, F64.ofNat 3000⟩] [⟨0, F64.zero⟩] 5 1 ⟨1⟩
    (by decide) (by decide) (by decide) (by decide) (by decide)

/-- C8: when two adjacent entries of the frequency list have policy ids, as
unsigned 32-bit values, with the earlier one not below the later one (out of
order or repeated), `Init` returns `false`, whatever the other arguments. -/
theorem Init_rejects_unsorted (self : ModelInput) (freqs : List CpuPolicyAverageFrequency)
    (loads : List CpuLoad) (aft : Int) (nrf : Nat) (ptd : ThrottleDecision)
    (hu32 : ∀ f ∈ freqs, f.policyId < 2 ^ 32)
    (hadj : ∃ (i : Nat) (a b : CpuPolicyAverageFrequency),
      freqs[i]? = some a ∧ freqs[i + 1]? = some b ∧ b.policyId ≤ a.policyId) :
    ∃ after, self.Init freqs loads aft nrf ptd = some (false, after) := by
  rcases Init_cases self freqs loads aft nrf ptd with
    ⟨_, heq⟩ | ⟨_, hz, _, heq⟩ | ⟨_, hz, _, _, heq⟩ |
    ⟨_, hz, idle, _, _, _, heq⟩ | ⟨_, hz, idle, hloop, _, _, _⟩
  · exact ⟨_, heq⟩
  · exact ⟨_, heq⟩
  · exact ⟨_, heq⟩
  · exact ⟨_, heq⟩
  · exfalso
    obtain ⟨_, hsorted⟩ := policyLoop_true_sorted freqs 0 (-1) _ hz hloop hu32 (le_refl _)
    obtain ⟨i, a, b, ha, hb, hle⟩ := hadj
    rw [List.pairwise_iff_getElem] at hsorted
    obtain ⟨hi, hai⟩ := List.getElem?_eq_some_iff.mp ha
    obtain ⟨hi1, hbi⟩ := List.getElem?_eq_some_iff.mp hb
    have := hsorted i (i + 1) (by simpa using hi) (by simpa using hi1) (by omega)
    simp only [List.getElem_map, hai, hbi] at this
    omega

/-- Witness of C8: the policy ids `[0, 2, 1]`. -/
theorem Init_rejects_unsorted_witness :
    ∃ after, (⟨[F64.zero, F64.zero, F64.zero], [F64.zero], 0, 0, ⟨0⟩⟩ : ModelInput).Init
        [⟨0, F64.ofNat 1000⟩, ⟨2, F64.ofNat 2000⟩, ⟨1, F64.ofNat 3000⟩]
        [⟨0, F64.zero⟩] 5 1 ⟨1⟩ = some (false, after) :=
  Init_rejects_unsorted ⟨[F64.zero, F64.zero, F64.zero], [F64.zero], 0, 0, ⟨0⟩⟩
    [⟨0, F64.ofNat 1000⟩, ⟨2, F64.ofNat 2000⟩, ⟨1, F64.ofNat 3000⟩] [⟨0, F64.zero⟩] 5 1 ⟨1⟩
    (by decide) ⟨1, ⟨2, F64.ofNat 2000⟩, ⟨1, F64.ofNat 3000⟩, by decide, by decide, by decide⟩

/-- C9: when the frequency list is not as long as the array of frequency slots,
or the load list is not as long as the array of core slots, `Init` returns
`false`. This holds for arrays of every size, those with `P, C ≥ 1` among
them. -/
theorem Init_rejects_wrong_length (self : ModelInput) (freqs : List CpuPolicyAverageFrequency)
    (loads : List CpuLoad) (aft : Int) (nrf : Nat) (ptd : ThrottleDecision)
    (hlen : freqs.length ≠ self.cpuPolicyAverageFrequencyHz.length ∨
      loads.length ≠ self.cpuCoreIdleTimesPercentage.length) :
    ∃ after, self.Init freqs loads aft nrf ptd = some (false, after) := by
  rcases Init_cases self freqs loads aft nrf ptd with
    ⟨_, heq⟩ | ⟨_, hz, _, heq⟩ | ⟨_, hz, _, _, heq⟩ |
    ⟨_, hz, idle, _, _, _, heq⟩ | ⟨hP, hz, idle, _, hC, _, _⟩
  · exact ⟨_, heq⟩
  · exact ⟨_, heq⟩
  · exact ⟨_, heq⟩
  · exact ⟨_, heq⟩
  · rcases hlen with h | h
    · exact absurd hP h
    · exact absurd hC h

/-- Witness of C9: three frequency slots and two frequencies; one core slot and
two loads. -/
theorem Init_rejects_wrong_length_witness :
    (∃ after, (⟨[F64.zero, F64.zero, F64.zero], [F64.zero], 0, 0, ⟨0⟩⟩ : ModelInput).Init
        [⟨0, F64.ofNat 1000⟩, ⟨1, F64.ofNat 2000⟩] [⟨0, F64.zero⟩] 5 1 ⟨1⟩
          = some (false, after)) ∧
    (∃ after, (⟨[F64.zero, F64.zero], [F64.zero], 0, 0, ⟨0⟩⟩ : ModelInput).Init
        [⟨0, F64.ofNat 1000⟩, ⟨1, F64.ofNat 2000⟩] [⟨0, F64.zero⟩, ⟨0, F64.zero⟩] 5 1 ⟨1⟩
          = some (false, after)) :=
  ⟨Init_rejects_wrong_length ⟨[F64.zero, F64.zero, F64.zero], [F64.zero], 0, 0, ⟨0⟩⟩
      [⟨0, F64.ofNat 1000⟩, ⟨1, F64.ofNat 2000⟩] [⟨0, F64.zero⟩] 5 1 ⟨1⟩ (Or.inl (by decide)),
    Init_rejects_wrong_length ⟨[F64.zero, F64.zero], [F64.zero], 0, 0, ⟨0⟩⟩
      [⟨0, F64.ofNat 1000⟩, ⟨1, F64.ofNat 2000⟩] [⟨0, F64.zero⟩, ⟨0, F64.zero⟩] 5 1 ⟨1⟩
      (Or.inr (by decide))⟩

/-- C10: when some load has a `cpuId` not below the number of core slots, `Init`
returns `false`. No write to a core slot at an index beyond the array ever
happens: such a write is the one thing that makes `arraySet?` yield `none`, and
neither the load loop nor `Init` ever yields `none`. -/
theorem Init_rejects_cpuId_out_of_range (self : ModelInput)
    (freqs : List CpuPolicyAverageFrequency) (loads : List CpuLoad) (aft : Int) (nrf : Nat)
    (ptd : ThrottleDecision) :
    ((∃ l ∈ loads, self.cpuCoreIdleTimesPercentage.length ≤ l.cpuId) →
      ∃ after, self.Init freqs loads aft nrf ptd = some (false, after)) ∧
    (∀ (idle : List F64) (c : Nat) (v : F64), arraySet? idle c v = none ↔ idle.length ≤ c) ∧
    (∀ idle : List F64, loadLoop loads idle ≠ none) ∧
    self.Init freqs loads aft nrf ptd ≠ none := by
  refine ⟨?_, ?_, ?_, ?_⟩
  · intro hbig
    rcases Init_cases self freqs loads aft nrf ptd with
      ⟨_, heq⟩ | ⟨_, hz, _, heq⟩ | ⟨_, hz, _, _, heq⟩ |
      ⟨_, hz, idle, _, _, _, heq⟩ | ⟨_, hz, idle, _, _, hloop2, _⟩
    · exact ⟨_, heq⟩
    · exact ⟨_, heq⟩
    · exact ⟨_, heq⟩
    · exact ⟨_, heq⟩
    · have := loadLoop_false_of_ge loads _ true idle hloop2 hbig
      cases this
  · intro idle c v
    unfold arraySet?
    split_ifs with hlt
    · simp
      omega
    · simp
      omega
  · intro idle hnone
    obtain ⟨b, idle1, h1, _⟩ := loadLoop_isSome loads idle
    rw [hnone] at h1
    cases h1
  · intro hnone
    rcases Init_cases self freqs loads aft nrf ptd with
      ⟨_, heq⟩ | ⟨_, hz, _, heq⟩ | ⟨_, hz, _, _, heq⟩ |
      ⟨_, hz, idle, _, _, _, heq⟩ | ⟨_, hz, idle, _, _, _, heq⟩ <;>
    · rw [hnone] at heq
      cases heq

/-- Witness of C10: one core slot and a load for core 1. -/
theorem Init_rejects_cpuId_out_of_range_witness :
    (∃ l ∈ ([⟨1, F64.zero⟩] : List CpuLoad),
      (⟨[F64.zero], [F64.zero], 0, 0, ⟨0⟩⟩ : ModelInput).cpuCoreIdleTimesPercentage.length
        ≤ l.cpuId) ∧
    ∃ after, (⟨[F64.zero], [F64.zero], 0, 0, ⟨0⟩⟩ : ModelInput).Init
        [⟨0, F64.ofNat 1000⟩] [⟨1, F64.zero⟩] 5 1 ⟨1⟩ = some (false, after) :=
  ⟨⟨⟨1, F64.zero⟩, by decide, by decide⟩,
    (Init_rejects_cpuId_out_of_range ⟨[F64.zero], [F64.zero], 0, 0, ⟨0⟩⟩
      [⟨0, F64.ofNat 1000⟩] [⟨1, F64.zero⟩] 5 1 ⟨1⟩).1 ⟨⟨1, F64.zero⟩, by decide, by decide⟩⟩

end AdaptiveCpu

/-! ## Further properties of `ModelInput::Init` -/

namespace AdaptiveCpu

/-- A frequency loop that runs to its end has written the frequency at position
`j` of its list into slot `i + j`. -/
theorem policyLoop_true_slots (freqs : List CpuPolicyAverageFrequency) :
    ∀ (i : Nat) (prev : Int) (hz hz1 : List F64),
      policyLoop freqs i prev hz = some (true, hz1) → i + freqs.length ≤ hz.length →
      ∀ (j : Nat) (f : CpuPolicyAverageFrequency), freqs[j]? = some f →
        hz1[i + j]? = some f.averageFrequencyHz := by
  induction freqs with
  | nil =>
    intro i prev hz hz1 _ _ j f hf
    simp at hf
  | cons g rest ih =>
    intro i prev hz hz1 h hlen j f hf
    simp only [List.length_cons] at hlen
    unfold policyLoop at h
    split_ifs at h with hge
    · simp at h
    rw [arraySet?_of_lt _ (show i < hz.length by omega)] at h
    simp only at h
    cases j with
    | zero =>
      simp only [List.getElem?_cons_zero, Option.some.injEq] at hf
      subst hf
      rcases policyLoop_slots rest (i + 1) _ _ true hz1 h i with hold | ⟨hle, _⟩
      · rw [Nat.add_zero, hold]
        simp [show i < hz.length by omega]
      · omega
    | succ j =>
      simp only [List.getElem?_cons_succ] at hf
      have := ih (i + 1) _ _ hz1 h (by rw [List.length_set]; omega) j f hf
      rw [show i + (j + 1) = i + 1 + j by omega]
      exact this

/-- C11: whenever `Init` returns `true`, every frequency slot `i` below the
number of slots holds `frequencies[i].averageFrequencyHz`, and
`averageFrameTime`, `numRenderedFrames` and `previousThrottleDecision` are the
arguments of the call. -/
theorem Init_success_fields (self : ModelInput) (freqs : List CpuPolicyAverageFrequency)
    (loads : List CpuLoad) (aft : Int) (nrf : Nat) (ptd : ThrottleDecision) (after : ModelInput)
    (h : self.Init freqs loads aft nrf ptd = some (true, after)) :
    (∀ i : Nat, i < self.cpuPolicyAverageFrequencyHz.length →
      ∃ f : CpuPolicyAverageFrequency, freqs[i]? = some f ∧
        after.cpuPolicyAverageFrequencyHz[i]? = some f.averageFrequencyHz) ∧
    after.cpuPolicyAverageFrequencyHz.length = self.cpuPolicyAverageFrequencyHz.length ∧
    after.averageFrameTime = aft ∧
    after.numRenderedFrames = nrf ∧
    after.previousThrottleDecision = ptd := by
  rcases Init_cases self freqs loads aft nrf ptd with
    ⟨_, heq⟩ | ⟨_, hz, _, heq⟩ | ⟨_, hz, _, _, heq⟩ |
    ⟨_, hz, idle, _, _, _, heq⟩ | ⟨hP, hz, idle, hloop, _, _, heq⟩
  · rw [heq] at h
    simp at h
  · rw [heq] at h
    simp at h
  · rw [heq] at h
    simp at h
  · rw [heq] at h
    simp at h
  · rw [heq] at h
    simp only [Option.some.injEq, Prod.mk.injEq, true_and] at h
    subst h
    refine ⟨?_, ?_, rfl, rfl, rfl⟩
    · intro i hi
      have hif : i < freqs.length := by omega
      refine ⟨freqs[i], List.getElem?_eq_getElem hif, ?_⟩
      have := policyLoop_true_slots freqs 0 (-1) _ hz hloop (by omega) i freqs[i]
        (List.getElem?_eq_getElem hif)
      simpa using this
    · obtain ⟨b1, hz1, h1, h2⟩ := policyLoop_isSome freqs 0 (-1)
        self.cpuPolicyAverageFrequencyHz (by omega)
      rw [hloop] at h1
      simp only [Option.some.injEq, Prod.mk.injEq] at h1
      show hz.length = _
      rw [h1.2]
      exact h2

/-- Witness of C11: three slots and the policy ids `[0, 1, 2]`. -/
theorem Init_success_fields_witness :
    (⟨[F64.zero, F64.zero, F64.zero], [F64.zero], 0, 0, ⟨0⟩⟩ : ModelInput).Init
        [⟨0, F64.ofNat 1000⟩, ⟨1, F64.ofNat 2000⟩, ⟨2, F64.ofNat 3000⟩]
        [⟨0, F64.one⟩] 5 1 ⟨1⟩
      = some (true, ⟨[F64.ofNat 1000, F64.ofNat 2000, F64.ofNat 3000], [F64.one], 5, 1, ⟨1⟩⟩) ∧
    (⟨[F64.ofNat 1000, F64.ofNat 2000, F64.ofNat 3000], [F64.one], 5, 1, ⟨1⟩⟩
      : ModelInput).averageFrameTime = 5 :=
  ⟨by decide,
    (Init_success_fields ⟨[F64.zero, F64.zero, F64.zero], [F64.zero], 0, 0, ⟨0⟩⟩
      [⟨0, F64.ofNat 1000⟩, ⟨1, F64.ofNat 2000⟩, ⟨2, F64.ofNat 3000⟩] [⟨0, F64.one⟩] 5 1 ⟨1⟩
      ⟨[F64.ofNat 1000, F64.ofNat 2000, F64.ofNat 3000], [F64.one], 5, 1, ⟨1⟩⟩
      (by decide)).2.2.1⟩

end AdaptiveCpu

/-! ## Further properties of `CpuLoadReader` -/

namespace AdaptiveCpu

/-- The assignment `m[key] = v` keeps the keys in strictly ascending order. -/
theorem mapAssign_sorted (m : CpuTimeMap) (key : Nat) (v : CpuTime)
    (h : m.Pairwise (fun a b => a.1 < b.1)) :
    (mapAssign m key v).Pairwise (fun a b => a.1 < b.1) := by
  induction m with
  | nil => simp [mapAssign]
  | cons hd tl ih =>
    obtain ⟨k, w⟩ := hd
    rw [List.pairwise_cons] at h
    unfold mapAssign
    split_ifs with h1 h2
    · rw [List.pairwise_cons]
      refine ⟨?_, List.pairwise_cons.mpr h⟩
      intro e he
      rcases List.mem_cons.mp he with rfl | he
      · exact h1
      · exact lt_trans h1 (h.1 e he)
    · exact List.pairwise_cons.mpr h
    · rw [List.pairwise_cons]
      refine ⟨?_, ih h.2⟩
      intro e he
      rcases mem_mapAssign he with rfl | he
      · show k < key
        omega
      · exact h.1 e he

/-- The map returned by `readCpuTimes` has strictly ascending keys. -/
theorem readCpuTimes_sorted (clkTck : Nat) (procStat : List String) :
    (readCpuTimes clkTck procStat).Pairwise (fun a b => a.1 < b.1) := by
  have hfold : ∀ (lines : List String) (m : CpuTimeMap),
      m.Pairwise (fun a b => a.1 < b.1) →
        (lines.foldl (readCpuTimesLine clkTck) m).Pairwise (fun a b => a.1 < b.1) := by
    intro lines
    induction lines with
    | nil =>
      intro m hm
      exact hm
    | cons line rest ih =>
      intro m hm
      simp only [List.foldl_cons]
      apply ih
      unfold readCpuTimesLine
      split
      · exact hm
      · exact mapAssign_sorted _ _ _ hm
  exact hfold procStat [] List.Pairwise.nil

/-- A loop of `getRecentCpuLoads` that runs to its end has appended one load
per entry of the snapshot, in the order of the snapshot, to the vector; each
load carries the quotient of the two deltas of its core. -/
theorem loadsLoop_appends (prev cur : CpuTimeMap) :
    ∀ (result out : List CpuLoad), loadsLoop prev cur result = (true, out) →
      ∃ loads : List CpuLoad, out = result ++ loads ∧
        loads.map (fun l => l.cpuId) = cur.map (fun e => e.1) ∧
        ∀ l ∈ loads, ∃ (t p : CpuTime), (l.cpuId, t) ∈ cur ∧ mapFind prev l.cpuId = some p ∧
          recentIdleTimeMs t p ≤ recentTotalTimeMs t p ∧
          l.idleTimeFraction
            = F64.div (F64.ofNat (recentIdleTimeMs t p)) (F64.ofNat (recentTotalTimeMs t p)) := by
  induction cur with
  | nil =>
    intro result out h
    simp only [loadsLoop, Prod.mk.injEq, true_and] at h
    exact ⟨[], by simp [h], rfl, by simp⟩
  | cons hd tl ih =>
    obtain ⟨cpuId, cpuTime⟩ := hd
    intro result out h
    unfold loadsLoop at h
    split at h
    · simp at h
    · rename_i previousCpuTime hfind
      split_ifs at h with hgt
      · simp at h
      · obtain ⟨loads, hout, hids, hall⟩ := ih _ out h
        refine ⟨⟨cpuId, F64.div (F64.ofNat (recentIdleTimeMs cpuTime previousCpuTime))
          (F64.ofNat (recentTotalTimeMs cpuTime previousCpuTime))⟩ :: loads, ?_, ?_, ?_⟩
        · rw [hout, List.append_assoc]
          rfl
        · simp only [List.map_cons, hids]
        · intro l hl
          rcases List.mem_cons.mp hl with rfl | hl
          · exact ⟨cpuTime, previousCpuTime, List.mem_cons_self _ _, hfind, by omega, rfl⟩
          · obtain ⟨t, p, hmem, hp, hle, hfrac⟩ := hall l hl
            exact ⟨t, p, List.mem_cons_of_mem _ hmem, hp, hle, hfrac⟩

/-- What a successful call leaves behind: the reader holds the snapshot and the
vector is what the loop made of it. -/
theorem getRecentCpuLoads_of_ok (self : CpuLoadReader) (clkTck : Nat)
    (procStat : List String) (result : Option (List CpuLoad))
    (h : (self.getRecentCpuLoads clkTck procStat result).ok = true) :
    ∃ out out1 : List CpuLoad, result = some out ∧
      loadsLoop self.mPreviousCpuTimes (readCpuTimes clkTck procStat) out = (true, out1) ∧
      self.getRecentCpuLoads clkTck procStat result
        = ⟨true, ⟨readCpuTimes clkTck procStat⟩, some out1⟩ := by
  cases result with
  | none => simp [CpuLoadReader.getRecentCpuLoads] at h
  | some out =>
    unfold CpuLoadReader.getRecentCpuLoads at h ⊢
    simp only at h ⊢
    split_ifs at h ⊢ with hempty
    split at h
    · simp at h
    · rename_i out1 hloop
      exact ⟨out, out1, rfl, hloop, rfl⟩

/-- C12: whenever `getRecentCpuLoads` succeeds, the stored baseline is the map
that `readCpuTimes` returned in that call, entry for entry; a core that the
snapshot lacks is no longer in the baseline, whatever the old baseline held. -/
theorem getRecentCpuLoads_success_replaces_baseline (self : CpuLoadReader) (clkTck : Nat)
    (procStat : List String) (result : Option (List CpuLoad))
    (h : (self.getRecentCpuLoads clkTck procStat result).ok = true) :
    (self.getRecentCpuLoads clkTck procStat result).reader.getPreviousCpuTimes
        = readCpuTimes clkTck procStat ∧
      ∀ id : Nat, mapFind (readCpuTimes clkTck procStat) id = none →
        mapFind (self.getRecentCpuLoads clkTck procStat result).reader.getPreviousCpuTimes id
          = none := by
  obtain ⟨out, out1, _, _, heq⟩ := getRecentCpuLoads_of_ok self clkTck procStat result h
  rw [heq]
  exact ⟨rfl, fun id hid => hid⟩

/-- Witness of C12: the baseline holds cores 0 and 1, the snapshot core 0 only;
the call succeeds and core 1 is gone from the baseline. -/
theorem getRecentCpuLoads_success_replaces_baseline_witness :
    mapFind (CpuLoadReader.init 100
        ["cpu0 100 0 0 50 0 0 0 0 0 0", "cpu1 7 0 0 3 0 0 0 0 0 0"]).getPreviousCpuTimes 1
      = some ⟨30, 100⟩ ∧
    ((CpuLoadReader.init 100
        ["cpu0 100 0 0 50 0 0 0 0 0 0", "cpu1 7 0 0 3 0 0 0 0 0 0"]).getRecentCpuLoads 100
        ["cpu0 200 0 0 60 0 0 0 0 0 0"] (some [])).reader.getPreviousCpuTimes
      = readCpuTimes 100 ["cpu0 200 0 0 60 0 0 0 0 0 0"] ∧
    mapFind ((CpuLoadReader.init 100
        ["cpu0 100 0 0 50 0 0 0 0 0 0", "cpu1 7 0 0 3 0 0 0 0 0 0"]).getRecentCpuLoads 100
        ["cpu0 200 0 0 60 0 0 0 0 0 0"] (some [])).reader.getPreviousCpuTimes 1 = none :=
  have h := getRecentCpuLoads_success_replaces_baseline
    (CpuLoadReader.init 100 ["cpu0 100 0 0 50 0 0 0 0 0 0", "cpu1 7 0 0 3 0 0 0 0 0 0"]) 100
    ["cpu0 200 0 0 60 0 0 0 0 0 0"] (some []) (by decide)
  ⟨by decide, h.1, h.2 1 (by decide)⟩

/-- C20: whenever `getRecentCpuLoads` succeeds, the vector holds its former
elements unchanged, followed by one load per core of the current snapshot and
no others, in strictly ascending order of `cpuId`; on a vector that was empty
these loads are the whole result. -/
theorem getRecentCpuLoads_success_result (self : CpuLoadReader) (clkTck : Nat)
    (procStat : List String) (out : List CpuLoad)
    (h : (self.getRecentCpuLoads clkTck procStat (some out)).ok = true) :
    ∃ loads : List CpuLoad,
      (self.getRecentCpuLoads clkTck procStat (some out)).result = some (out ++ loads) ∧
      loads.map (fun l => l.cpuId) = (readCpuTimes clkTck procStat).map (fun e => e.1) ∧
      (loads.map (fun l => l.cpuId)).Pairwise (fun a b => a < b) ∧
      (loads.map (fun l => l.cpuId)).Nodup ∧
      (out = [] → (self.getRecentCpuLoads clkTck procStat (some out)).result = some loads) := by
  obtain ⟨out0, out1, hsome, hloop, heq⟩ :=
    getRecentCpuLoads_of_ok self clkTck procStat (some out) h
  simp only [Option.some.injEq] at hsome
  subst hsome
  obtain ⟨loads, hout, hids, _⟩ := loadsLoop_appends _ _ _ _ hloop
  have hsorted : (loads.map (fun l => l.cpuId)).Pairwise (fun a b => a < b) := by
    rw [hids, List.pairwise_map]
    exact readCpuTimes_sorted clkTck procStat
  refine ⟨loads, ?_, hids, hsorted, ?_, ?_⟩
  · rw [heq, hout]
  · exact hsorted.imp (fun hab => Nat.ne_of_lt hab)
  · intro hnil
    rw [heq, hout, hnil, List.nil_append]

/-- Witness of C20: two cores listed in descending order in `/proc/stat`, and a
vector that already holds one element. -/
theorem getRecentCpuLoads_success_result_witness :
    ((CpuLoadReader.init 100
        ["cpu1 7 0 0 3 0 0 0 0 0 0", "cpu0 100 0 0 50 0 0 0 0 0 0"]).getRecentCpuLoads 100
        ["cpu1 17 0 0 3 0 0 0 0 0 0", "cpu0 200 0 0 60 0 0 0 0 0 0"]
        (some [⟨9, F64.one⟩])).result
      = some [⟨9, F64.one⟩, ⟨0, F64.round false 1 11 0⟩, ⟨1, F64.zero⟩] ∧
    ∃ loads : List CpuLoad,
      ((CpuLoadReader.init 100
        ["cpu1 7 0 0 3 0 0 0 0 0 0", "cpu0 100 0 0 50 0 0 0 0 0 0"]).getRecentCpuLoads 100
        ["cpu1 17 0 0 3 0 0 0 0 0 0", "cpu0 200 0 0 60 0 0 0 0 0 0"]
        (some [⟨9, F64.one⟩])).result = some ([⟨9, F64.one⟩] ++ loads) ∧
      (loads.map (fun l => l.cpuId)).Pairwise (fun a b => a < b) :=
  have h := getRecentCpuLoads_success_result
    (CpuLoadReader.init 100 ["cpu1 7 0 0 3 0 0 0 0 0 0", "cpu0 100 0 0 50 0 0 0 0 0 0"]) 100
    ["cpu1 17 0 0 3 0 0 0 0 0 0", "cpu0 200 0 0 60 0 0 0 0 0 0"] [⟨9, F64.one⟩] (by decide)
  ⟨by decide, h.imp (fun _ hl => ⟨hl.1, hl.2.2.1⟩)⟩

/-- Counterexample to C15 as stated: the total time of core 0 goes back from
1500 ms to 1400 ms while its idle time stays at 500 ms. The 64-bit total delta
wraps round to `2^64 - 100`, the idle delta 0 is not above it, and the call
returns `true` with a load for core 0. -/
theorem getRecentCpuLoads_total_backwards_accepted :
    mapFind (CpuLoadReader.init 100 ["cpu0 100 0 0 50 0 0 0 0 0 0"]).getPreviousCpuTimes 0
      = some ⟨500, 1500⟩ ∧
    mapFind (readCpuTimes 100 ["cpu0 90 0 0 50 0 0 0 0 0 0"]) 0 = some ⟨500, 1400⟩ ∧
    recentTotalTimeMs ⟨500, 1400⟩ ⟨500, 1500⟩ = 2 ^ 64 - 100 ∧
    (CpuLoadReader.init 100 ["cpu0 100 0 0 50 0 0 0 0 0 0"]).getRecentCpuLoads 100
        ["cpu0 90 0 0 50 0 0 0 0 0 0"] (some [])
      = ⟨true, ⟨[(0, ⟨500, 1400⟩)]⟩, some [⟨0, F64.zero⟩]⟩ := by
  decide

/-- The check `recentIdleTimeMs > recentTotalTimeMs` of one core, on 64-bit
times, in terms of the unwrapped differences: the core passes the check in
exactly four cases, one for each combination of counters that went backwards. -/
theorem recent_le_iff (t p : CpuTime)
    (ht : t.idleTimeMs < 2 ^ 64 ∧ t.totalTimeMs < 2 ^ 64)
    (hp : p.idleTimeMs < 2 ^ 64 ∧ p.totalTimeMs < 2 ^ 64) :
    recentIdleTimeMs t p ≤ recentTotalTimeMs t p ↔
      (p.idleTimeMs ≤ t.idleTimeMs ∧ p.totalTimeMs ≤ t.totalTimeMs ∧
        t.idleTimeMs - p.idleTimeMs ≤ t.totalTimeMs - p.totalTimeMs) ∨
      (t.idleTimeMs < p.idleTimeMs ∧ p.totalTimeMs ≤ t.totalTimeMs ∧
        2 ^ 64 ≤ (p.idleTimeMs - t.idleTimeMs) + (t.totalTimeMs - p.totalTimeMs)) ∨
      (t.idleTimeMs < p.idleTimeMs ∧ t.totalTimeMs < p.totalTimeMs ∧
        p.totalTimeMs - t.totalTimeMs ≤ p.idleTimeMs - t.idleTimeMs) ∨
      (p.idleTimeMs ≤ t.idleTimeMs ∧ t.totalTimeMs < p.totalTimeMs ∧
        (t.idleTimeMs - p.idleTimeMs) + (p.totalTimeMs - t.totalTimeMs) ≤ 2 ^ 64) := by
  unfold recentIdleTimeMs recentTotalTimeMs subU64
  omega

/-- Amended C15: the check `deltaIdle > deltaTotal` detects part of the
non-monotonic source data. With a non-null output and a baseline of 64-bit
times, `getRecentCpuLoads` returns `true` if and only if the snapshot is
non-empty and every core of it is in the baseline and passes the check, which a
core does in exactly four cases: neither counter went backwards and the idle
increase is at most the total increase; only the idle time went backwards and
the idle decrease plus the total increase is at least `2^64`; both went
backwards and the idle time went back at least as far as the total time; only
the total time went backwards and the idle increase plus the total decrease is
at most `2^64`. Hence the call returns `false` whenever, for some core of the
snapshot that is in the baseline, only the idle time went backwards with the
idle decrease plus the total increase below `2^64`, or both went backwards and
the idle time went back by less than the total time, or only the total time
went backwards with the idle increase plus the total decrease above `2^64`. -/
theorem getRecentCpuLoads_backwards_rule (self : CpuLoadReader) (clkTck : Nat)
    (procStat : List String) (out : List CpuLoad)
    (hbase : ∀ (id : Nat) (p : CpuTime), mapFind self.getPreviousCpuTimes id = some p →
      p.idleTimeMs < 2 ^ 64 ∧ p.totalTimeMs < 2 ^ 64) :
    ((self.getRecentCpuLoads clkTck procStat (some out)).ok = true ↔
      readCpuTimes clkTck procStat ≠ [] ∧
      ∀ (id : Nat) (t : CpuTime), (id, t) ∈ readCpuTimes clkTck procStat →
        ∃ p : CpuTime, mapFind self.getPreviousCpuTimes id = some p ∧
          ((p.idleTimeMs ≤ t.idleTimeMs ∧ p.totalTimeMs ≤ t.totalTimeMs ∧
              t.idleTimeMs - p.idleTimeMs ≤ t.totalTimeMs - p.totalTimeMs) ∨
            (t.idleTimeMs < p.idleTimeMs ∧ p.totalTimeMs ≤ t.totalTimeMs ∧
              2 ^ 64 ≤ (p.idleTimeMs - t.idleTimeMs) + (t.totalTimeMs - p.totalTimeMs)) ∨
            (t.idleTimeMs < p.idleTimeMs ∧ t.totalTimeMs < p.totalTimeMs ∧
              p.totalTimeMs - t.totalTimeMs ≤ p.idleTimeMs - t.idleTimeMs) ∨
            (p.idleTimeMs ≤ t.idleTimeMs ∧ t.totalTimeMs < p.totalTimeMs ∧
              (t.idleTimeMs - p.idleTimeMs) + (p.totalTimeMs - t.totalTimeMs) ≤ 2 ^ 64))) ∧
    ((∃ (id : Nat) (t p : CpuTime), (id, t) ∈ readCpuTimes clkTck procStat ∧
        mapFind self.getPreviousCpuTimes id = some p ∧
        ((t.idleTimeMs < p.idleTimeMs ∧ p.totalTimeMs ≤ t.totalTimeMs ∧
            (p.idleTimeMs - t.idleTimeMs) + (t.totalTimeMs - p.totalTimeMs) < 2 ^ 64) ∨
          (t.idleTimeMs < p.idleTimeMs ∧ t.totalTimeMs < p.totalTimeMs ∧
            p.idleTimeMs - t.idleTimeMs < p.totalTimeMs - t.totalTimeMs) ∨
          (p.idleTimeMs ≤ t.idleTimeMs ∧ t.totalTimeMs < p.totalTimeMs ∧
            2 ^ 64 < (t.idleTimeMs - p.idleTimeMs) + (p.totalTimeMs - t.totalTimeMs)))) →
      (self.getRecentCpuLoads clkTck procStat (some out)).ok = false) := by
  have hrule : ∀ (id : Nat) (t p : CpuTime), (id, t) ∈ readCpuTimes clkTck procStat →
      mapFind self.mPreviousCpuTimes id = some p →
      (recentIdleTimeMs t p ≤ recentTotalTimeMs t p ↔ _) :=
    fun id t p hmem hfind =>
      recent_le_iff t p (readCpuTimes_lt clkTck procStat (id, t) hmem) (hbase id p hfind)
  have main : (self.getRecentCpuLoads clkTck procStat (some out)).ok = true ↔
      readCpuTimes clkTck procStat ≠ [] ∧
      ∀ (id : Nat) (t : CpuTime), (id, t) ∈ readCpuTimes clkTck procStat →
        ∃ p : CpuTime, mapFind self.getPreviousCpuTimes id = some p ∧
          ((p.idleTimeMs ≤ t.idleTimeMs ∧ p.totalTimeMs ≤ t.totalTimeMs ∧
              t.idleTimeMs - p.idleTimeMs ≤ t.totalTimeMs - p.totalTimeMs) ∨
            (t.idleTimeMs < p.idleTimeMs ∧ p.totalTimeMs ≤ t.totalTimeMs ∧
              2 ^ 64 ≤ (p.idleTimeMs - t.idleTimeMs) + (t.totalTimeMs - p.totalTimeMs)) ∨
            (t.idleTimeMs < p.idleTimeMs ∧ t.totalTimeMs < p.totalTimeMs ∧
              p.totalTimeMs - t.totalTimeMs ≤ p.idleTimeMs - t.idleTimeMs) ∨
            (p.idleTimeMs ≤ t.idleTimeMs ∧ t.totalTimeMs < p.totalTimeMs ∧
              (t.idleTimeMs - p.idleTimeMs) + (p.totalTimeMs - t.totalTimeMs) ≤ 2 ^ 64)) := by
    rw [getRecentCpuLoads_ok_iff, loadsLoop_true_iff]
    constructor
    · rintro ⟨hne, hall⟩
      refine ⟨hne, fun id t hmem => ?_⟩
      obtain ⟨p, hp, hle⟩ := hall (id, t) hmem
      exact ⟨p, hp, (hrule id t p hmem hp).mp hle⟩
    · rintro ⟨hne, hall⟩
      refine ⟨hne, ?_⟩
      rintro ⟨id, t⟩ hmem
      obtain ⟨p, hp, hcases⟩ := hall id t hmem
      exact ⟨p, hp, (hrule id t p hmem hp).mpr hcases⟩
  refine ⟨main, ?_⟩
  rintro ⟨id, t, p, hmem, hfind, hfail⟩
  cases hok : (self.getRecentCpuLoads clkTck procStat (some out)).ok with
  | false => rfl
  | true =>
    exfalso
    obtain ⟨p1, hp1, hpass⟩ := (main.mp hok).2 id t hmem
    have hpp : p1 = p := by
      rw [hfind] at hp1
      exact (Option.some.inj hp1).symm
    subst hpp
    omega

/-- Witness of the amended C15: the baseline of core 0 is 500/1500 ms. A sample
of 490/1400 ms (idle back by 10, total back by 100) fails. -/
theorem getRecentCpuLoads_backwards_rule_witness :
    mapFind (CpuLoadReader.init 100 ["cpu0 100 0 0 50 0 0 0 0 0 0"]).getPreviousCpuTimes 0
      = some ⟨500, 1500⟩ ∧
    mapFind (readCpuTimes 100 ["cpu0 91 0 0 49 0 0 0 0 0 0"]) 0 = some ⟨490, 1400⟩ ∧
    ((CpuLoadReader.init 100 ["cpu0 100 0 0 50 0 0 0 0 0 0"]).getRecentCpuLoads 100
        ["cpu0 91 0 0 49 0 0 0 0 0 0"] (some [])).ok = false :=
  ⟨by decide, by decide,
    (getRecentCpuLoads_backwards_rule
      (CpuLoadReader.init 100 ["cpu0 100 0 0 50 0 0 0 0 0 0"]) 100
      ["cpu0 91 0 0 49 0 0 0 0 0 0"] []
      (fun id p hfind =>
        readCpuTimes_lt 100 ["cpu0 100 0 0 50 0 0 0 0 0 0"] (id, p) (by
          have hbase : (CpuLoadReader.init 100
              ["cpu0 100 0 0 50 0 0 0 0 0 0"]).getPreviousCpuTimes = [(0, ⟨500, 1500⟩)] := by
            decide
          have hread : readCpuTimes 100 ["cpu0 100 0 0 50 0 0 0 0 0 0"]
              = [(0, ⟨500, 1500⟩)] := by decide
          rw [hbase] at hfind
          rw [hread]
          unfold mapFind at hfind
          split_ifs at hfind with h0
          · subst h0
            simp only [Option.some.injEq] at hfind
            subst hfind
            simp
          · simp [mapFind] at hfind))).2
      ⟨0, ⟨490, 1400⟩, ⟨500, 1500⟩, by decide, by decide, Or.inr (Or.inl (by decide))⟩⟩

/-- A decimal digit is not white space. -/
theorem isSpace_of_isDigit {c : Char} (h : isDigit c = true) : isSpace c = false := by
  unfold isDigit at h
  unfold isSpace
  simp only [Bool.and_eq_true, decide_eq_true_eq] at h
  simp only [Bool.or_eq_false_iff, Bool.and_eq_false_iff, decide_eq_false_iff_not]
  omega

/-- A decimal digit is not a sign. -/
theorem not_sign_of_isDigit {c : Char} (h : isDigit c = true) :
    c.toNat ≠ 45 ∧ c.toNat ≠ 43 := by
  unfold isDigit at h
  simp only [Bool.and_eq_true, decide_eq_true_eq] at h
  omega

/-- Reading digits off the front of `ds ++ rest` yields `ds` when `rest` does
not go on with a digit. -/
theorem takeWhile_isDigit_append (ds rest : List Char) (hds : ∀ c ∈ ds, isDigit c = true)
    (hrest : ∀ c, rest.head? = some c → isDigit c = false) :
    (ds ++ rest).takeWhile isDigit = ds ∧ (ds ++ rest).dropWhile isDigit = rest := by
  induction ds with
  | nil =>
    cases rest with
    | nil => simp
    | cons c t =>
      have := hrest c rfl
      simp [List.takeWhile, List.dropWhile, this]
  | cons d ds ih =>
    have hd := hds d (List.mem_cons_self _ _)
    have := ih (fun c hc => hds c (List.mem_cons_of_mem _ hc))
    simp [List.takeWhile, List.dropWhile, hd, this]

/-- The integer conversion on a run of digits, after optional spaces: no sign,
the value of the digits, and the input after them. -/
theorem scanInteger_digits (sep ds rest : List Char) (hsep : ∀ c ∈ sep, isSpace c = true)
    (hne : ds ≠ []) (hds : ∀ c ∈ ds, isDigit c = true)
    (hrest : ∀ c, rest.head? = some c → isDigit c = false) :
    scanInteger (sep ++ (ds ++ rest)) = some (false, digitsValue ds, rest) := by
  obtain ⟨d, ds1, rfl⟩ := List.exists_cons_of_ne_nil hne
  have hd := hds d (List.mem_cons_self _ _)
  have hdrop : (sep ++ (d :: ds1 ++ rest)).dropWhile isSpace = d :: ds1 ++ rest := by
    induction sep with
    | nil => simp [List.dropWhile, isSpace_of_isDigit hd]
    | cons c t ih =>
      have hc := hsep c (List.mem_cons_self _ _)
      simp only [List.cons_append, List.dropWhile, hc]
      exact ih (fun c hc => hsep c (List.mem_cons_of_mem _ hc))
  obtain ⟨htake, hdrop2⟩ := takeWhile_isDigit_append (d :: ds1) rest hds hrest
  obtain ⟨h45, h43⟩ := not_sign_of_isDigit hd
  unfold scanInteger
  rw [hdrop]
  rw [List.cons_append] at htake hdrop2 ⊢
  simp only [h45, h43, if_false]
  rw [htake, hdrop2]
  simp

/-- The conversion `%d` on the digits of a number below `2^32`. -/
theorem scanD_digits (ds rest : List Char) (hne : ds ≠ []) (hds : ∀ c ∈ ds, isDigit c = true)
    (hrest : ∀ c, rest.head? = some c → isDigit c = false) (hval : digitsValue ds < 2 ^ 32) :
    scanD (ds ++ rest) = some (digitsValue ds, rest) := by
  have h := scanInteger_digits [] ds rest (by simp) hne hds hrest
  simp only [List.nil_append] at h
  unfold scanD
  rw [h]
  simp only [Bool.false_eq_true, if_false, Option.some.injEq, Prod.mk.injEq, and_true]
  omega

/-- The conversion `%lu` on a space and the digits of a number below `2^64`. -/
theorem scanLu_digits (ds rest : List Char) (hne : ds ≠ []) (hds : ∀ c ∈ ds, isDigit c = true)
    (hrest : ∀ c, rest.head? = some c → isDigit c = false) (hval : digitsValue ds < 2 ^ 64) :
    scanLu (Char.ofNat 32 :: (ds ++ rest)) = some (digitsValue ds, rest) := by
  have h := scanInteger_digits [Char.ofNat 32] ds rest (by decide) hne hds hrest
  simp only [List.singleton_append] at h
  unfold scanLu
  rw [h]
  simp only [Bool.false_eq_true, if_false]
  rw [if_neg (by omega)]

/-- Looking up the key just assigned finds the value assigned. -/
theorem mapFind_mapAssign_self (m : CpuTimeMap) (key : Nat) (v : CpuTime) :
    mapFind (mapAssign m key v) key = some v := by
  induction m with
  | nil => simp [mapAssign, mapFind]
  | cons hd tl ih =>
    obtain ⟨k, w⟩ := hd
    unfold mapAssign
    split_ifs with h1 h2
    · simp [mapFind]
    · simp [mapFind, h2]
    · unfold mapFind
      rw [if_neg (fun h => h2 h.symm)]
      exact ih

/-- The call of `sscanf` on a line `cpu<N> f1 ... f10` of eleven runs of digits
separated by single spaces assigns the eleven numbers, when the core id is
below `2^32` and the other numbers are below `2^64`. -/
theorem sscanfCpuLine_digits (n user nice system idle ioWait irq softIrq steal guest
    guestNice : List Char)
    (hd : ∀ ds ∈ [n, user, nice, system, idle, ioWait, irq, softIrq, steal, guest, guestNice],
      ds ≠ [] ∧ ∀ c ∈ ds, isDigit c = true)
    (hcpu : digitsValue n < 2 ^ 32)
    (hfit : ∀ ds ∈ [user, nice, system, idle, ioWait, irq, softIrq, steal, guest, guestNice],
      digitsValue ds < 2 ^ 64) :
    sscanfCpuLine ("cpu".toList ++ n ++ " ".toList ++ user ++ " ".toList ++ nice ++ " ".toList ++ system
        ++ " ".toList ++ idle ++ " ".toList ++ ioWait ++ " ".toList ++ irq ++ " ".toList ++ softIrq
        ++ " ".toList ++ steal ++ " ".toList ++ guest ++ " ".toList ++ guestNice)
      = some ⟨digitsValue n, digitsValue user, digitsValue nice, digitsValue system,
          digitsValue idle, digitsValue ioWait, digitsValue irq, digitsValue softIrq,
          digitsValue steal, digitsValue guest, digitsValue guestNice⟩ := by
  have hline : ("cpu".toList ++ n ++ " ".toList ++ user ++ " ".toList ++ nice ++ " ".toList ++ system
        ++ " ".toList ++ idle ++ " ".toList ++ ioWait ++ " ".toList ++ irq ++ " ".toList ++ softIrq
        ++ " ".toList ++ steal ++ " ".toList ++ guest ++ " ".toList ++ guestNice)
      = Char.ofNat 99 :: Char.ofNat 112 :: Char.ofNat 117 :: (n ++ (Char.ofNat 32 :: (user ++ (Char.ofNat 32 :: (nice ++ (Char.ofNat 32 :: (system ++ (Char.ofNat 32 :: (idle ++ (Char.ofNat 32 :: (ioWait ++ (Char.ofNat 32 :: (irq ++ (Char.ofNat 32 :: (softIrq ++ (Char.ofNat 32 :: (steal ++ (Char.ofNat 32 :: (guest ++ (Char.ofNat 32 :: (guestNice ++ []))))))))))))))))))))) := by
    have hcpu3 : "cpu".toList = [Char.ofNat 99, Char.ofNat 112, Char.ofNat 117] := by decide
    have hsp1 : " ".toList = [Char.ofNat 32] := by decide
    rw [hcpu3, hsp1]
    simp only [List.append_assoc, List.cons_append, List.nil_append, List.append_nil]
  have hsp : ∀ (rest : List Char) (c : Char), (Char.ofNat 32 :: rest).head? = some c →
      isDigit c = false := by
    intro rest c hc
    simp only [List.head?_cons, Option.some.injEq] at hc
    rw [← hc]
    decide
  have hnil : ∀ c : Char, ([] : List Char).head? = some c → isDigit c = false := by
    intro c hc
    simp at hc
  have hu := hfit user (by simp)
  have hn := hfit nice (by simp)
  have hsy := hfit system (by simp)
  have hi := hfit idle (by simp)
  have hio := hfit ioWait (by simp)
  have hir := hfit irq (by simp)
  have hso := hfit softIrq (by simp)
  have hst := hfit steal (by simp)
  have hg := hfit guest (by simp)
  have hgn := hfit guestNice (by simp)
  have hs : scanD (n ++ (Char.ofNat 32 :: (user ++ (Char.ofNat 32 :: (nice ++ (Char.ofNat 32 :: (system ++ (Char.ofNat 32 :: (idle ++ (Char.ofNat 32 :: (ioWait ++ (Char.ofNat 32 :: (irq ++ (Char.ofNat 32 :: (softIrq ++ (Char.ofNat 32 :: (steal ++ (Char.ofNat 32 :: (guest ++ (Char.ofNat 32 :: (guestNice ++ []))))))))))))))))))))) = some (digitsValue n, (Char.ofNat 32 :: (user ++ (Char.ofNat 32 :: (nice ++ (Char.ofNat 32 :: (system ++ (Char.ofNat 32 :: (idle ++ (Char.ofNat 32 :: (ioWait ++ (Char.ofNat 32 :: (irq ++ (Char.ofNat 32 :: (softIrq ++ (Char.ofNat 32 :: (steal ++ (Char.ofNat 32 :: (guest ++ (Char.ofNat 32 :: (guestNice ++ []))))))))))))))))))))) :=
    scanD_digits n _ (hd n (by simp)).1 (hd n (by simp)).2 (hsp _) hcpu
  have hs0 : scanLu (Char.ofNat 32 :: (user ++ (Char.ofNat 32 :: (nice ++ (Char.ofNat 32 :: (system ++ (Char.ofNat 32 :: (idle ++ (Char.ofNat 32 :: (ioWait ++ (Char.ofNat 32 :: (irq ++ (Char.ofNat 32 :: (softIrq ++ (Char.ofNat 32 :: (steal ++ (Char.ofNat 32 :: (guest ++ (Char.ofNat 32 :: (guestNice ++ []))))))))))))))))))))
      = some (digitsValue user, (Char.ofNat 32 :: (nice ++ (Char.ofNat 32 :: (system ++ (Char.ofNat 32 :: (idle ++ (Char.ofNat 32 :: (ioWait ++ (Char.ofNat 32 :: (irq ++ (Char.ofNat 32 :: (softIrq ++ (Char.ofNat 32 :: (steal ++ (Char.ofNat 32 :: (guest ++ (Char.ofNat 32 :: (guestNice ++ []))))))))))))))))))) :=
    scanLu_digits user _ (hd user (by simp)).1 (hd user (by simp)).2 (hsp _) (by omega)
  have hs1 : scanLu (Char.ofNat 32 :: (nice ++ (Char.ofNat 32 :: (system ++ (Char.ofNat 32 :: (idle ++ (Char.ofNat 32 :: (ioWait ++ (Char.ofNat 32 :: (irq ++ (Char.ofNat 32 :: (softIrq ++ (Char.ofNat 32 :: (steal ++ (Char.ofNat 32 :: (guest ++ (Char.ofNat 32 :: (guestNice ++ []))))))))))))))))))
      = some (digitsValue nice, (Char.ofNat 32 :: (system ++ (Char.ofNat 32 :: (idle ++ (Char.ofNat 32 :: (ioWait ++ (Char.ofNat 32 :: (irq ++ (Char.ofNat 32 :: (softIrq ++ (Char.ofNat 32 :: (steal ++ (Char.ofNat 32 :: (guest ++ (Char.ofNat 32 :: (guestNice ++ []))))))))))))))))) :=
    scanLu_digits nice _ (hd nice (by simp)).1 (hd nice (by simp)).2 (hsp _) (by omega)
  have hs2 : scanLu (Char.ofNat 32 :: (system ++ (Char.ofNat 32 :: (idle ++ (Char.ofNat 32 :: (ioWait ++ (Char.ofNat 32 :: (irq ++ (Char.ofNat 32 :: (softIrq ++ (Char.ofNat 32 :: (steal ++ (Char.ofNat 32 :: (guest ++ (Char.ofNat 32 :: (guestNice ++ []))))))))))))))))
      = some (digitsValue system, (Char.ofNat 32 :: (idle ++ (Char.ofNat 32 :: (ioWait ++ (Char.ofNat 32 :: (irq ++ (Char.ofNat 32 :: (softIrq ++ (Char.ofNat 32 :: (steal ++ (Char.ofNat 32 :: (guest ++ (Char.ofNat 32 :: (guestNice ++ []))))))))))))))) :=
    scanLu_digits system _ (hd system (by simp)).1 (hd system (by simp)).2 (hsp _) (by omega)
  have hs3 : scanLu (Char.ofNat 32 :: (idle ++ (Char.ofNat 32 :: (ioWait ++ (Char.ofNat 32 :: (irq ++ (Char.ofNat 32 :: (softIrq ++ (Char.ofNat 32 :: (steal ++ (Char.ofNat 32 :: (guest ++ (Char.ofNat 32 :: (guestNice ++ []))))))))))))))
      = some (digitsValue idle, (Char.ofNat 32 :: (ioWait ++ (Char.ofNat 32 :: (irq ++ (Char.ofNat 32 :: (softIrq ++ (Char.ofNat 32 :: (steal ++ (Char.ofNat 32 :: (guest ++ (Char.ofNat 32 :: (guestNice ++ []))))))))))))) :=
    scanLu_digits idle _ (hd idle (by simp)).1 (hd idle (by simp)).2 (hsp _) (by omega)
  have hs4 : scanLu (Char.ofNat 32 :: (ioWait ++ (Char.ofNat 32 :: (irq ++ (Char.ofNat 32 :: (softIrq ++ (Char.ofNat 32 :: (steal ++ (Char.ofNat 32 :: (guest ++ (Char.ofNat 32 :: (guestNice ++ []))))))))))))
      = some (digitsValue ioWait, (Char.ofNat 32 :: (irq ++ (Char.ofNat 32 :: (softIrq ++ (Char.ofNat 32 :: (steal ++ (Char.ofNat 32 :: (guest ++ (Char.ofNat 32 :: (guestNice ++ []))))))))))) :=
    scanLu_digits ioWait _ (hd ioWait (by simp)).1 (hd ioWait (by simp)).2 (hsp _) (by omega)
  have hs5 : scanLu (Char.ofNat 32 :: (irq ++ (Char.ofNat 32 :: (softIrq ++ (Char.ofNat 32 :: (steal ++ (Char.ofNat 32 :: (guest ++ (Char.ofNat 32 :: (guestNice ++ []))))))))))
      = some (digitsValue irq, (Char.ofNat 32 :: (softIrq ++ (Char.ofNat 32 :: (steal ++ (Char.ofNat 32 :: (guest ++ (Char.ofNat 32 :: (guestNice ++ []))))))))) :=
    scanLu_digits irq _ (hd irq (by simp)).1 (hd irq (by simp)).2 (hsp _) (by omega)
  have hs6 : scanLu (Char.ofNat 32 :: (softIrq ++ (Char.ofNat 32 :: (steal ++ (Char.ofNat 32 :: (guest ++ (Char.ofNat 32 :: (guestNice ++ []))))))))
      = some (digitsValue softIrq, (Char.ofNat 32 :: (steal ++ (Char.ofNat 32 :: (guest ++ (Char.ofNat 32 :: (guestNice ++ []))))))) :=
    scanLu_digits softIrq _ (hd softIrq (by simp)).1 (hd softIrq (by simp)).2 (hsp _) (by omega)
  have hs7 : scanLu (Char.ofNat 32 :: (steal ++ (Char.ofNat 32 :: (guest ++ (Char.ofNat 32 :: (guestNice ++ []))))))
      = some (digitsValue steal, (Char.ofNat 32 :: (guest ++ (Char.ofNat 32 :: (guestNice ++ []))))) :=
    scanLu_digits steal _ (hd steal (by simp)).1 (hd steal (by simp)).2 (hsp _) (by omega)
  have hs8 : scanLu (Char.ofNat 32 :: (guest ++ (Char.ofNat 32 :: (guestNice ++ []))))
      = some (digitsValue guest, (Char.ofNat 32 :: (guestNice ++ []))) :=
    scanLu_digits guest _ (hd guest (by simp)).1 (hd guest (by simp)).2 (hsp _) (by omega)
  have hs9 : scanLu (Char.ofNat 32 :: (guestNice ++ []))
      = some (digitsValue guestNice, []) :=
    scanLu_digits guestNice _ (hd guestNice (by simp)).1 (hd guestNice (by simp)).2 hnil (by omega)
  rw [hline]
  unfold sscanfCpuLine
  simp only [scanLiteral, if_true, hs, hs0, hs1, hs2, hs3, hs4, hs5, hs6, hs7, hs8, hs9]

/-- The two conversions of `readCpuTimes` when the sum of the ten counts times
1000 fits in 64 bits: nothing wraps. -/
theorem jiffiesToMs_of_fit (clkTck user nice system idle ioWait irq softIrq steal guest
    guestNice : Nat)
    (hfit : (user + nice + system + idle + ioWait + irq + softIrq + steal + guest + guestNice)
      * 1000 < 2 ^ 64) :
    jiffiesToMs clkTck ((idle + ioWait) % 2 ^ 64) = ((idle + ioWait) * 1000) / clkTck ∧
    jiffiesToMs clkTck
        ((user + nice + system + irq + softIrq + steal + guest + guestNice
          + (idle + ioWait) % 2 ^ 64) % 2 ^ 64)
      = ((user + nice + system + idle + ioWait + irq + softIrq + steal + guest + guestNice)
          * 1000) / clkTck := by
  have h1 : (idle + ioWait) % 2 ^ 64 = idle + ioWait := Nat.mod_eq_of_lt (by omega)
  have h2 : (user + nice + system + irq + softIrq + steal + guest + guestNice
      + (idle + ioWait)) % 2 ^ 64
      = user + nice + system + idle + ioWait + irq + softIrq + steal + guest + guestNice := by
    rw [Nat.mod_eq_of_lt (by omega)]
    omega
  unfold jiffiesToMs
  rw [h1, h2, Nat.mod_eq_of_lt hfit, Nat.mod_eq_of_lt (by omega)]
  exact ⟨rfl, rfl⟩

/-- Counterexample to C13 as stated: the idle count `18446744073709552` fits in
64 bits, and so do all sums of the line, but its product with 1000 does not:
the product wraps round to 384 and `readCpuTimes` stores 3 ms at 100 ticks per
second, not `18446744073709552 * 1000 / 100`. -/
theorem readCpuTimes_product_wraps :
    readCpuTimes 100 ["cpu0 0 0 0 18446744073709552 0 0 0 0 0 0"] = [(0, ⟨3, 3⟩)] ∧
      18446744073709552 < 2 ^ 64 ∧
      ((18446744073709552 + 0) * 1000) / 100 = 184467440737095520 ∧
      (18446744073709552 * 1000) % 2 ^ 64 = 384 := by
  decide

/-- Amended C13: for every line `cpu<N> user nice system idle iowait irq softirq
steal guest guestnice` of eleven runs of decimal digits separated by single
spaces, with `N` below `2^32` and the sum of the ten counts times 1000 below
`2^64`, `readCpuTimes` stores for core `N` the idle time
`((idle + iowait) * 1000) / ticksPerSecond` and the total time
`((user + ... + guestnice) * 1000) / ticksPerSecond`, both by integer division;
a line on which `sscanf` does not assign all eleven fields adds no entry. -/
theorem readCpuTimes_line_values (clkTck : Nat) (n user nice system idle ioWait irq softIrq
    steal guest guestNice : List Char)
    (hd : ∀ ds ∈ [n, user, nice, system, idle, ioWait, irq, softIrq, steal, guest, guestNice],
      ds ≠ [] ∧ ∀ c ∈ ds, isDigit c = true)
    (hcpu : digitsValue n < 2 ^ 32)
    (hfit : (digitsValue user + digitsValue nice + digitsValue system + digitsValue idle
        + digitsValue ioWait + digitsValue irq + digitsValue softIrq + digitsValue steal
        + digitsValue guest + digitsValue guestNice) * 1000 < 2 ^ 64) :
    (∀ pre : List String,
      readCpuTimes clkTck (pre ++ [String.mk ("cpu".toList ++ n ++ " ".toList ++ user ++ " ".toList ++ nice ++ " ".toList ++ system
        ++ " ".toList ++ idle ++ " ".toList ++ ioWait ++ " ".toList ++ irq ++ " ".toList ++ softIrq
        ++ " ".toList ++ steal ++ " ".toList ++ guest ++ " ".toList ++ guestNice)])
        = mapAssign (readCpuTimes clkTck pre) (digitsValue n)
          ⟨((digitsValue idle + digitsValue ioWait) * 1000) / clkTck,
          ((digitsValue user + digitsValue nice + digitsValue system + digitsValue idle
        + digitsValue ioWait + digitsValue irq + digitsValue softIrq + digitsValue steal
        + digitsValue guest + digitsValue guestNice) * 1000) / clkTck⟩) ∧
    (∀ pre : List String,
      mapFind (readCpuTimes clkTck (pre ++ [String.mk ("cpu".toList ++ n ++ " ".toList ++ user ++ " ".toList ++ nice ++ " ".toList ++ system
        ++ " ".toList ++ idle ++ " ".toList ++ ioWait ++ " ".toList ++ irq ++ " ".toList ++ softIrq
        ++ " ".toList ++ steal ++ " ".toList ++ guest ++ " ".toList ++ guestNice)])) (digitsValue n)
        = some ⟨((digitsValue idle + digitsValue ioWait) * 1000) / clkTck,
          ((digitsValue user + digitsValue nice + digitsValue system + digitsValue idle
        + digitsValue ioWait + digitsValue irq + digitsValue softIrq + digitsValue steal
        + digitsValue guest + digitsValue guestNice) * 1000) / clkTck⟩) ∧
    (∀ (pre post : List String) (bad : String), sscanfCpuLine bad.toList = none →
      readCpuTimes clkTck (pre ++ bad :: post) = readCpuTimes clkTck (pre ++ post)) := by
  have hparse := sscanfCpuLine_digits n user nice system idle ioWait irq softIrq steal guest
    guestNice hd hcpu (by
      intro ds hds
      simp only [List.mem_cons, List.mem_singleton, List.not_mem_nil, or_false] at hds
      rcases hds with h | h | h | h | h | h | h | h | h | h <;> subst h <;> omega)
  have hstep : ∀ pre : List String,
      readCpuTimes clkTck (pre ++ [String.mk ("cpu".toList ++ n ++ " ".toList ++ user ++ " ".toList ++ nice ++ " ".toList ++ system
        ++ " ".toList ++ idle ++ " ".toList ++ ioWait ++ " ".toList ++ irq ++ " ".toList ++ softIrq
        ++ " ".toList ++ steal ++ " ".toList ++ guest ++ " ".toList ++ guestNice)])
        = mapAssign (readCpuTimes clkTck pre) (digitsValue n)
          ⟨((digitsValue idle + digitsValue ioWait) * 1000) / clkTck,
          ((digitsValue user + digitsValue nice + digitsValue system + digitsValue idle
        + digitsValue ioWait + digitsValue irq + digitsValue softIrq + digitsValue steal
        + digitsValue guest + digitsValue guestNice) * 1000) / clkTck⟩ := by
    intro pre
    unfold readCpuTimes
    rw [List.foldl_append]
    simp only [List.foldl_cons, List.foldl_nil]
    unfold readCpuTimesLine
    rw [show (String.mk ("cpu".toList ++ n ++ " ".toList ++ user ++ " ".toList ++ nice ++ " ".toList ++ system
        ++ " ".toList ++ idle ++ " ".toList ++ ioWait ++ " ".toList ++ irq ++ " ".toList ++ softIrq
        ++ " ".toList ++ steal ++ " ".toList ++ guest ++ " ".toList ++ guestNice)).toList
        = ("cpu".toList ++ n ++ " ".toList ++ user ++ " ".toList ++ nice ++ " ".toList ++ system
        ++ " ".toList ++ idle ++ " ".toList ++ ioWait ++ " ".toList ++ irq ++ " ".toList ++ softIrq
        ++ " ".toList ++ steal ++ " ".toList ++ guest ++ " ".toList ++ guestNice) from rfl, hparse]
    simp only
    have hv := jiffiesToMs_of_fit clkTck (digitsValue user) (digitsValue nice)
      (digitsValue system) (digitsValue idle) (digitsValue ioWait) (digitsValue irq)
      (digitsValue softIrq) (digitsValue steal) (digitsValue guest) (digitsValue guestNice) hfit
    rw [hv.1, hv.2]
  refine ⟨hstep, ?_, ?_⟩
  · intro pre
    rw [hstep pre]
    exact mapFind_mapAssign_self _ _ _
  · intro pre post bad hbad
    unfold readCpuTimes
    rw [List.foldl_append, List.foldl_append]
    simp only [List.foldl_cons]
    have hskip : ∀ m : CpuTimeMap, readCpuTimesLine clkTck m bad = m := by
      intro m
      unfold readCpuTimesLine
      rw [hbad]
    rw [hskip]

/-- Witness of the amended C13 at 100 ticks per second: the line
`cpu3 1 2 3 4 5 6 7 8 9 10` gives core 3 the times 90 ms and 550 ms. -/
theorem readCpuTimes_line_values_witness :
    readCpuTimes 100 ([] ++ [String.mk ("cpu".toList ++ "3".toList ++ " ".toList ++ "1".toList
        ++ " ".toList ++ "2".toList ++ " ".toList ++ "3".toList ++ " ".toList ++ "4".toList
        ++ " ".toList ++ "5".toList ++ " ".toList ++ "6".toList ++ " ".toList ++ "7".toList
        ++ " ".toList ++ "8".toList ++ " ".toList ++ "9".toList ++ " ".toList ++ "10".toList)])
      = mapAssign (readCpuTimes 100 []) (digitsValue "3".toList)
          ⟨((digitsValue "4".toList + digitsValue "5".toList) * 1000) / 100,
            ((digitsValue "1".toList + digitsValue "2".toList + digitsValue "3".toList
              + digitsValue "4".toList + digitsValue "5".toList + digitsValue "6".toList
              + digitsValue "7".toList + digitsValue "8".toList + digitsValue "9".toList
              + digitsValue "10".toList) * 1000) / 100⟩ ∧
    readCpuTimes 100 ["cpu3 1 2 3 4 5 6 7 8 9 10"] = [(3, ⟨90, 550⟩)] :=
  ⟨(readCpuTimes_line_values 100 "3".toList "1".toList "2".toList "3".toList "4".toList
      "5".toList "6".toList "7".toList "8".toList "9".toList "10".toList
      (by decide) (by decide) (by decide)).1 [],
    by decide⟩

end AdaptiveCpu

/-! ## Properties of `AdaptiveCpuConfig` -/

namespace AdaptiveCpu

/-- C16: for every unsigned 32-bit value `v` under the sleep-duration key,
`ReadFromSystemProperties` returns `iterationSleepDuration = max(v, 20)` ms,
which is never below 20 ms. -/
theorem ReadFromSystemProperties_sleep_clamped (props : SystemProperties) (v : Nat)
    (hraw : props.iterationSleepDurationMs = some v) (hv : v < 2 ^ 32) :
    (AdaptiveCpuConfig.ReadFromSystemProperties props).iterationSleepDuration
        = max (v : Int) 20 ∧
      20 ≤ (AdaptiveCpuConfig.ReadFromSystemProperties props).iterationSleepDuration := by
  have hval : (AdaptiveCpuConfig.ReadFromSystemProperties props).iterationSleepDuration
      = max (v : Int) 20 := by
    unfold AdaptiveCpuConfig.ReadFromSystemProperties
    simp only
    rw [hraw]
    unfold getUintProperty kIterationSleepDurationMin
    simp only
    rw [if_pos hv]
  rw [hval]
  exact ⟨rfl, le_max_right _ _⟩

/-- Witness of C16: the value 5 is raised to 20 ms. -/
theorem ReadFromSystemProperties_sleep_clamped_witness :
    (AdaptiveCpuConfig.ReadFromSystemProperties ⟨some 5, none, none, none⟩).iterationSleepDuration
      = 20 :=
  (ReadFromSystemProperties_sleep_clamped ⟨some 5, none, none, none⟩ 5 rfl (by decide)).1

/-- C18: when none of the four keys yields a number, `ReadFromSystemProperties`
returns a config that `operator==` finds equal to `DEFAULT`: 1000 ms, 2000 ms,
probability 0.0 and 7,200,000 ms. -/
theorem ReadFromSystemProperties_defaults :
    (AdaptiveCpuConfig.ReadFromSystemProperties ⟨none, none, none, none⟩).eq
        AdaptiveCpuConfig.DEFAULT = true ∧
      AdaptiveCpuConfig.ReadFromSystemProperties ⟨none, none, none, none⟩
        = ⟨1000, 2000, F64.zero, 7200000⟩ := by
  decide

end AdaptiveCpu

/-! ## Properties of the `double` operations -/

namespace AdaptiveCpu

/-- The loop of `log2` finds the leading bit when it has fuel for it. -/
theorem log2Loop_spec : ∀ (fuel n : Nat), 0 < n → n ≤ fuel →
    2 ^ F64.log2Loop fuel n ≤ n ∧ n < 2 ^ (F64.log2Loop fuel n + 1) := by
  intro fuel
  induction fuel with
  | zero =>
    intro n hn hle
    omega
  | succ fuel ih =>
    intro n hn hle
    unfold F64.log2Loop
    split_ifs with h2
    · have : n = 1 := by omega
      subst this
      simp
    · obtain ⟨h1, h3⟩ := ih (n / 2) (by omega) (by omega)
      rw [pow_succ] at h3 ⊢
      rw [pow_succ]
      constructor
      · omega
      · omega

/-- For positive `n`: `2 ^ log2 n ≤ n < 2 ^ (log2 n + 1)`. -/
theorem log2_spec (n : Nat) (hn : 0 < n) :
    2 ^ F64.log2 n ≤ n ∧ n < 2 ^ (F64.log2 n + 1) :=
  log2Loop_spec n n hn (le_refl n)

/-- The rounded quotient is within one half of the quotient: stated without
division, `2 * m * d` lies between `2 * n - d` and `2 * n + d`. -/
theorem roundHalfEven_spec (n d : Nat) (hd : 0 < d) :
    2 * F64.roundHalfEven n d * d ≤ 2 * n + d ∧ 2 * n ≤ 2 * F64.roundHalfEven n d * d + d := by
  have hdm := Nat.div_add_mod n d
  have hmod := Nat.mod_lt n hd
  unfold F64.roundHalfEven
  simp only
  generalize n / d = q at hdm ⊢
  generalize n % d = r at hdm hmod ⊢
  have e1 : 2 * q * d = 2 * (d * q) := by ring
  have e2 : 2 * (q + 1) * d = 2 * (d * q) + 2 * d := by ring
  split_ifs <;> rw [← hdm] <;> first | (rw [e1]; omega) | (rw [e2]; omega)

/-- A power of two with an integer exponent, as a quotient of two powers with
natural exponents. -/
theorem two_zpow_split (k : ℤ) :
    (2 : ℚ) ^ k = (2 : ℚ) ^ k.toNat / (2 : ℚ) ^ (-k).toNat := by
  rcases le_total 0 k with h | h
  · obtain ⟨n, rfl⟩ := Int.eq_ofNat_of_zero_le h
    have h0 : (-(n : ℤ)).toNat = 0 := by omega
    simp [h0]
  · obtain ⟨n, hn⟩ := Int.eq_ofNat_of_zero_le (show 0 ≤ -k by omega)
    have hk : k = -(n : ℤ) := by omega
    subst hk
    have h0 : (-(n : ℤ)).toNat = 0 := by omega
    simp [h0, zpow_neg]

/-- The quotient that `round` rounds to an integer, as a rational number. -/
theorem round_quotient (p q : ℕ) (k : ℤ) :
    ((p * 2 ^ k.toNat : ℕ) : ℚ) / ((q * 2 ^ (-k).toNat : ℕ) : ℚ) = (p : ℚ) / q * 2 ^ k := by
  rw [two_zpow_split k]
  push_cast
  have h1 : (2 : ℚ) ^ (-k).toNat ≠ 0 := by positivity
  by_cases hq : (q : ℚ) = 0
  · simp [hq]
  · field_simp

/-- The rounded quotient is within one half of the quotient. -/
theorem roundHalfEven_near (n d : ℕ) (hd : 0 < d) :
    (F64.roundHalfEven n d : ℚ) ≤ (n : ℚ) / d + 1 / 2 ∧
      (n : ℚ) / d ≤ (F64.roundHalfEven n d : ℚ) + 1 / 2 := by
  obtain ⟨h1, h2⟩ := roundHalfEven_spec n d hd
  have hdq : (0 : ℚ) < d := by exact_mod_cast hd
  have h1q : (2 : ℚ) * F64.roundHalfEven n d * d ≤ 2 * n + d := by exact_mod_cast h1
  have h2q : (2 : ℚ) * n ≤ 2 * F64.roundHalfEven n d * d + d := by exact_mod_cast h2
  constructor
  · rw [← sub_nonneg]
    have : (n : ℚ) / d + 1 / 2 - F64.roundHalfEven n d
        = (2 * n + d - 2 * F64.roundHalfEven n d * d) / (2 * d) := by
      field_simp
      ring
    rw [this]
    apply div_nonneg
    · linarith
    · linarith
  · rw [← sub_nonneg]
    have : (F64.roundHalfEven n d : ℚ) + 1 / 2 - (n : ℚ) / d
        = (2 * F64.roundHalfEven n d * d + d - 2 * n) / (2 * d) := by
      field_simp
      ring
    rw [this]
    apply div_nonneg
    · linarith
    · linarith

/-- An integer within one half of a rational number lies between any two
integers that enclose the number. -/
theorem nat_near_bounds (M : ℕ) (X : ℚ) (h1 : (M : ℚ) ≤ X + 1 / 2) (h2 : X ≤ (M : ℚ) + 1 / 2)
    (lo hi : ℕ) (hlo : (lo : ℚ) ≤ X) (hhi : X ≤ (hi : ℚ)) : lo ≤ M ∧ M ≤ hi := by
  constructor
  · by_contra hcon
    have : M + 1 ≤ lo := by omega
    have : ((M + 1 : ℕ) : ℚ) ≤ (lo : ℚ) := by exact_mod_cast this
    push_cast at this
    linarith
  · by_contra hcon
    have : hi + 1 ≤ M := by omega
    have : ((hi + 1 : ℕ) : ℚ) ≤ (M : ℚ) := by exact_mod_cast this
    push_cast at this
    linarith

/-- The last step of `round`: given a shift `k` that brings the quotient into
`[2^52, 2^53)`, the result is a finite value with a significand in
`[2^52, 2^53)` whose value is `M * 2^(s - k)`, where the integer `M` is within
one half of the shifted quotient. -/
theorem round_finish (neg : Bool) (p q : ℕ) (s k : ℤ) (hq : 0 < q)
    (hlo : (2 : ℚ) ^ 52 ≤ (p : ℚ) / q * 2 ^ k) (hhi : (p : ℚ) / q * 2 ^ k < 2 ^ 53) :
    ∃ (m : ℕ) (j : ℤ) (M : ℕ),
      (if F64.roundHalfEven (p * 2 ^ k.toNat) (q * 2 ^ (-k).toNat) = 2 ^ 53
        then F64.fin neg (2 ^ 52) (s - k + 1)
        else F64.fin neg (F64.roundHalfEven (p * 2 ^ k.toNat) (q * 2 ^ (-k).toNat)) (s - k))
        = F64.fin neg m j ∧
      2 ^ 52 ≤ m ∧ m < 2 ^ 53 ∧
      (m : ℚ) * 2 ^ j = (M : ℚ) * 2 ^ (s - k) ∧
      (M : ℚ) ≤ (p : ℚ) / q * 2 ^ k + 1 / 2 ∧ (p : ℚ) / q * 2 ^ k ≤ (M : ℚ) + 1 / 2 ∧
      2 ^ 52 ≤ M ∧ M ≤ 2 ^ 53 := by
  have hden : 0 < q * 2 ^ (-k).toNat := Nat.mul_pos hq (by positivity)
  obtain ⟨h1, h2⟩ := roundHalfEven_near (p * 2 ^ k.toNat) (q * 2 ^ (-k).toNat) hden
  rw [round_quotient] at h1 h2
  generalize F64.roundHalfEven (p * 2 ^ k.toNat) (q * 2 ^ (-k).toNat) = M at h1 h2 ⊢
  obtain ⟨hMlo, hMhi⟩ := nat_near_bounds M _ h1 h2 (2 ^ 52) (2 ^ 53)
    (by push_cast; exact hlo) (by push_cast; exact le_of_lt hhi)
  by_cases hM : M = 2 ^ 53
  · refine ⟨2 ^ 52, s - k + 1, M, ?_, le_refl _, by norm_num, ?_, h1, h2, hMlo, hMhi⟩
    · rw [if_pos hM]
    · rw [hM, zpow_add₀ (by norm_num : (2 : ℚ) ≠ 0)]
      push_cast
      ring
  · refine ⟨M, s - k, M, ?_, hMlo, by omega, rfl, h1, h2, hMlo, hMhi⟩
    rw [if_neg hM]

/-- What `round` returns for a positive quotient `p / q`: a finite value with a
significand `m` in `[2^52, 2^53)`. There is a shift `k` with
`2^52 ≤ (p / q) * 2^k < 2^53` and an integer `M` within one half of that
shifted quotient such that the value `m * 2^j` is `M * 2^(s - k)`. -/
theorem round_spec (neg : Bool) (p q : ℕ) (s : ℤ) (hp : 0 < p) (hq : 0 < q) :
    ∃ (m : ℕ) (j : ℤ) (M : ℕ) (k : ℤ),
      F64.round neg p q s = F64.fin neg m j ∧
      2 ^ 52 ≤ m ∧ m < 2 ^ 53 ∧
      (m : ℚ) * 2 ^ j = (M : ℚ) * 2 ^ (s - k) ∧
      (2 : ℚ) ^ 52 ≤ (p : ℚ) / q * 2 ^ k ∧ (p : ℚ) / q * 2 ^ k < 2 ^ 53 ∧
      (M : ℚ) ≤ (p : ℚ) / q * 2 ^ k + 1 / 2 ∧ (p : ℚ) / q * 2 ^ k ≤ (M : ℚ) + 1 / 2 ∧
      2 ^ 52 ≤ M ∧ M ≤ 2 ^ 53 := by
  obtain ⟨hp1, hp2⟩ := log2_spec p hp
  obtain ⟨hq1, hq2⟩ := log2_spec q hq
  have hpq : (0 : ℚ) < p := by exact_mod_cast hp
  have hqq : (0 : ℚ) < q := by exact_mod_cast hq
  have two_ne : (2 : ℚ) ≠ 0 := by norm_num
  have hp1q : (2 : ℚ) ^ (F64.log2 p : ℤ) ≤ p := by
    rw [zpow_natCast]
    exact_mod_cast hp1
  have hp2q : (p : ℚ) < 2 ^ (F64.log2 p : ℤ) * 2 := by
    rw [zpow_natCast, ← pow_succ]
    exact_mod_cast hp2
  have hq1q : (2 : ℚ) ^ (F64.log2 q : ℤ) ≤ q := by
    rw [zpow_natCast]
    exact_mod_cast hq1
  have hq2q : (q : ℚ) < 2 ^ (F64.log2 q : ℤ) * 2 := by
    rw [zpow_natCast, ← pow_succ]
    exact_mod_cast hq2
  -- the first shift brings the quotient into `(2^52, 2^54)`
  have hk0 : (2 : ℚ) ^ (53 + (F64.log2 q : ℤ) - (F64.log2 p : ℤ))
      = 2 ^ 53 * 2 ^ (F64.log2 q : ℤ) / 2 ^ (F64.log2 p : ℤ) := by
    rw [zpow_sub₀ two_ne, zpow_add₀ two_ne]
    norm_num
  have hlp : (0 : ℚ) < 2 ^ (F64.log2 p : ℤ) := zpow_pos (by norm_num) _
  have hlq : (0 : ℚ) < 2 ^ (F64.log2 q : ℤ) := zpow_pos (by norm_num) _
  have hlo0 : (2 : ℚ) ^ 52 * q < p * 2 ^ (53 + (F64.log2 q : ℤ) - (F64.log2 p : ℤ)) := by
    rw [hk0]
    have h1 : (2 : ℚ) ^ 53 * 2 ^ (F64.log2 q : ℤ)
        ≤ p * (2 ^ 53 * 2 ^ (F64.log2 q : ℤ) / 2 ^ (F64.log2 p : ℤ)) := by
      rw [mul_div_assoc', le_div_iff₀ hlp]
      nlinarith [mul_le_mul_of_nonneg_left hp1q (le_of_lt (mul_pos (by norm_num : (0:ℚ) < 2 ^ 53) hlq))]
    linarith
  have hhi0 : (p : ℚ) * 2 ^ (53 + (F64.log2 q : ℤ) - (F64.log2 p : ℤ)) < 2 ^ 54 * q := by
    rw [hk0, mul_div_assoc', div_lt_iff₀ hlp]
    have h1 : (p : ℚ) * (2 ^ 53 * 2 ^ (F64.log2 q : ℤ))
        < 2 ^ (F64.log2 p : ℤ) * 2 * (2 ^ 53 * 2 ^ (F64.log2 q : ℤ)) :=
      mul_lt_mul_of_pos_right hp2q (mul_pos (by norm_num) hlq)
    have h2 : (2 : ℚ) ^ (F64.log2 p : ℤ) * 2 * (2 ^ 53 * 2 ^ (F64.log2 q : ℤ))
        ≤ 2 ^ 54 * q * 2 ^ (F64.log2 p : ℤ) := by
      have := mul_le_mul_of_nonneg_left hq1q (le_of_lt (mul_pos (by norm_num : (0:ℚ) < 2 ^ 54) hlp))
      nlinarith
    linarith
  -- the test of `round`, as a statement about the rational quotient
  have hcond : (q * 2 ^ 53 * 2 ^ (-(53 + (F64.log2 q : ℤ) - (F64.log2 p : ℤ))).toNat
      ≤ p * 2 ^ (53 + (F64.log2 q : ℤ) - (F64.log2 p : ℤ)).toNat) ↔
      (2 : ℚ) ^ 53 * q ≤ p * 2 ^ (53 + (F64.log2 q : ℤ) - (F64.log2 p : ℤ)) := by
    generalize (53 + (F64.log2 q : ℤ) - (F64.log2 p : ℤ)) = k0
    rw [two_zpow_split k0]
    have hpos : (0 : ℚ) < 2 ^ (-k0).toNat := by positivity
    rw [mul_div_assoc', le_div_iff₀ hpos]
    constructor
    · intro h
      have hcast : ((q * 2 ^ 53 * 2 ^ (-k0).toNat : ℕ) : ℚ) ≤ ((p * 2 ^ k0.toNat : ℕ) : ℚ) := by
        exact_mod_cast h
      push_cast at hcast
      linarith
    · intro h
      have hcast : ((q * 2 ^ 53 * 2 ^ (-k0).toNat : ℕ) : ℚ) ≤ ((p * 2 ^ k0.toNat : ℕ) : ℚ) := by
        push_cast
        linarith
      exact_mod_cast hcast
  unfold F64.round
  rw [if_neg (Nat.pos_iff_ne_zero.mp hp)]
  simp only
  by_cases hc : q * 2 ^ 53 * 2 ^ (-(53 + (F64.log2 q : ℤ) - (F64.log2 p : ℤ))).toNat
      ≤ p * 2 ^ (53 + (F64.log2 q : ℤ) - (F64.log2 p : ℤ)).toNat
  · rw [if_pos hc]
    have hcq := hcond.mp hc
    have hk1 : (2 : ℚ) ^ (53 + (F64.log2 q : ℤ) - (F64.log2 p : ℤ) - 1)
        = 2 ^ (53 + (F64.log2 q : ℤ) - (F64.log2 p : ℤ)) / 2 := by
      rw [zpow_sub₀ two_ne]
      norm_num
    have hlo : (2 : ℚ) ^ 52 ≤ (p : ℚ) / q * 2 ^ (53 + (F64.log2 q : ℤ) - (F64.log2 p : ℤ) - 1) := by
      rw [hk1, div_mul_eq_mul_div, le_div_iff₀ hqq]
      linarith
    have hhi : (p : ℚ) / q * 2 ^ (53 + (F64.log2 q : ℤ) - (F64.log2 p : ℤ) - 1) < 2 ^ 53 := by
      rw [hk1, div_mul_eq_mul_div, div_lt_iff₀ hqq]
      linarith
    obtain ⟨m, j, M, h⟩ := round_finish neg p q s _ hq hlo hhi
    exact ⟨m, j, M, _, h.1, h.2.1, h.2.2.1, h.2.2.2.1, hlo, hhi, h.2.2.2.2⟩
  · rw [if_neg hc]
    have hcq : ¬ (2 : ℚ) ^ 53 * q ≤ p * 2 ^ (53 + (F64.log2 q : ℤ) - (F64.log2 p : ℤ)) :=
      fun h => hc (hcond.mpr h)
    have hlo : (2 : ℚ) ^ 52 ≤ (p : ℚ) / q * 2 ^ (53 + (F64.log2 q : ℤ) - (F64.log2 p : ℤ)) := by
      rw [div_mul_eq_mul_div, le_div_iff₀ hqq]
      linarith
    have hhi : (p : ℚ) / q * 2 ^ (53 + (F64.log2 q : ℤ) - (F64.log2 p : ℤ)) < 2 ^ 53 := by
      rw [div_mul_eq_mul_div, div_lt_iff₀ hqq]
      linarith
    obtain ⟨m, j, M, h⟩ := round_finish neg p q s _ hq hlo hhi
    exact ⟨m, j, M, _, h.1, h.2.1, h.2.2.1, h.2.2.2.1, hlo, hhi, h.2.2.2.2⟩

/-- The conversion of zero. -/
theorem ofNat_zero : F64.ofNat 0 = F64.fin false 0 0 := by
  decide

/-- The conversion of a positive integer: a finite value `M * 2^(-k)` where
the shift `k` brings the integer into `[2^52, 2^53)` and `M` is within one half
of the shifted integer. -/
theorem ofNat_spec (n : ℕ) (hn : 0 < n) :
    ∃ (m : ℕ) (j : ℤ) (M : ℕ) (k : ℤ),
      F64.ofNat n = F64.fin false m j ∧ 2 ^ 52 ≤ m ∧ m < 2 ^ 53 ∧
      (m : ℚ) * 2 ^ j = (M : ℚ) * 2 ^ (-k) ∧
      (2 : ℚ) ^ 52 ≤ (n : ℚ) * 2 ^ k ∧ (n : ℚ) * 2 ^ k < 2 ^ 53 ∧
      (M : ℚ) ≤ (n : ℚ) * 2 ^ k + 1 / 2 ∧ (n : ℚ) * 2 ^ k ≤ (M : ℚ) + 1 / 2 ∧
      2 ^ 52 ≤ M ∧ M ≤ 2 ^ 53 := by
  obtain ⟨m, j, M, k, h⟩ := round_spec false n 1 0 hn Nat.one_pos
  simp only [Nat.cast_one, div_one, zero_sub] at h
  exact ⟨m, j, M, k, h⟩

/-- The conversion of an integer below `2^53` is exact. -/
theorem ofNat_exact (n : ℕ) (hn : n < 2 ^ 53) :
    ∃ (m : ℕ) (j : ℤ), F64.ofNat n = F64.fin false m j ∧ (m : ℚ) * 2 ^ j = (n : ℚ) ∧
      (0 < n → 0 < m) := by
  rcases Nat.eq_zero_or_pos n with h0 | hpos
  · subst h0
    exact ⟨0, 0, ofNat_zero, by simp, fun h => h⟩
  · obtain ⟨m, j, M, k, heq, hm1, _, hval, hlo, hhi, hM1, hM2, _, _⟩ := ofNat_spec n hpos
    refine ⟨m, j, heq, ?_, fun _ => by omega⟩
    rw [hval]
    have hnq : (n : ℚ) < 2 ^ 53 := by exact_mod_cast hn
    have hnpos : (0 : ℚ) < n := by exact_mod_cast hpos
    -- the shift is not negative: `n * 2^k ≥ 2^52` with `n < 2^53`
    have hk : 0 ≤ k := by
      by_contra hcon
      have hk1 : k ≤ -1 := by omega
      have h2 : (2 : ℚ) ^ k ≤ 2 ^ (-1 : ℤ) := zpow_le_zpow_right₀ (by norm_num) hk1
      have h3 : (n : ℚ) * 2 ^ k ≤ n * 2 ^ (-1 : ℤ) := mul_le_mul_of_nonneg_left h2 (le_of_lt hnpos)
      have h4 : (2 : ℚ) ^ (-1 : ℤ) = 1 / 2 := by norm_num
      rw [h4] at h3
      have h5 : (2 : ℚ) ^ 53 = 2 * 2 ^ 52 := by norm_num
      linarith
    obtain ⟨kn, rfl⟩ := Int.eq_ofNat_of_zero_le hk
    -- the shifted integer is an integer, so `M` is that integer
    have hX : (n : ℚ) * 2 ^ (kn : ℤ) = ((n * 2 ^ kn : ℕ) : ℚ) := by
      rw [zpow_natCast]
      push_cast
      ring
    rw [hX] at hM1 hM2
    obtain ⟨hle, hge⟩ := nat_near_bounds M _ hM1 hM2 (n * 2 ^ kn) (n * 2 ^ kn) (le_refl _)
      (le_refl _)
    have hMeq : M = n * 2 ^ kn := le_antisymm hge hle
    rw [hMeq, zpow_neg, zpow_natCast]
    push_cast
    field_simp

/-- The conversion from unsigned integers is monotone. -/
theorem ofNat_mono (a b : ℕ) (hab : a ≤ b) (ma mb : ℕ) (ja jb : ℤ)
    (ha : F64.ofNat a = F64.fin false ma ja) (hb : F64.ofNat b = F64.fin false mb jb) :
    (ma : ℚ) * 2 ^ ja ≤ (mb : ℚ) * 2 ^ jb := by
  rcases Nat.eq_zero_or_pos a with h0 | hapos
  · subst h0
    rw [ofNat_zero] at ha
    simp only [F64.fin.injEq, true_and] at ha
    rw [← ha.1]
    have : (0 : ℚ) < 2 ^ jb := zpow_pos (by norm_num) _
    simp only [Nat.cast_zero, zero_mul]
    positivity
  rcases Nat.eq_or_lt_of_le hab with heq | hlt
  · subst heq
    rw [ha] at hb
    simp only [F64.fin.injEq, true_and] at hb
    rw [hb.1, hb.2]
  have hbpos : 0 < b := by omega
  obtain ⟨m1, j1, M1, k1, heq1, _, _, hval1, hlo1, hhi1, hM11, hM12, hMlo1, hMhi1⟩ :=
    ofNat_spec a hapos
  obtain ⟨m2, j2, M2, k2, heq2, _, _, hval2, hlo2, hhi2, hM21, hM22, hMlo2, hMhi2⟩ :=
    ofNat_spec b hbpos
  rw [ha] at heq1
  rw [hb] at heq2
  simp only [F64.fin.injEq, true_and] at heq1 heq2
  rw [heq1.1, heq1.2, heq2.1, heq2.2, hval1, hval2]
  have haq : (0 : ℚ) < a := by exact_mod_cast hapos
  have hbq : (0 : ℚ) < b := by exact_mod_cast hbpos
  have habq : (a : ℚ) < b := by exact_mod_cast hlt
  have two_ne : (2 : ℚ) ≠ 0 := by norm_num
  -- the larger integer has the smaller shift
  have hk : k2 ≤ k1 := by
    by_contra hcon
    have hk1 : k1 + 1 ≤ k2 := by omega
    have h2 : (2 : ℚ) ^ (k1 + 1) ≤ 2 ^ k2 := zpow_le_zpow_right₀ (by norm_num) hk1
    rw [zpow_add₀ two_ne] at h2
    have hp1 : (0 : ℚ) < 2 ^ k1 := zpow_pos (by norm_num) _
    have h3 : (a : ℚ) * (2 ^ k1 * 2 ^ (1 : ℤ)) ≤ b * 2 ^ k2 :=
      le_trans (mul_le_mul_of_nonneg_left h2 (le_of_lt haq))
        (mul_le_mul_of_nonneg_right (le_of_lt habq) (le_of_lt (zpow_pos (by norm_num) _)))
    norm_num at h3 hlo1 hhi2
    linarith
  rcases eq_or_lt_of_le hk with hkeq | hklt
  · subst hkeq
    have hp2 : (0 : ℚ) < 2 ^ k2 := zpow_pos (by norm_num) _
    have hX : (a : ℚ) * 2 ^ k2 < b * 2 ^ k2 := mul_lt_mul_of_pos_right habq hp2
    have hMM : M1 ≤ M2 := by
      by_contra hcon
      have : M2 + 1 ≤ M1 := by omega
      have : ((M2 + 1 : ℕ) : ℚ) ≤ (M1 : ℚ) := by exact_mod_cast this
      push_cast at this
      linarith
    have hMMq : (M1 : ℚ) ≤ M2 := by exact_mod_cast hMM
    exact mul_le_mul_of_nonneg_right hMMq (le_of_lt (zpow_pos (by norm_num) _))
  · have h1 : (2 : ℚ) ^ (-k1 + 1) ≤ 2 ^ (-k2) := zpow_le_zpow_right₀ (by norm_num) (by omega)
    rw [zpow_add₀ two_ne] at h1
    have hp1 : (0 : ℚ) < 2 ^ (-k1) := zpow_pos (by norm_num) _
    have hp2 : (0 : ℚ) < 2 ^ (-k2) := zpow_pos (by norm_num) _
    have hM1q : (M1 : ℚ) ≤ 2 ^ 53 := by exact_mod_cast hMhi1
    have hM2q : (2 : ℚ) ^ 52 ≤ M2 := by exact_mod_cast hMlo2
    calc (M1 : ℚ) * 2 ^ (-k1) ≤ 2 ^ 53 * 2 ^ (-k1) :=
          mul_le_mul_of_nonneg_right hM1q (le_of_lt hp1)
      _ = 2 ^ 52 * (2 ^ (-k1) * 2 ^ (1 : ℤ)) := by norm_num; ring
      _ ≤ 2 ^ 52 * 2 ^ (-k2) := mul_le_mul_of_nonneg_left h1 (by norm_num)
      _ ≤ (M2 : ℚ) * 2 ^ (-k2) := mul_le_mul_of_nonneg_right hM2q (le_of_lt hp2)

/-- The conversion of an unsigned integer is a finite value of positive
sign. -/
theorem ofNat_fin (n : ℕ) : ∃ (m : ℕ) (j : ℤ), F64.ofNat n = F64.fin false m j ∧
    (0 < n → 0 < m) := by
  rcases Nat.eq_zero_or_pos n with h0 | hpos
  · subst h0
    exact ⟨0, 0, ofNat_zero, fun h => h⟩
  · obtain ⟨m, j, _, _, heq, hm, _⟩ := ofNat_spec n hpos
    exact ⟨m, j, heq, fun _ => by omega⟩

/-- The quotient of two finite values of positive sign, the divisor not zero
and not below the dividend: a finite value in `[0, 1]` within `2^-53` of the
exact quotient. -/
theorem div_unit (ma mb : ℕ) (ea eb : ℤ) (hmb : 0 < mb)
    (hle : (ma : ℚ) * 2 ^ ea ≤ (mb : ℚ) * 2 ^ eb) :
    ∃ (m : ℕ) (j : ℤ),
      F64.div (F64.fin false ma ea) (F64.fin false mb eb) = F64.fin false m j ∧
      0 ≤ (m : ℚ) * 2 ^ j ∧ (m : ℚ) * 2 ^ j ≤ 1 ∧
      |(m : ℚ) * 2 ^ j - ((ma : ℚ) * 2 ^ ea) / ((mb : ℚ) * 2 ^ eb)| ≤ 2 ^ (-53 : ℤ) := by
  have two_ne : (2 : ℚ) ≠ 0 := by norm_num
  have hdiv : F64.div (F64.fin false ma ea) (F64.fin false mb eb)
      = F64.round false ma mb (ea - eb) := by
    simp [F64.div, Nat.pos_iff_ne_zero.mp hmb]
  rw [hdiv]
  rcases Nat.eq_zero_or_pos ma with h0 | hma
  · subst h0
    refine ⟨0, 0, ?_, by simp, by simp, ?_⟩
    · unfold F64.round
      rw [if_pos rfl]
    · simp only [Nat.cast_zero, zero_mul, zero_div, sub_zero, abs_zero]
      positivity
  · obtain ⟨m, j, M, k, heq, _, _, hval, hlo, hhi, hM1, hM2, _, _⟩ :=
      round_spec false ma mb (ea - eb) hma hmb
    refine ⟨m, j, heq, ?_, ?_, ?_⟩
    · have : (0 : ℚ) < 2 ^ j := zpow_pos (by norm_num) _
      positivity
    all_goals
      rw [hval]
      have hmaq : (0 : ℚ) < ma := by exact_mod_cast hma
      have hmbq : (0 : ℚ) < mb := by exact_mod_cast hmb
      have hpa : (0 : ℚ) < 2 ^ ea := zpow_pos (by norm_num) _
      have hpb : (0 : ℚ) < 2 ^ eb := zpow_pos (by norm_num) _
      have hpk : (0 : ℚ) < 2 ^ (k - (ea - eb)) := zpow_pos (by norm_num) _
      have hps : (0 : ℚ) < 2 ^ (ea - eb - k) := zpow_pos (by norm_num) _
      -- the exact quotient `x` and its shifted form
      have hx : ((ma : ℚ) * 2 ^ ea) / ((mb : ℚ) * 2 ^ eb) = (ma : ℚ) / mb * 2 ^ (ea - eb) := by
        rw [zpow_sub₀ two_ne]
        field_simp
      have hx1 : (ma : ℚ) / mb * 2 ^ (ea - eb) ≤ 1 := by
        rw [← hx, div_le_one (mul_pos hmbq hpb)]
        exact hle
      have hx0 : (0 : ℚ) < (ma : ℚ) / mb * 2 ^ (ea - eb) :=
        mul_pos (div_pos hmaq hmbq) (zpow_pos (by norm_num) _)
      have hX : (ma : ℚ) / mb * 2 ^ k
          = (ma : ℚ) / mb * 2 ^ (ea - eb) * 2 ^ (k - (ea - eb)) := by
        rw [mul_assoc, ← zpow_add₀ two_ne]
        congr 2
        ring
      -- the shift is at least 52
      have hshift : 52 ≤ k - (ea - eb) := by
        by_contra hcon
        have h1 : (2 : ℚ) ^ (k - (ea - eb)) ≤ 2 ^ (51 : ℤ) :=
          zpow_le_zpow_right₀ (by norm_num) (by omega)
        have h2 : (ma : ℚ) / mb * 2 ^ (ea - eb) * 2 ^ (k - (ea - eb))
            ≤ 1 * 2 ^ (51 : ℤ) :=
          mul_le_mul hx1 h1 (le_of_lt hpk) (by norm_num)
        rw [← hX] at h2
        have h3 : (2 : ℚ) ^ (51 : ℤ) < 2 ^ 52 := by norm_num
        linarith
      obtain ⟨n, hn⟩ := Int.eq_ofNat_of_zero_le (show 0 ≤ k - (ea - eb) by omega)
      have hN : (2 : ℚ) ^ (k - (ea - eb)) = ((2 ^ n : ℕ) : ℚ) := by
        rw [hn, zpow_natCast]
        push_cast
        rfl
      have hinv : (2 : ℚ) ^ (ea - eb - k) * 2 ^ (k - (ea - eb)) = 1 := by
        rw [← zpow_add₀ two_ne]
        have : ea - eb - k + (k - (ea - eb)) = 0 := by ring
        rw [this, zpow_zero]
      have hXN : (ma : ℚ) / mb * 2 ^ k ≤ ((2 ^ n : ℕ) : ℚ) := by
        rw [hX, ← hN]
        calc (ma : ℚ) / mb * 2 ^ (ea - eb) * 2 ^ (k - (ea - eb))
            ≤ 1 * 2 ^ (k - (ea - eb)) := mul_le_mul_of_nonneg_right hx1 (le_of_lt hpk)
          _ = 2 ^ (k - (ea - eb)) := one_mul _
      obtain ⟨_, hMN⟩ := nat_near_bounds M _ hM1 hM2 0 (2 ^ n)
        (by simp only [Nat.cast_zero]; linarith) hXN
      have hMNq : (M : ℚ) ≤ 2 ^ (k - (ea - eb)) := by
        rw [hN]
        exact_mod_cast hMN
    · calc (M : ℚ) * 2 ^ (ea - eb - k) ≤ 2 ^ (k - (ea - eb)) * 2 ^ (ea - eb - k) :=
          mul_le_mul_of_nonneg_right hMNq (le_of_lt hps)
        _ = 1 := by rw [mul_comm]; exact hinv
    · have hsmall : (2 : ℚ) ^ (ea - eb - k) ≤ 2 ^ (-52 : ℤ) :=
        zpow_le_zpow_right₀ (by norm_num) (by omega)
      have hdiff : (M : ℚ) * 2 ^ (ea - eb - k) - (ma : ℚ) * 2 ^ ea / ((mb : ℚ) * 2 ^ eb)
          = ((M : ℚ) - (ma : ℚ) / mb * 2 ^ k) * 2 ^ (ea - eb - k) := by
        rw [hx, hX, sub_mul, mul_assoc, mul_assoc, mul_comm (2 ^ (k - (ea - eb))), hinv, mul_one]
      rw [hdiff, abs_mul, abs_of_pos hps]
      have habs : |(M : ℚ) - (ma : ℚ) / mb * 2 ^ k| ≤ 1 / 2 := by
        rw [abs_le]
        constructor <;> linarith
      have h53 : (2 : ℚ) ^ (-53 : ℤ) = 1 / 2 * 2 ^ (-52 : ℤ) := by norm_num
      rw [h53]
      exact mul_le_mul habs hsmall (le_of_lt hps) (by norm_num)

/-- The comparison of the literal `1.0` with a finite value of positive sign
is the comparison of their rational values. -/
theorem lt_one_fin (m : ℕ) (j : ℤ) :
    F64.lt F64.one (F64.fin false m j) = true ↔ 1 < (m : ℚ) * 2 ^ j := by
  have two_ne : (2 : ℚ) ≠ 0 := by norm_num
  unfold F64.lt F64.one F64.signed
  simp only [Bool.false_eq_true, if_false, decide_eq_true_eq]
  rcases le_total (-52) j with h | h
  · obtain ⟨n, hn⟩ := Int.eq_ofNat_of_zero_le (show 0 ≤ j + 52 by omega)
    have hj : j = (n : ℤ) - 52 := by omega
    subst hj
    have hmin : min (-52 : ℤ) ((n : ℤ) - 52) = -52 := min_eq_left h
    rw [hmin]
    have ha : ((-52 : ℤ) - -52).toNat = 0 := by omega
    have hb : ((n : ℤ) - 52 - -52).toNat = n := by omega
    rw [ha, hb, zpow_sub₀ two_ne, zpow_natCast]
    have h52 : (2 : ℚ) ^ (52 : ℤ) = 2 ^ 52 := by norm_num
    rw [h52, ← mul_div_assoc, lt_div_iff₀ (by norm_num), one_mul]
    constructor
    · intro hlt
      have : (((2 ^ 52 : ℕ) : ℤ) * 2 ^ 0 : ℤ) < (m : ℤ) * 2 ^ n := by exact_mod_cast hlt
      have h2 : ((2 ^ 52 * 2 ^ 0 : ℤ) : ℚ) < (((m : ℤ) * 2 ^ n : ℤ) : ℚ) := by exact_mod_cast this
      push_cast at h2
      linarith
    · intro hlt
      have h2 : ((2 ^ 52 * 2 ^ 0 : ℤ) : ℚ) < (((m : ℤ) * 2 ^ n : ℤ) : ℚ) := by
        push_cast
        linarith
      exact_mod_cast h2
  · obtain ⟨n, hn⟩ := Int.eq_ofNat_of_zero_le (show 0 ≤ -52 - j by omega)
    have hj : j = -52 - (n : ℤ) := by omega
    subst hj
    have hmin : min (-52 : ℤ) (-52 - (n : ℤ)) = -52 - (n : ℤ) := min_eq_right h
    rw [hmin]
    have ha : ((-52 : ℤ) - (-52 - (n : ℤ))).toNat = n := by omega
    have hb : ((-52 : ℤ) - (n : ℤ) - (-52 - (n : ℤ))).toNat = 0 := by omega
    rw [ha, hb, zpow_sub₀ two_ne, zpow_natCast]
    have h52 : (2 : ℚ) ^ (-52 : ℤ) = 1 / 2 ^ 52 := by norm_num
    have hpn : (0 : ℚ) < 2 ^ n := by positivity
    rw [h52, div_div, ← mul_div_assoc, mul_one, lt_div_iff₀ (by positivity), one_mul]
    constructor
    · intro hlt
      have h2 : ((2 ^ 52 * 2 ^ n : ℤ) : ℚ) < (((m : ℤ) * 2 ^ 0 : ℤ) : ℚ) := by exact_mod_cast hlt
      push_cast at h2
      linarith
    · intro hlt
      have h2 : ((2 ^ 52 * 2 ^ n : ℤ) : ℚ) < (((m : ℤ) * 2 ^ 0 : ℤ) : ℚ) := by
        push_cast
        linarith
      exact_mod_cast h2

/-- The idle fraction computed from two deltas with `0 < total` and
`idle ≤ total`: the `double` quotient of the converted deltas is a finite value
in `[0, 1]`, and when the total delta is below `2^53` (so that both conversions
are exact) it is within `2^-53` of the exact quotient. -/
theorem fraction_unit (i t : ℕ) (ht : 0 < t) (hle : i ≤ t) :
    ∃ r : ℚ, F64.toRat (F64.div (F64.ofNat i) (F64.ofNat t)) = some r ∧ 0 ≤ r ∧ r ≤ 1 ∧
      (t < 2 ^ 53 → |r - (i : ℚ) / (t : ℚ)| ≤ 2 ^ (-53 : ℤ)) := by
  obtain ⟨mi, ji, hi, _⟩ := ofNat_fin i
  obtain ⟨mt, jt, htf, hmt⟩ := ofNat_fin t
  have hmono := ofNat_mono i t hle mi mt ji jt hi htf
  obtain ⟨m, j, hdiv, h0, h1, herr⟩ := div_unit mi mt ji jt (hmt ht) hmono
  rw [hi, htf, hdiv]
  refine ⟨(m : ℚ) * 2 ^ j, ?_, h0, h1, ?_⟩
  · simp [F64.toRat]
  · intro hsmall
    obtain ⟨mi1, ji1, hi1, hvi, _⟩ := ofNat_exact i (by omega)
    obtain ⟨mt1, jt1, ht1, hvt, _⟩ := ofNat_exact t hsmall
    rw [hi] at hi1
    rw [htf] at ht1
    simp only [F64.fin.injEq, true_and] at hi1 ht1
    rw [← hi1.1, ← hi1.2] at hvi
    rw [← ht1.1, ← ht1.2] at hvt
    rw [← hvi, ← hvt]
    exact herr

/-- The `double` 100. -/
theorem ofNat_hundred : F64.ofNat 100 = F64.fin false 7036874417766400 (-46) := by
  decide

/-- A percent value above 100 gives a `double` quotient above `1.0`. -/
theorem percent_gt_one (p : ℕ) (hp : 100 < p) (hp32 : p < 2 ^ 32) :
    F64.lt F64.one (F64.div (F64.ofNat p) (F64.ofNat 100)) = true := by
  have two_ne : (2 : ℚ) ≠ 0 := by norm_num
  obtain ⟨mp, jp, hpf, hvp, hmp⟩ := ofNat_exact p (by omega)
  have hmppos : 0 < mp := hmp (by omega)
  rw [hpf, ofNat_hundred]
  have hdiv : F64.div (F64.fin false mp jp) (F64.fin false 7036874417766400 (-46))
      = F64.round false mp 7036874417766400 (jp - -46) := by
    simp [F64.div]
  rw [hdiv]
  obtain ⟨m, j, M, k, heq, _, _, hval, hlo, hhi, hM1, hM2, hMlo, _⟩ :=
    round_spec false mp 7036874417766400 (jp - -46) hmppos (by norm_num)
  rw [heq, lt_one_fin, hval]
  -- the exact quotient is `p / 100`
  have hpq : (101 : ℚ) ≤ p := by exact_mod_cast hp
  have h100 : (7036874417766400 : ℚ) * 2 ^ (-46 : ℤ) = 100 := by norm_num
  have hpj : (0 : ℚ) < 2 ^ jp := zpow_pos (by norm_num) _
  have hx : ((mp : ℚ) / (7036874417766400 : ℕ)) * 2 ^ (jp - -46) = (p : ℚ) / 100 := by
    rw [← hvp, ← h100, zpow_sub₀ two_ne]
    push_cast
    field_simp
    ring
  have hX : ((mp : ℚ) / (7036874417766400 : ℕ)) * 2 ^ k
      = (p : ℚ) / 100 * 2 ^ (k - (jp - -46)) := by
    rw [← hx, mul_assoc, ← zpow_add₀ two_ne]
    congr 2
    ring
  rw [hX] at hlo hhi hM1 hM2
  have hpk : (0 : ℚ) < 2 ^ (k - (jp - -46)) := zpow_pos (by norm_num) _
  have hps : (0 : ℚ) < 2 ^ (jp - -46 - k) := zpow_pos (by norm_num) _
  have hMq : (2 : ℚ) ^ 52 ≤ M := by exact_mod_cast hMlo
  -- the shift is at most 52
  have hshift : k - (jp - -46) ≤ 52 := by
    by_contra hcon
    have h1 : (2 : ℚ) ^ (53 : ℤ) ≤ 2 ^ (k - (jp - -46)) :=
      zpow_le_zpow_right₀ (by norm_num) (by omega)
    have h2 : (1 : ℚ) * 2 ^ (53 : ℤ) ≤ (p : ℚ) / 100 * 2 ^ (k - (jp - -46)) :=
      mul_le_mul (by linarith) h1 (by norm_num) (by linarith)
    have h3 : (2 : ℚ) ^ (53 : ℤ) = 2 ^ 53 := by norm_num
    linarith
  rcases eq_or_lt_of_le hshift with h52 | hlt
  · -- the shifted quotient is at least `2^52 + 1`, and so is `M`
    have hk : jp - -46 - k = -52 := by omega
    rw [h52] at hM1 hM2
    rw [hk]
    have h4 : (2 : ℚ) ^ (52 : ℤ) = 2 ^ 52 := by norm_num
    rw [h4] at hM2
    have hbig : ((2 ^ 52 + 1 : ℕ) : ℚ) ≤ (p : ℚ) / 100 * 2 ^ 52 := by
      push_cast
      have : (101 : ℚ) / 100 * 2 ^ 52 ≤ (p : ℚ) / 100 * 2 ^ 52 := by
        apply mul_le_mul_of_nonneg_right _ (by norm_num)
        linarith
      have h5 : (2 : ℚ) ^ 52 + 1 ≤ 101 / 100 * 2 ^ 52 := by norm_num
      linarith
    have hMbig : 2 ^ 52 + 1 ≤ M := by
      by_contra hcon
      have : M ≤ 2 ^ 52 := by omega
      have hMle : (M : ℚ) ≤ ((2 ^ 52 : ℕ) : ℚ) := by exact_mod_cast this
      push_cast at hMle hbig
      linarith
    have hMbigq : ((2 ^ 52 + 1 : ℕ) : ℚ) ≤ (M : ℚ) := by exact_mod_cast hMbig
    push_cast at hMbigq
    have h6 : (2 : ℚ) ^ (-52 : ℤ) = 1 / 2 ^ 52 := by norm_num
    rw [h6, mul_one_div, lt_div_iff₀ (by norm_num)]
    linarith
  · -- the value is at least `2^52 * 2^-51 = 2`
    have h1 : (2 : ℚ) ^ (-51 : ℤ) ≤ 2 ^ (jp - -46 - k) :=
      zpow_le_zpow_right₀ (by norm_num) (by omega)
    have h2 : (2 : ℚ) ^ 52 * 2 ^ (-51 : ℤ) ≤ (M : ℚ) * 2 ^ (jp - -46 - k) :=
      mul_le_mul hMq h1 (by positivity) (by linarith)
    have h3 : (2 : ℚ) ^ 52 * 2 ^ (-51 : ℤ) = 2 := by norm_num
    linarith

/-- A percent value of at most 100 gives a `double` quotient that is finite,
in `[0, 1]`, within `2^-53` of `p / 100` and not above `1.0`. -/
theorem percent_le_one (p : ℕ) (hp : p ≤ 100) :
    F64.lt F64.one (F64.div (F64.ofNat p) (F64.ofNat 100)) = false ∧
    ∃ r : ℚ, F64.toRat (F64.div (F64.ofNat p) (F64.ofNat 100)) = some r ∧ 0 ≤ r ∧ r ≤ 1 ∧
      |r - (p : ℚ) / 100| ≤ 2 ^ (-53 : ℤ) := by
  obtain ⟨mp, jp, hpf, _⟩ := ofNat_fin p
  obtain ⟨mt, jt, htf, hmt⟩ := ofNat_fin 100
  have hmono := ofNat_mono p 100 hp mp mt jp jt hpf htf
  obtain ⟨m, j, hdiv, h0, h1, _⟩ := div_unit mp mt jp jt (hmt (by norm_num)) hmono
  obtain ⟨r, hr, hr0, hr1, herr⟩ := fraction_unit p 100 (by norm_num) hp
  constructor
  · rw [hpf, htf, hdiv]
    cases hlt : F64.lt F64.one (F64.fin false m j) with
    | false => rfl
    | true =>
      have := (lt_one_fin m j).mp hlt
      linarith
  · refine ⟨r, hr, hr0, hr1, ?_⟩
    have := herr (by norm_num)
    simpa using this

/-- The loop of `getRecentCpuLoads` only ever appends to the vector, whether
it runs to its end or not. -/
theorem loadsLoop_keeps_prefix (prev cur : CpuTimeMap) :
    ∀ result : List CpuLoad, ∃ loads : List CpuLoad,
      (loadsLoop prev cur result).2 = result ++ loads := by
  induction cur with
  | nil =>
    intro result
    exact ⟨[], by simp [loadsLoop]⟩
  | cons hd tl ih =>
    obtain ⟨cpuId, cpuTime⟩ := hd
    intro result
    unfold loadsLoop
    split
    · exact ⟨[], by simp⟩
    · split_ifs with hgt
      · exact ⟨[], by simp⟩
      · obtain ⟨loads, hloads⟩ := ih (result ++
          [⟨cpuId, F64.div (F64.ofNat (recentIdleTimeMs cpuTime _))
            (F64.ofNat (recentTotalTimeMs cpuTime _))⟩])
        exact ⟨_ :: loads, by rw [hloads, List.append_assoc]; rfl⟩

/-- One turn of the loop of `getRecentCpuLoads` for a core that is in the
baseline and passes the check: the load with the quotient of its two deltas is
pushed and the loop goes on. -/
theorem loadsLoop_cons_pass (prev : CpuTimeMap) (cpuId : Nat) (cpuTime p : CpuTime)
    (rest : CpuTimeMap) (result : List CpuLoad) (hfind : mapFind prev cpuId = some p)
    (hle : recentIdleTimeMs cpuTime p ≤ recentTotalTimeMs cpuTime p) :
    loadsLoop prev ((cpuId, cpuTime) :: rest) result
      = loadsLoop prev rest (result ++ [⟨cpuId,
          F64.div (F64.ofNat (recentIdleTimeMs cpuTime p))
            (F64.ofNat (recentTotalTimeMs cpuTime p))⟩]) := by
  conv_lhs => unfold loadsLoop
  simp only [hfind]
  rw [if_neg (by omega)]

/-- The loop over `pre ++ rest`, when every core of `pre` is in the baseline
and passes the check, is the loop over `rest` started on the vector that the
loop over `pre` leaves. -/
theorem loadsLoop_append (prev pre rest : CpuTimeMap) :
    ∀ result : List CpuLoad,
      (∀ e ∈ pre, ∃ p, mapFind prev e.1 = some p ∧
        recentIdleTimeMs e.2 p ≤ recentTotalTimeMs e.2 p) →
      loadsLoop prev (pre ++ rest) result
        = loadsLoop prev rest (loadsLoop prev pre result).2 := by
  induction pre with
  | nil =>
    intro result _
    simp [loadsLoop]
  | cons hd tl ih =>
    obtain ⟨cpuId, cpuTime⟩ := hd
    intro result hall
    obtain ⟨p, hp, hle⟩ := hall (cpuId, cpuTime) (List.mem_cons_self _ _)
    have htl := fun e he => hall e (List.mem_cons_of_mem _ he)
    simp only at hp hle
    rw [List.cons_append, loadsLoop_cons_pass prev cpuId cpuTime p _ result hp hle,
      loadsLoop_cons_pass prev cpuId cpuTime p _ result hp hle]
    exact ih _ htl

/-- With a vector to write to and a non-empty snapshot, the vector after the
call is the vector that the loop leaves, whatever the call returns. -/
theorem getRecentCpuLoads_result (self : CpuLoadReader) (clkTck : Nat)
    (procStat : List String) (out : List CpuLoad) (hne : readCpuTimes clkTck procStat ≠ []) :
    (self.getRecentCpuLoads clkTck procStat (some out)).result
      = some (loadsLoop self.mPreviousCpuTimes (readCpuTimes clkTck procStat) out).2 := by
  unfold CpuLoadReader.getRecentCpuLoads
  simp only
  have hempty : ¬ (readCpuTimes clkTck procStat).isEmpty = true := by
    intro h
    exact hne (List.isEmpty_iff.mp h)
  rw [if_neg hempty]
  split <;> rename_i out1 heq <;> simp [heq]

/-- C14: every core processed by `getRecentCpuLoads` whose deltas satisfy
`deltaTotal > 0` and `deltaIdle ≤ deltaTotal` gets a load in the result vector
whose `idleTimeFraction` is the `double` quotient of the two deltas; that
quotient is a finite value in the closed interval `[0, 1]`, within `2^-53` of
`deltaIdle / deltaTotal` when the total delta is below `2^53`. First part: a
call that returns `true` leaves the old vector followed by exactly one such
load per core of the snapshot. Second part: whatever the call returns, a core
that the loop reaches (every core before it is in the baseline and passes the
check) has its load in the vector after the call. -/
theorem getRecentCpuLoads_fraction_in_unit_interval (self : CpuLoadReader) (clkTck : Nat)
    (procStat : List String) (out : List CpuLoad) :
    ((self.getRecentCpuLoads clkTck procStat (some out)).ok = true →
      ∃ loads : List CpuLoad,
        (self.getRecentCpuLoads clkTck procStat (some out)).result = some (out ++ loads) ∧
        loads.map (fun l => l.cpuId) = (readCpuTimes clkTck procStat).map (fun e => e.1) ∧
        ∀ l ∈ loads, ∃ (t p : CpuTime), (l.cpuId, t) ∈ readCpuTimes clkTck procStat ∧
          mapFind self.getPreviousCpuTimes l.cpuId = some p ∧
          recentIdleTimeMs t p ≤ recentTotalTimeMs t p ∧
          l.idleTimeFraction
            = F64.div (F64.ofNat (recentIdleTimeMs t p)) (F64.ofNat (recentTotalTimeMs t p)) ∧
          (0 < recentTotalTimeMs t p →
            ∃ r : ℚ, F64.toRat l.idleTimeFraction = some r ∧ 0 ≤ r ∧ r ≤ 1 ∧
              (recentTotalTimeMs t p < 2 ^ 53 →
                |r - (recentIdleTimeMs t p : ℚ) / (recentTotalTimeMs t p : ℚ)|
                  ≤ 2 ^ (-53 : ℤ)))) ∧
    (∀ (pre post : CpuTimeMap) (cpuId : Nat) (cpuTime previousCpuTime : CpuTime),
      readCpuTimes clkTck procStat = pre ++ (cpuId, cpuTime) :: post →
      (∀ e ∈ pre, ∃ p, mapFind self.getPreviousCpuTimes e.1 = some p ∧
        recentIdleTimeMs e.2 p ≤ recentTotalTimeMs e.2 p) →
      mapFind self.getPreviousCpuTimes cpuId = some previousCpuTime →
      0 < recentTotalTimeMs cpuTime previousCpuTime →
      recentIdleTimeMs cpuTime previousCpuTime ≤ recentTotalTimeMs cpuTime previousCpuTime →
      ∃ (vec : List CpuLoad) (r : ℚ),
        (self.getRecentCpuLoads clkTck procStat (some out)).result = some vec ∧
        (⟨cpuId, F64.div (F64.ofNat (recentIdleTimeMs cpuTime previousCpuTime))
          (F64.ofNat (recentTotalTimeMs cpuTime previousCpuTime))⟩ : CpuLoad) ∈ vec ∧
        F64.toRat (F64.div (F64.ofNat (recentIdleTimeMs cpuTime previousCpuTime))
          (F64.ofNat (recentTotalTimeMs cpuTime previousCpuTime))) = some r ∧
        0 ≤ r ∧ r ≤ 1 ∧
        (recentTotalTimeMs cpuTime previousCpuTime < 2 ^ 53 →
          |r - (recentIdleTimeMs cpuTime previousCpuTime : ℚ)
              / (recentTotalTimeMs cpuTime previousCpuTime : ℚ)| ≤ 2 ^ (-53 : ℤ))) := by
  constructor
  · intro hok
    obtain ⟨out0, out1, hsome, hloop, heq⟩ :=
      getRecentCpuLoads_of_ok self clkTck procStat (some out) hok
    simp only [Option.some.injEq] at hsome
    subst hsome
    obtain ⟨loads, hout, hids, hall⟩ := loadsLoop_appends _ _ _ _ hloop
    refine ⟨loads, by rw [heq, hout], hids, ?_⟩
    intro l hl
    obtain ⟨t, p, hmem, hp, hle, hfrac⟩ := hall l hl
    refine ⟨t, p, hmem, hp, hle, hfrac, fun hpos => ?_⟩
    rw [hfrac]
    exact fraction_unit _ _ hpos hle
  · intro pre post cpuId cpuTime previousCpuTime hsplit hpre hfind hpos hle
    have hne : readCpuTimes clkTck procStat ≠ [] := by
      rw [hsplit]
      simp
    obtain ⟨r, hr, hr0, hr1, herr⟩ := fraction_unit _ _ hpos hle
    have hstep : loadsLoop self.mPreviousCpuTimes (readCpuTimes clkTck procStat) out
        = loadsLoop self.mPreviousCpuTimes post
          ((loadsLoop self.mPreviousCpuTimes pre out).2 ++
            [⟨cpuId, F64.div (F64.ofNat (recentIdleTimeMs cpuTime previousCpuTime))
              (F64.ofNat (recentTotalTimeMs cpuTime previousCpuTime))⟩]) := by
      have hpre1 : ∀ e ∈ pre, ∃ p, mapFind self.mPreviousCpuTimes e.1 = some p ∧
          recentIdleTimeMs e.2 p ≤ recentTotalTimeMs e.2 p := hpre
      rw [hsplit, loadsLoop_append _ _ _ _ hpre1]
      exact loadsLoop_cons_pass _ _ _ _ _ _ hfind hle
    obtain ⟨loads, hloads⟩ := loadsLoop_keeps_prefix self.mPreviousCpuTimes post
      ((loadsLoop self.mPreviousCpuTimes pre out).2 ++
        [⟨cpuId, F64.div (F64.ofNat (recentIdleTimeMs cpuTime previousCpuTime))
          (F64.ofNat (recentTotalTimeMs cpuTime previousCpuTime))⟩])
    refine ⟨_, r, getRecentCpuLoads_result self clkTck procStat out hne, ?_, hr, hr0, hr1, herr⟩
    rw [hstep, hloads]
    simp

/-- Witness of C14: core 0 moves from 500/1500 ms to 600/2600 ms and core 1 is
not in the baseline. The call returns `false`, and the load of core 0, with the
quotient of the deltas 100 ms and 1100 ms, is in the vector. -/
theorem getRecentCpuLoads_fraction_in_unit_interval_witness :
    ((CpuLoadReader.init 100 ["cpu0 100 0 0 50 0 0 0 0 0 0"]).getRecentCpuLoads 100
        ["cpu0 200 0 0 60 0 0 0 0 0 0", "cpu1 7 0 0 3 0 0 0 0 0 0"] (some [])).ok = false ∧
    recentIdleTimeMs ⟨600, 2600⟩ ⟨500, 1500⟩ = 100 ∧
    recentTotalTimeMs ⟨600, 2600⟩ ⟨500, 1500⟩ = 1100 ∧
    ((CpuLoadReader.init 100 ["cpu0 100 0 0 50 0 0 0 0 0 0"]).getRecentCpuLoads 100
        ["cpu0 200 0 0 60 0 0 0 0 0 0", "cpu1 7 0 0 3 0 0 0 0 0 0"] (some [])).result
          = some [⟨0, F64.round false 1 11 0⟩] ∧
    ∃ (vec : List CpuLoad) (r : ℚ),
      ((CpuLoadReader.init 100 ["cpu0 100 0 0 50 0 0 0 0 0 0"]).getRecentCpuLoads 100
        ["cpu0 200 0 0 60 0 0 0 0 0 0", "cpu1 7 0 0 3 0 0 0 0 0 0"] (some [])).result
          = some vec ∧
      (⟨0, F64.div (F64.ofNat (recentIdleTimeMs ⟨600, 2600⟩ ⟨500, 1500⟩))
        (F64.ofNat (recentTotalTimeMs ⟨600, 2600⟩ ⟨500, 1500⟩))⟩ : CpuLoad) ∈ vec ∧
      F64.toRat (F64.div (F64.ofNat (recentIdleTimeMs ⟨600, 2600⟩ ⟨500, 1500⟩))
        (F64.ofNat (recentTotalTimeMs ⟨600, 2600⟩ ⟨500, 1500⟩))) = some r ∧
      0 ≤ r ∧ r ≤ 1 :=
  have h := (getRecentCpuLoads_fraction_in_unit_interval
    (CpuLoadReader.init 100 ["cpu0 100 0 0 50 0 0 0 0 0 0"]) 100
    ["cpu0 200 0 0 60 0 0 0 0 0 0", "cpu1 7 0 0 3 0 0 0 0 0 0"] []).2
    [] [(1, ⟨30, 100⟩)] 0 ⟨600, 2600⟩ ⟨500, 1500⟩ (by decide) (by simp) (by decide)
    (by decide) (by decide)
  ⟨by decide, by decide, by decide, by decide,
    h.imp (fun _ hv => hv.imp (fun _ hr => ⟨hr.1, hr.2.1, hr.2.2.1, hr.2.2.2.1, hr.2.2.2.2.1⟩))⟩

/-- C17: for every unsigned 32-bit percent `p` under the throttle-probability
key, `ReadFromSystemProperties` returns the `double` quotient `p / 100` when
`p ≤ 100` (it is within `2^-53` of the exact quotient) and the default `0.0`
when `p > 100`; in either case the probability is a finite value in `[0, 1]`. -/
theorem ReadFromSystemProperties_probability (props : SystemProperties) (p : Nat)
    (hraw : props.randomThrottleDecisionPercent = some p) (hp : p < 2 ^ 32) :
    (p ≤ 100 →
      (AdaptiveCpuConfig.ReadFromSystemProperties props).randomThrottleDecisionProbability
          = F64.div (F64.ofNat p) (F64.ofNat 100) ∧
        ∃ r : ℚ, F64.toRat
            (AdaptiveCpuConfig.ReadFromSystemProperties props).randomThrottleDecisionProbability
              = some r ∧ |r - (p : ℚ) / 100| ≤ 2 ^ (-53 : ℤ)) ∧
    (100 < p →
      (AdaptiveCpuConfig.ReadFromSystemProperties props).randomThrottleDecisionProbability
        = F64.zero) ∧
    ∃ r : ℚ, F64.toRat
        (AdaptiveCpuConfig.ReadFromSystemProperties props).randomThrottleDecisionProbability
          = some r ∧ 0 ≤ r ∧ r ≤ 1 := by
  have hprob :
      (AdaptiveCpuConfig.ReadFromSystemProperties props).randomThrottleDecisionProbability
        = if F64.lt F64.one (F64.div (F64.ofNat p) (F64.ofNat 100)) = true then F64.zero
          else F64.div (F64.ofNat p) (F64.ofNat 100) := by
    unfold AdaptiveCpuConfig.ReadFromSystemProperties
    simp only
    rw [hraw]
    unfold getUintProperty
    simp only
    rw [if_pos hp]
    rfl
  rw [hprob]
  by_cases hle : p ≤ 100
  · obtain ⟨hlt, r, hr, hr0, hr1, herr⟩ := percent_le_one p hle
    rw [hlt]
    simp only [Bool.false_eq_true, if_false]
    exact ⟨fun _ => ⟨trivial, r, hr, herr⟩, fun h => absurd h (by omega), r, hr, hr0, hr1⟩
  · have hgt := percent_gt_one p (by omega) hp
    rw [hgt]
    simp only [if_true]
    refine ⟨fun h => absurd h hle, fun _ => trivial, 0, ?_, le_refl _, by norm_num⟩
    simp [F64.zero, F64.toRat]

/-- Witness of C17: the percent 150 gives the default 0.0 and the percent 50
gives 0.5, which is `2^52 * 2^-53`. -/
theorem ReadFromSystemProperties_probability_witness :
    (AdaptiveCpuConfig.ReadFromSystemProperties
        ⟨none, none, some 150, none⟩).randomThrottleDecisionProbability = F64.zero ∧
    (AdaptiveCpuConfig.ReadFromSystemProperties
        ⟨none, none, some 50, none⟩).randomThrottleDecisionProbability
      = F64.div (F64.ofNat 50) (F64.ofNat 100) ∧
    F64.div (F64.ofNat 50) (F64.ofNat 100) = F64.fin false (2 ^ 52) (-53) :=
  ⟨(ReadFromSystemProperties_probability ⟨none, none, some 150, none⟩ 150 rfl
      (by decide)).2.1 (by decide),
    ((ReadFromSystemProperties_probability ⟨none, none, some 50, none⟩ 50 rfl
      (by decide)).1 (by decide)).1,
    by decide⟩

end AdaptiveCpu
